import Mathlib

/-!
Verification development for the `ksq` k²-tree library.

The shallow embedding mirrors the Rust sources:
* a `Cell` is a `u16` bit word, modelled as a `Nat` together with the
  invariant that it is `< 2 ^ 16`;
* a `Layer` is a list of cells (`List Nat`);
* a `Tree` is a list of layers, coarsest (root) first.

Machine integers are modelled as `Nat`; all bit manipulation keeps the
source's shape (`&&&`, `|||`, `<<<`, masks).  Rust `panic!` paths
(out-of-range bit indices) are not taken by any theorem below: each theorem
carries the corresponding in-range hypothesis, matching the source's
bounds checks.  The one place where a panic is itself the observable
behaviour (the iterator engine's `cell.get` bounds assertion) is modelled
explicitly with `Option`, `none` denoting a panic.
-/

namespace Ksq

/-- `CellRepr` values are `u16`, i.e. naturals below `2 ^ 16`. -/
def cellMax : Nat := 65536

/-- `Cell::bits()`: the number of bits stored in a cell. -/
def Cell.bits : Nat := 16

/-- `Cell::get`: `self.0 & (1 << n) != 0` (the source's early return for a
zero cell is semantically the same). -/
def Cell.get (c n : Nat) : Bool := c &&& (1 <<< n) != 0

/-- `Cell::set`: `self.0 | (1 << n)` or `self.0 & !(1 << n)`; the `u16`
bitwise negation of `1 << n` is `65535 ^ (1 << n)`. -/
def Cell.set (c n : Nat) (v : Bool) : Nat :=
  if v then c ||| (1 <<< n) else c &&& (65535 ^^^ (1 <<< n))

/-- `u16::count_ones`, the popcount of the 16 bit slots of a cell. -/
def Cell.count_ones (c : Nat) : Nat :=
  ((List.range 16).filter fun i => Cell.get c i).length

/-- `Cell::count_ones_until`: `(self.0 & ((1 << idx) - 1)).count_ones()`. -/
def Cell.count_ones_until (c idx : Nat) : Nat :=
  Cell.count_ones (c &&& ((1 <<< idx) - 1))

/-- A layer is a sequence of cells. -/
abbrev Layer := List Nat

/-- `<[Cell] as CountOnes>::count_ones`: total popcount of a cell list. -/
def Layer.count_ones (l : Layer) : Nat := (l.map Cell.count_ones).sum

/-- `<[Cell] as CountOnes>::count_ones_until`: sums the popcounts of the
cells in `self[0..idx]` (note: `idx` is a cell index, not a bit offset). -/
def Layer.count_ones_until (l : Layer) (idx : Nat) : Nat :=
  Layer.count_ones (l.take idx)

/-- `Layer::layer_bits`: total number of bits represented by a cell on a
layer of a given height. -/
def Layer.layer_bits (height : Nat) : Nat := Cell.bits <<< (4 * height)

/-- `Layer::cell_bit`: which of the 16 slots of the relevant cell
corresponds to the global bit. -/
def Layer.cell_bit (height bit : Nat) : Nat :=
  (bit / (Layer.layer_bits height >>> 4)) % Cell.bits

/-- `Layer::get`: value at the addressed slot plus the offset used on the
next, finer layer. -/
def Layer.get (l : Layer) (height offset bit : Nat) : Nat × Bool :=
  let cell := l.getD offset 0
  let o := Layer.cell_bit height bit
  let next_offset :=
    if 0 < height then
      Layer.count_ones (l.take offset) + Cell.count_ones_until cell o
    else 0
  (next_offset, Cell.get cell o)

/-- `Layer::insert_cell` (`Vec::insert`). -/
def Layer.insert_cell (l : Layer) (n c : Nat) : Layer := l.insertIdx n c

/-- `Layer::set`: returns the updated layer together with the child offset
and whether the bit was newly set. -/
def Layer.set (l : Layer) (height offset bit : Nat) : Layer × Nat × Bool :=
  let r := Layer.get l height offset bit
  if r.2 then (l, r.1, false)
  else
    let o := Layer.cell_bit height bit
    (List.set l offset (Cell.set (l.getD offset 0) o true), r.1, true)

/-- `Layer::unset`: forces the addressed slot to 0 in place. -/
def Layer.unset (l : Layer) (height offset bit : Nat) : Layer :=
  List.set l offset (Cell.set (l.getD offset 0) (Layer.cell_bit height bit) false)

/-- A tree is a sequence of layers, root first. -/
abbrev Tree := List Layer

/-- The two recoverable construction errors. -/
inductive TError where
  | Malformed
  | Empty
deriving DecidableEq, Repr

/-- `Tree::new()`: a single all-zero root cell. -/
def Tree.new : Tree := [[0]]

/-- `Tree::bits()`: `Cell::bits() << (4 * (layers - 1))`. -/
def Tree.bits (t : Tree) : Nat := Cell.bits <<< (4 * (t.length - 1))

/-- `Tree::height()`. -/
def Tree.height (t : Tree) : Nat := t.length

/-- `Tree::grow()`: prepend a root layer holding the single cell `1`. -/
def Tree.grow (t : Tree) : Tree := [1] :: t

/-- The loop of `Tree::from`: repeatedly split off the next layer, whose
length is the popcount of the previous layer.  The `fuel` argument only
makes the recursion structural; every call below supplies at least
`v.length`, which is enough because a successful step consumes at least
one value. -/
def Tree.fromLoop : Nat → Layer → List Nat → Except TError (List Layer)
  | _, _, [] => .ok []
  | 0, _, _ :: _ => .error .Malformed
  | fuel + 1, prev, v =>
    let layer_len := Layer.count_ones prev
    if layer_len = 0 then .error .Malformed
    else if v.length < layer_len then .error .Malformed
    else
      match Tree.fromLoop fuel (v.take layer_len) (v.drop layer_len) with
      | .ok ls => .ok (v.take layer_len :: ls)
      | .error e => .error e

/-- `Tree::from`: the first value is the sole root cell, further layers
are split off by the popcount rule. -/
def Tree.fromCells (v : List Nat) : Except TError Tree :=
  match v with
  | [] => .error .Empty
  | c :: vs =>
    match Tree.fromLoop vs.length [c] vs with
    | .ok ls => .ok ([c] :: ls)
    | .error e => .error e

/-- The walk of `Tree::get` over the layers, coarsest first; `height` is
the height of the first remaining layer and `offset` the current cell
offset.  The empty base case returns the running `set` value, which is
`true` whenever a leaf cell bit was read. -/
def Tree.getAux (bit : Nat) : Tree → Nat → Nat → Bool
  | [], _, _ => true
  | l :: rest, height, offset =>
    let r := Layer.get l height offset bit
    r.2 && Tree.getAux bit rest (height - 1) r.1

/-- `Tree::get` (the out-of-range panic is unreachable in the theorems
below, which all assume `bit < bits`). -/
def Tree.get (t : Tree) (bit : Nat) : Bool :=
  match t with
  | [] => false
  | _ :: _ => Tree.getAux bit t (t.length - 1) 0

/-- The walk of `Tree::set`: at each layer first insert a fresh cell when
the previous layer newly set a bit, then set this layer's bit. -/
def Tree.setAux (bit : Nat) : Tree → Nat → Nat → Bool → Tree
  | [], _, _, _ => []
  | l :: rest, height, offset, should_create =>
    let l1 := if should_create then Layer.insert_cell l offset 0 else l
    let r := Layer.set l1 height offset bit
    r.1 :: Tree.setAux bit rest (height - 1) r.2.1 r.2.2

/-- `Tree::set`. -/
def Tree.set (t : Tree) (bit : Nat) : Tree :=
  Tree.setAux bit t (t.length - 1) 0 false

/-- The walk of `Tree::unset`: read-only until the leaf layer, where the
bit is forced to 0; an unset bit on the path stops the walk. -/
def Tree.unsetAux (bit : Nat) : Tree → Nat → Nat → Tree
  | [], _, _ => []
  | l :: rest, height, offset =>
    if height = 0 then Layer.unset l height offset bit :: rest
    else
      let r := Layer.get l height offset bit
      if r.2 then l :: Tree.unsetAux bit rest (height - 1) r.1
      else l :: rest

/-- `Tree::unset`. -/
def Tree.unset (t : Tree) (bit : Nat) : Tree :=
  Tree.unsetAux bit t (t.length - 1) 0

/-- `Tree::to_vec`: flatten the layers root first. -/
def Tree.toVec (t : Tree) : List Nat := t.flatten

/-- One step of `Tree::leaf_layer`: zip a layer's cells with their known
start offsets and enumerate the start offsets of their children
(`offset + bits_per_bit * idx` for each set slot `idx`). -/
def Tree.leafStep (l : Layer) (map : List Nat) (height : Nat) : List Nat :=
  ((l.zip map).map fun p =>
    ((List.range 16).filter fun idx => Cell.get p.1 idx).map
      fun idx => p.2 + (1 <<< (4 * height)) * idx).flatten

/-- The layer walk of `Tree::leaf_layer`: every layer except the last
refines the offset map; the last layer's cells are paired with their
start offsets. -/
def Tree.leafLoop : Tree → Nat → List Nat → List (Nat × Nat)
  | [], _, _ => []
  | [l], _, map => map.zip l
  | l :: rest, height, map =>
    Tree.leafLoop rest (height - 1) (Tree.leafStep l map height)

/-- `Tree::leaf_layer`. -/
def Tree.leafLayer (t : Tree) : List (Nat × Nat) :=
  Tree.leafLoop t (t.length - 1) [0]

/-- `Cell::get` with its bounds assertion: `none` is the panic. -/
def Cell.getChecked (c n : Nat) : Option Bool :=
  if n < 16 then some (Cell.get c n) else none

/-- `Tree::_scan_iter_forward`: dump cells until one ends at or past
`from`; returns the found element together with the rest of the
iterator. -/
def Tree.scanIterForward : List (Nat × Nat) → Nat → Option (Nat × Nat) × List (Nat × Nat)
  | [], _ => (none, [])
  | p :: tl, f => if f ≤ p.1 + Cell.bits then (some p, tl) else Tree.scanIterForward tl f

/-- The shared set-up of both iterators: snapshot the leaf layer and scan
forward when the start bound is at least one cell in. -/
def Tree.iterInit (t : Tree) (f : Nat) : Option (Nat × Nat) × List (Nat × Nat) :=
  let ll := Tree.leafLayer t
  let cur := ll.head?
  let rest := ll.tail
  if Cell.bits ≤ f then
    match cur with
    | some p => if p.1 + Cell.bits ≤ f then Tree.scanIterForward rest f else (cur, rest)
    | none => (cur, rest)
  else (cur, rest)

/-- Collecting `LeafIterator::next` until exhaustion.  Each yielded bit
advances `index` by one, so any `fuel ≥ bits - index` gives the full
run; `none` records a panic inside `cell.get`. -/
def Tree.iterCollect : Nat → Nat → Nat → Option (Nat × Nat) → List (Nat × Nat) → Option (List Bool)
  | 0, _, _, _, _ => some []
  | fuel + 1, bits, index, cur, rest =>
    if bits ≤ index then some []
    else
      match cur with
      | none => (Tree.iterCollect fuel bits (index + 1) none rest).map (false :: ·)
      | some (offset, cell) =>
        if index < offset then
          (Tree.iterCollect fuel bits (index + 1) (some (offset, cell)) rest).map (false :: ·)
        else
          match Cell.getChecked cell (index - offset) with
          | none => none
          | some v =>
            if offset + Cell.bits ≤ index + 1 then
              (Tree.iterCollect fuel bits (index + 1) rest.head? rest.tail).map (v :: ·)
            else
              (Tree.iterCollect fuel bits (index + 1) (some (offset, cell)) rest).map (v :: ·)

/-- Collecting `LeafIteratorOnes::next`.  One recursion step is one pass
of the source's inner `loop`; the index strictly increases each step, so
`fuel ≥ bits - index` again suffices. -/
def Tree.onesCollect : Nat → Nat → Nat → Option (Nat × Nat) → List (Nat × Nat) → Option (List Nat)
  | 0, _, _, _, _ => some []
  | fuel + 1, bits, index, cur, rest =>
    if bits ≤ index then some []
    else
      match cur with
      | none => some []
      | some (offset, cell) =>
        let idx := if index < offset then offset else index
        match Cell.getChecked cell (idx - offset) with
        | none => none
        | some v =>
          let cur2 := if offset + Cell.bits ≤ idx + 1 then rest.head? else some (offset, cell)
          let rest2 := if offset + Cell.bits ≤ idx + 1 then rest.tail else rest
          if v then (Tree.onesCollect fuel bits (idx + 1) cur2 rest2).map (idx :: ·)
          else Tree.onesCollect fuel bits (idx + 1) cur2 rest2

/-- `Tree::iter_from_to`, fully collected. -/
def Tree.iterFromTo (t : Tree) (f to_ : Nat) : Option (List Bool) :=
  let s := Tree.iterInit t f
  Tree.iterCollect to_ to_ f s.1 s.2

/-- `Tree::iter_ones_from_to`, fully collected; the start index is
`from.max(first offset)` as in the source. -/
def Tree.iterOnesFromTo (t : Tree) (f to_ : Nat) : Option (List Nat) :=
  let s := Tree.iterInit t f
  Tree.onesCollect to_ to_ (max f ((s.1.map Prod.fst).getD 0)) s.1 s.2

/-- `Tree::iter`, fully collected. -/
def Tree.iter (t : Tree) : Option (List Bool) := Tree.iterFromTo t 0 (Tree.bits t)

/-- `Tree::iter_ones`, fully collected. -/
def Tree.iterOnes (t : Tree) : Option (List Nat) := Tree.iterOnesFromTo t 0 (Tree.bits t)

/-- `Tree::iter_range`, fully collected. -/
def Tree.iterRange (t : Tree) (f to_ : Nat) : Option (List Bool) := Tree.iterFromTo t f to_

/-- `Tree::iter_ones_range`, fully collected. -/
def Tree.iterOnesRange (t : Tree) (f to_ : Nat) : Option (List Nat) := Tree.iterOnesFromTo t f to_

/-! ### Cell-level lemmas -/

theorem Cell.get_eq_testBit (c n : Nat) : Cell.get c n = c.testBit n := by
  unfold Cell.get
  rw [Nat.one_shiftLeft, Nat.and_two_pow]
  cases h : c.testBit n <;> simp [Nat.pos_iff_ne_zero, Nat.pow_pos]

theorem Cell.get_of_ge (c j : Nat) (hc : c < 65536) (hj : 16 ≤ j) : Cell.get c j = false := by
  rw [Cell.get_eq_testBit]
  refine Nat.testBit_eq_false_of_lt (lt_of_lt_of_le hc ?_)
  calc (65536 : Nat) = 2 ^ 16 := by norm_num
  _ ≤ 2 ^ j := Nat.pow_le_pow_right (by norm_num) hj

theorem Cell.lt_of_get (c j : Nat) (hc : c < 65536) (h : Cell.get c j = true) : j < 16 := by
  by_contra hj
  rw [Cell.get_of_ge c j hc (le_of_not_lt hj)] at h
  exact Bool.false_ne_true h

theorem Cell.get_set_true (c o j : Nat) :
    Cell.get (Cell.set c o true) j = (Cell.get c j || decide (o = j)) := by
  simp [Cell.set, Cell.get_eq_testBit, Nat.one_shiftLeft, Nat.testBit_or, Nat.testBit_two_pow]

theorem Cell.get_set_false (c o j : Nat) (hc : c < 65536) :
    Cell.get (Cell.set c o false) j = (!decide (o = j) && Cell.get c j) := by
  have h65 : (65535 : Nat) = 2 ^ 16 - 1 := by norm_num
  simp only [Cell.set, if_neg (by simp : ¬(false = true)), Cell.get_eq_testBit,
    Nat.one_shiftLeft, Nat.testBit_and, Nat.testBit_xor, Nat.testBit_two_pow, h65,
    Nat.testBit_two_pow_sub_one]
  cases hcb : c.testBit j with
  | false => simp
  | true =>
    have hj : j < 16 := by
      rw [← Cell.get_eq_testBit] at hcb
      exact Cell.lt_of_get c j hc hcb
    simp [hj, Bool.xor_comm]

theorem Cell.set_true_lt (c o : Nat) (hc : c < 65536) (ho : o < 16) :
    Cell.set c o true < 65536 := by
  have h : (65536 : Nat) = 2 ^ 16 := by norm_num
  simp only [Cell.set, if_pos rfl, Nat.one_shiftLeft, h] at *
  exact Nat.or_lt_two_pow hc (Nat.pow_lt_pow_right (by norm_num) ho)

theorem Cell.set_false_lt (c o : Nat) (hc : c < 65536) : Cell.set c o false < 65536 :=
  lt_of_le_of_lt (by simpa [Cell.set] using Nat.and_le_left) hc

theorem Cell.set_true_self (c o : Nat) (h : Cell.get c o = true) : Cell.set c o true = c := by
  refine Nat.eq_of_testBit_eq fun i => ?_
  have := Cell.get_set_true c o i
  rw [Cell.get_eq_testBit, Cell.get_eq_testBit] at this
  rw [this]
  rcases eq_or_ne o i with rfl | hne
  · rw [← Cell.get_eq_testBit, h]; simp
  · simp [hne]

/-- Splitting `range 16` at a slot `o < 16`. -/
theorem range16_split (o : Nat) (ho : o < 16) :
    List.range 16 = List.range o ++ o :: List.range' (o + 1) (15 - o) := by
  have h1 : List.range' 0 o 1 ++ List.range' (0 + 1 * o) (16 - o) 1 = List.range' 0 (16 - o + o) 1 :=
    List.range'_append 0 o (16 - o) 1
  have h2 : 16 - o + o = 16 := by omega
  have h3 : 16 - o = (15 - o) + 1 := by omega
  rw [h2] at h1
  rw [List.range_eq_range', ← h1, h3, List.range'_succ, ← List.range_eq_range']
  simp only [Nat.zero_add, Nat.one_mul]

/-- Splitting `range 16` at a slot boundary `o ≤ 16`. -/
theorem range16_split_le (o : Nat) (ho : o ≤ 16) :
    List.range 16 = List.range o ++ List.range' o (16 - o) := by
  have h1 : List.range' 0 o 1 ++ List.range' (0 + 1 * o) (16 - o) 1 = List.range' 0 (16 - o + o) 1 :=
    List.range'_append 0 o (16 - o) 1
  have h2 : 16 - o + o = 16 := by omega
  rw [h2] at h1
  rw [List.range_eq_range', ← h1, ← List.range_eq_range']
  simp only [Nat.zero_add, Nat.one_mul]

theorem Cell.count_ones_until_eq_filter (c o : Nat) (ho : o ≤ 16) :
    Cell.count_ones_until c o = ((List.range o).filter fun i => Cell.get c i).length := by
  unfold Cell.count_ones_until Cell.count_ones
  have hget : ∀ i : Nat, Cell.get (c &&& (1 <<< o - 1)) i = (Cell.get c i && decide (i < o)) := by
    intro i
    simp [Cell.get_eq_testBit, Nat.one_shiftLeft, Nat.testBit_and, Nat.testBit_two_pow_sub_one,
      Bool.and_comm]
  rw [List.filter_congr (fun x _ => hget x), range16_split_le o ho, List.filter_append]
  have h1 : (List.range o).filter (fun i => Cell.get c i && decide (i < o)) =
      (List.range o).filter fun i => Cell.get c i := by
    refine List.filter_congr fun x hx => ?_
    rw [List.mem_range] at hx
    simp [hx]
  have h2 : (List.range' o (16 - o)).filter (fun i => Cell.get c i && decide (i < o)) = [] := by
    rw [List.filter_eq_nil_iff]
    intro a ha
    rw [List.mem_range'] at ha
    obtain ⟨i, _, rfl⟩ := ha
    simp
  rw [h1, h2]
  simp

/-- Adding a fresh bit `o` splits the slot enumeration of a cell around `o`. -/
theorem Cell.filter_set_true (c o : Nat) (ho : o < 16) :
    (List.range 16).filter (fun i => Cell.get (Cell.set c o true) i) =
      ((List.range o).filter fun i => Cell.get c i) ++ o ::
        ((List.range' (o + 1) (15 - o)).filter fun i => Cell.get c i) := by
  rw [range16_split o ho, List.filter_append]
  have h1 : (List.range o).filter (fun i => Cell.get (Cell.set c o true) i) =
      (List.range o).filter fun i => Cell.get c i := by
    refine List.filter_congr fun x hx => ?_
    rw [List.mem_range] at hx
    rw [Cell.get_set_true]
    simp [Nat.ne_of_gt hx]
  have h2 : (o :: List.range' (o + 1) (15 - o)).filter
      (fun i => Cell.get (Cell.set c o true) i) =
      o :: ((List.range' (o + 1) (15 - o)).filter fun i => Cell.get c i) := by
    rw [List.filter_cons]
    rw [if_pos (by rw [Cell.get_set_true]; simp)]
    congr 1
    refine List.filter_congr fun x hx => ?_
    rw [List.mem_range'] at hx
    obtain ⟨i, _, rfl⟩ := hx
    rw [Cell.get_set_true]
    have hne : ¬(o = o + 1 + i) := by omega
    simp [hne]
  rw [h1, h2]

/-- The unchanged-slot enumeration of a cell splits the same way at an
already-set slot `o`. -/
theorem Cell.filter_mem_split (c o : Nat) (ho : o < 16) (h : Cell.get c o = true) :
    (List.range 16).filter (fun i => Cell.get c i) =
      ((List.range o).filter fun i => Cell.get c i) ++ o ::
        ((List.range' (o + 1) (15 - o)).filter fun i => Cell.get c i) := by
  rw [range16_split o ho, List.filter_append, List.filter_cons, if_pos h]

/-- The slot enumeration of a cell with slot `o` unset splits at `o` with
no middle element. -/
theorem Cell.filter_not_mem_split (c o : Nat) (ho : o < 16) (h : Cell.get c o = false) :
    (List.range 16).filter (fun i => Cell.get c i) =
      ((List.range o).filter fun i => Cell.get c i) ++
        ((List.range' (o + 1) (15 - o)).filter fun i => Cell.get c i) := by
  rw [range16_split o ho, List.filter_append, List.filter_cons, if_neg (by simp [h])]

theorem Cell.count_ones_set_true (c o : Nat) (ho : o < 16) (h : Cell.get c o = false) :
    Cell.count_ones (Cell.set c o true) = Cell.count_ones c + 1 := by
  unfold Cell.count_ones
  rw [Cell.filter_set_true c o ho, Cell.filter_not_mem_split c o ho h]
  simp [Nat.add_comm, Nat.add_assoc, Nat.add_left_comm]

theorem Cell.count_ones_zero : Cell.count_ones 0 = 0 := by decide

theorem Cell.get_zero (n : Nat) : Cell.get 0 n = false := by
  simp [Cell.get_eq_testBit]

/-! ### Layer popcount lemmas -/

theorem Layer.count_ones_nil : Layer.count_ones [] = 0 := rfl

theorem Layer.count_ones_cons (c : Nat) (l : Layer) :
    Layer.count_ones (c :: l) = Cell.count_ones c + Layer.count_ones l := by
  simp [Layer.count_ones]

theorem Layer.count_ones_append (l1 l2 : Layer) :
    Layer.count_ones (l1 ++ l2) = Layer.count_ones l1 + Layer.count_ones l2 := by
  simp [Layer.count_ones]

/-! ### Arithmetic of heights and slots -/

theorem shift16 (h : Nat) : 1 <<< (4 * h) = 16 ^ h := by
  rw [Nat.one_shiftLeft, pow_mul]
  norm_num

theorem cell_bit_eq (h bit : Nat) : Layer.cell_bit h bit = bit / 16 ^ h % 16 := by
  unfold Layer.cell_bit Layer.layer_bits Cell.bits
  rw [Nat.shiftLeft_eq, Nat.shiftRight_eq_div_pow]
  have h24 : (2 : Nat) ^ 4 = 16 := by norm_num
  have hdiv : (16 : Nat) * 2 ^ (4 * h) / 2 ^ 4 = 16 ^ h := by
    rw [h24, Nat.mul_div_cancel_left _ (by norm_num : 0 < (16 : Nat)), pow_mul]
    norm_num
  rw [hdiv]

theorem cell_bit_lt (h bit : Nat) : Layer.cell_bit h bit < 16 := by
  rw [cell_bit_eq]
  exact Nat.mod_lt _ (by norm_num)

/-- `insertIdx` in take/cons/drop form. -/
theorem insertIdx_eq_take_cons_drop (a : Nat) :
    ∀ (i : Nat) (l : List Nat), i ≤ l.length →
      List.insertIdx i a l = l.take i ++ a :: l.drop i
  | 0, l, _ => by simp
  | i + 1, [], h => by simp at h
  | i + 1, c :: l, h => by
    rw [List.insertIdx_succ_cons, insertIdx_eq_take_cons_drop a i l (by simpa using h)]
    simp

/-- Inserting after a prefix. -/
theorem insertIdx_append_left (a : Nat) :
    ∀ (X Y : List Nat) (k : Nat), List.insertIdx (X.length + k) a (X ++ Y) =
      X ++ List.insertIdx k a Y
  | [], Y, k => by simp
  | x :: X, Y, k => by
    have : (x :: X).length + k = (X.length + k) + 1 := by simp; omega
    rw [this, List.cons_append, List.insertIdx_succ_cons, insertIdx_append_left a X Y k]
    simp

/-! ### The per-cell child enumeration of `leaf_layer` -/

/-- The start offsets of the children of one cell: one entry per set slot. -/
def cellChildren (c off h : Nat) : List Nat :=
  ((List.range 16).filter fun idx => Cell.get c idx).map fun idx => off + 16 ^ h * idx

theorem leafStep_eq (l : Layer) (M : List Nat) (h : Nat) :
    Tree.leafStep l M h = ((l.zip M).map fun p => cellChildren p.1 p.2 h).flatten := by
  unfold Tree.leafStep cellChildren
  rw [shift16]

theorem leafStep_nil (M : List Nat) (h : Nat) : Tree.leafStep [] M h = [] := by
  simp [leafStep_eq]

theorem leafStep_nil_map (l : Layer) (h : Nat) : Tree.leafStep l [] h = [] := by
  simp [leafStep_eq]

theorem leafStep_cons (c : Nat) (l : Layer) (m : Nat) (M : List Nat) (h : Nat) :
    Tree.leafStep (c :: l) (m :: M) h = cellChildren c m h ++ Tree.leafStep l M h := by
  simp [leafStep_eq]

theorem leafStep_append (l1 l2 : Layer) (M1 M2 : List Nat) (h : Nat)
    (hlen : l1.length = M1.length) :
    Tree.leafStep (l1 ++ l2) (M1 ++ M2) h = Tree.leafStep l1 M1 h ++ Tree.leafStep l2 M2 h := by
  simp [leafStep_eq, List.zip_append hlen]

theorem cellChildren_length (c off h : Nat) :
    (cellChildren c off h).length = Cell.count_ones c := by
  simp [cellChildren, Cell.count_ones]

theorem cellChildren_zero (off h : Nat) : cellChildren 0 off h = [] := by
  simp [cellChildren, Cell.get_zero]

theorem leafStep_length (l : Layer) (M : List Nat) (h : Nat) (hlen : l.length = M.length) :
    (Tree.leafStep l M h).length = Layer.count_ones l := by
  induction l generalizing M with
  | nil => simp [leafStep_nil, Layer.count_ones_nil]
  | cons c tl ih =>
    cases M with
    | nil => simp at hlen
    | cons m M =>
      rw [leafStep_cons, List.length_append, cellChildren_length,
        Layer.count_ones_cons, ih M (by simpa using hlen)]

theorem cellChildren_mem (c off h x : Nat) :
    x ∈ cellChildren c off h ↔
      ∃ o, o < 16 ∧ Cell.get c o = true ∧ x = off + 16 ^ h * o := by
  simp only [cellChildren, List.mem_map, List.mem_filter, List.mem_range]
  constructor
  · rintro ⟨o, ⟨ho, hg⟩, rfl⟩; exact ⟨o, ho, hg, rfl⟩
  · rintro ⟨o, ho, hg, rfl⟩; exact ⟨o, ⟨ho, hg⟩, rfl⟩

theorem cellChildren_sorted (c off h : Nat) :
    (cellChildren c off h).Pairwise fun a b => a + 16 ^ h ≤ b := by
  unfold cellChildren
  rw [List.pairwise_map]
  refine ((List.pairwise_lt_range 16).filter _).imp ?_
  intro a b hab
  have h2 : 16 ^ h * (a + 1) ≤ 16 ^ h * b := Nat.mul_le_mul_left _ hab
  rw [Nat.mul_add, Nat.mul_one] at h2
  omega

theorem cellChildren_bounds (c off h x : Nat) (hx : x ∈ cellChildren c off h) :
    off ≤ x ∧ x + 16 ^ h ≤ off + 16 ^ (h + 1) := by
  rw [cellChildren_mem] at hx
  obtain ⟨o, ho, _, rfl⟩ := hx
  constructor
  · omega
  · have h2 : 16 ^ h * (o + 1) ≤ 16 ^ h * 16 := Nat.mul_le_mul_left _ (by omega)
    rw [Nat.mul_add, Nat.mul_one] at h2
    rw [pow_succ]
    omega

theorem leafStep_mem (l : Layer) (M : List Nat) (h x : Nat)
    (hx : x ∈ Tree.leafStep l M h) :
    ∃ j, j < l.length ∧ j < M.length ∧ ∃ o, o < 16 ∧
      Cell.get (l.getD j 0) o = true ∧ x = M.getD j 0 + 16 ^ h * o := by
  induction l generalizing M with
  | nil => rw [leafStep_nil] at hx; simp at hx
  | cons c tl ih =>
    cases M with
    | nil => rw [leafStep_nil_map] at hx; simp at hx
    | cons m M =>
      rw [leafStep_cons, List.mem_append] at hx
      rcases hx with hx | hx
      · rw [cellChildren_mem] at hx
        obtain ⟨o, ho, hg, rfl⟩ := hx
        exact ⟨0, by simp, by simp, o, ho, by simpa using hg, by simp⟩
      · obtain ⟨j, hj1, hj2, o, ho, hg, rfl⟩ := ih M hx
        exact ⟨j + 1, by simpa using hj1, by simpa using hj2, o, ho, by simpa using hg,
          by simp⟩

/-! ### Well-formedness invariants -/

/-- All cells of a layer are `u16` values. -/
def cellsB (l : Layer) : Prop := ∀ c ∈ l, c < 65536

/-- Chain invariant of the layer list: every layer is nonempty, its cells
are `u16`, and each non-final layer's popcount is the next layer's
length. -/
def WFs : List Layer → Prop
  | [] => True
  | [l] => l ≠ [] ∧ cellsB l
  | l :: l2 :: r => l ≠ [] ∧ cellsB l ∧ l2.length = Layer.count_ones l ∧ WFs (l2 :: r)

/-- Invariant of an offset map for a layer of height `h` inside a tree of
`B` bits: entries are strictly increasing with gaps of a full cell range
`16 ^ (h + 1)`, aligned to that range, and in bounds. -/
def MapOk (B h : Nat) (M : List Nat) : Prop :=
  M.Pairwise (fun a b => a + 16 ^ (h + 1) ≤ b) ∧
    ∀ o ∈ M, o % 16 ^ (h + 1) = 0 ∧ o + 16 ^ (h + 1) ≤ B

theorem WFs_cons_iff (l : Layer) (rest : List Layer) (hne : rest ≠ []) :
    WFs (l :: rest) ↔
      l ≠ [] ∧ cellsB l ∧ (rest.headD []).length = Layer.count_ones l ∧ WFs rest := by
  cases rest with
  | nil => exact absurd rfl hne
  | cons l2 r => rfl

/-! ### Positional decomposition of layers and `leafStep` -/

theorem getD_eq_getElem (l : List Nat) (i : Nat) (hi : i < l.length) :
    l.getD i 0 = l[i] := by
  rw [List.getD_eq_getElem?_getD, List.getElem?_eq_getElem hi]
  rfl

theorem getD_mem (l : List Nat) (j : Nat) (hj : j < l.length) : l.getD j 0 ∈ l := by
  rw [getD_eq_getElem l j hj]
  exact List.getElem_mem hj

/-- Inserting exactly after a prefix. -/
theorem insertIdx_after_take (x : Nat) (X Y : List Nat) :
    List.insertIdx X.length x (X ++ Y) = X ++ x :: Y := by
  simpa using insertIdx_append_left x X Y 0

theorem layer_decomp (l : List Nat) (i : Nat) (hi : i < l.length) :
    l = l.take i ++ l.getD i 0 :: l.drop (i + 1) := by
  rw [getD_eq_getElem l i hi]
  rw [← List.drop_eq_getElem_cons hi, List.take_append_drop]

theorem count_ones_decomp (l : Layer) (i : Nat) (hi : i < l.length) :
    Layer.count_ones l = Layer.count_ones (l.take i) + Cell.count_ones (l.getD i 0) +
      Layer.count_ones (l.drop (i + 1)) := by
  conv_lhs => rw [layer_decomp l i hi]
  rw [Layer.count_ones_append, Layer.count_ones_cons]
  omega

theorem Cell.count_ones_until_lt (c o : Nat) (ho : o < 16) (h : Cell.get c o = true) :
    Cell.count_ones_until c o < Cell.count_ones c := by
  rw [Cell.count_ones_until_eq_filter c o (le_of_lt ho)]
  unfold Cell.count_ones
  rw [Cell.filter_mem_split c o ho h]
  simp

theorem Cell.count_ones_until_le (c o : Nat) (ho : o ≤ 16) :
    Cell.count_ones_until c o ≤ Cell.count_ones c := by
  rcases Nat.lt_or_ge o 16 with ho' | ho'
  · rcases h : Cell.get c o with hf | ht
    · rw [Cell.count_ones_until_eq_filter c o ho]
      unfold Cell.count_ones
      rw [Cell.filter_not_mem_split c o ho' h]
      simp
    · exact le_of_lt (Cell.count_ones_until_lt c o ho' h)
  · have ho16 : o = 16 := by omega
    subst ho16
    rw [Cell.count_ones_until_eq_filter c 16 (le_refl 16)]
    unfold Cell.count_ones
    exact le_refl _

theorem rank_lt_count (l : Layer) (i o : Nat) (hi : i < l.length) (ho : o < 16)
    (hg : Cell.get (l.getD i 0) o = true) :
    Layer.count_ones (l.take i) + Cell.count_ones_until (l.getD i 0) o <
      Layer.count_ones l := by
  rw [count_ones_decomp l i hi]
  have := Cell.count_ones_until_lt (l.getD i 0) o ho hg
  omega

theorem rank_le_count (l : Layer) (i o : Nat) (hi : i < l.length) (ho : o ≤ 16) :
    Layer.count_ones (l.take i) + Cell.count_ones_until (l.getD i 0) o ≤
      Layer.count_ones l := by
  rw [count_ones_decomp l i hi]
  have := Cell.count_ones_until_le (l.getD i 0) o ho
  omega

theorem cellChildren_split_mem (c off h o : Nat) (ho : o < 16) (hg : Cell.get c o = true) :
    cellChildren c off h =
      (((List.range o).filter fun i => Cell.get c i).map fun idx => off + 16 ^ h * idx) ++
        (off + 16 ^ h * o) ::
          (((List.range' (o + 1) (15 - o)).filter fun i => Cell.get c i).map
            fun idx => off + 16 ^ h * idx) := by
  unfold cellChildren
  rw [Cell.filter_mem_split c o ho hg]
  simp

theorem cellChildren_split_not_mem (c off h o : Nat) (ho : o < 16)
    (hg : Cell.get c o = false) :
    cellChildren c off h =
      (((List.range o).filter fun i => Cell.get c i).map fun idx => off + 16 ^ h * idx) ++
        (((List.range' (o + 1) (15 - o)).filter fun i => Cell.get c i).map
          fun idx => off + 16 ^ h * idx) := by
  unfold cellChildren
  rw [Cell.filter_not_mem_split c o ho hg]
  simp

theorem cellChildren_set_true (c off h o : Nat) (ho : o < 16) :
    cellChildren (Cell.set c o true) off h =
      (((List.range o).filter fun i => Cell.get c i).map fun idx => off + 16 ^ h * idx) ++
        (off + 16 ^ h * o) ::
          (((List.range' (o + 1) (15 - o)).filter fun i => Cell.get c i).map
            fun idx => off + 16 ^ h * idx) := by
  unfold cellChildren
  rw [Cell.filter_set_true c o ho]
  simp

theorem prefix_length_eq_until (c o h off : Nat) (ho : o ≤ 16) :
    ((((List.range o).filter fun i => Cell.get c i).map
      fun idx => off + 16 ^ h * idx)).length = Cell.count_ones_until c o := by
  rw [List.length_map, ← Cell.count_ones_until_eq_filter c o ho]

theorem leafStep_decomp (l : Layer) (M : List Nat) (h i : Nat) (hi : i < l.length)
    (hlen : l.length = M.length) :
    Tree.leafStep l M h =
      Tree.leafStep (l.take i) (M.take i) h ++
        (cellChildren (l.getD i 0) (M.getD i 0) h ++
          Tree.leafStep (l.drop (i + 1)) (M.drop (i + 1)) h) := by
  conv_lhs => rw [layer_decomp l i hi, layer_decomp M i (hlen ▸ hi)]
  rw [leafStep_append _ _ _ _ _ (by simp [List.length_take]; omega), leafStep_cons]

theorem leafStep_take_length (l : Layer) (M : List Nat) (h i : Nat) (hi : i ≤ l.length)
    (hlen : l.length = M.length) :
    (Tree.leafStep (l.take i) (M.take i) h).length = Layer.count_ones (l.take i) :=
  leafStep_length _ _ _ (by simp [List.length_take]; omega)

theorem leafStep_getD_rank (l : Layer) (M : List Nat) (h i o : Nat) (hi : i < l.length)
    (hlen : l.length = M.length) (ho : o < 16) (hg : Cell.get (l.getD i 0) o = true) :
    (Tree.leafStep l M h).getD
        (Layer.count_ones (l.take i) + Cell.count_ones_until (l.getD i 0) o) 0 =
      M.getD i 0 + 16 ^ h * o := by
  rw [leafStep_decomp l M h i hi hlen, cellChildren_split_mem _ _ _ o ho hg]
  have hA := leafStep_take_length l M h i (le_of_lt hi) hlen
  have hP := prefix_length_eq_until (l.getD i 0) o h (M.getD i 0) (le_of_lt ho)
  rw [List.getD_append_right _ _ _ _ (by omega)]
  rw [show Layer.count_ones (l.take i) + Cell.count_ones_until (l.getD i 0) o -
    (Tree.leafStep (l.take i) (M.take i) h).length = Cell.count_ones_until (l.getD i 0) o
    from by omega]
  rw [List.append_assoc, List.getD_append_right _ _ _ _ (by omega)]
  rw [show Cell.count_ones_until (l.getD i 0) o -
    (((List.range o).filter fun i_1 => Cell.get (l.getD i 0) i_1).map
      fun idx => M.getD i 0 + 16 ^ h * idx).length = 0 from by omega]
  rfl

/-- Inserting an all-zero cell (with its map entry) leaves the child
enumeration unchanged. -/
theorem leafStep_insert_zero (l : Layer) (M : List Nat) (h i a : Nat) (hi : i ≤ l.length)
    (hlen : l.length = M.length) :
    Tree.leafStep (List.insertIdx i 0 l) (List.insertIdx i a M) h = Tree.leafStep l M h := by
  rw [insertIdx_eq_take_cons_drop 0 i l hi, insertIdx_eq_take_cons_drop a i M (by omega)]
  rw [leafStep_append _ _ _ _ _ (by simp [List.length_take]; omega), leafStep_cons,
    cellChildren_zero]
  rw [List.nil_append, ← leafStep_append _ _ _ _ _ (by simp [List.length_take]; omega),
    List.take_append_drop, List.take_append_drop]

/-- Newly setting slot `o` of cell `i` inserts exactly one child start, at
the rank position. -/
theorem leafStep_set_true (l : Layer) (M : List Nat) (h i o : Nat) (hi : i < l.length)
    (hlen : l.length = M.length) (ho : o < 16) (hg : Cell.get (l.getD i 0) o = false) :
    Tree.leafStep (List.set l i (Cell.set (l.getD i 0) o true)) M h =
      List.insertIdx (Layer.count_ones (l.take i) + Cell.count_ones_until (l.getD i 0) o)
        (M.getD i 0 + 16 ^ h * o) (Tree.leafStep l M h) := by
  have hA := leafStep_take_length l M h i (le_of_lt hi) hlen
  have hP := prefix_length_eq_until (l.getD i 0) o h (M.getD i 0) (le_of_lt ho)
  conv_lhs => rw [List.set_eq_take_cons_drop _ hi]
  conv_lhs => rw [show M = M.take i ++ M.getD i 0 :: M.drop (i + 1) from
    layer_decomp M i (hlen ▸ hi)]
  rw [leafStep_append _ _ _ _ _ (by simp [List.length_take]; omega), leafStep_cons,
    cellChildren_set_true _ _ _ o ho]
  rw [leafStep_decomp l M h i hi hlen, cellChildren_split_not_mem _ _ _ o ho hg]
  rw [show Layer.count_ones (l.take i) + Cell.count_ones_until (l.getD i 0) o =
    (Tree.leafStep (l.take i) (M.take i) h).length +
      Cell.count_ones_until (l.getD i 0) o from by omega]
  rw [insertIdx_append_left, ← hP]
  conv_rhs => rw [List.append_assoc]
  rw [insertIdx_after_take]
  simp

/-- The offset-map invariant propagates through `leafStep`. -/
theorem leafStep_mapOk (B h : Nat) (l : Layer) (M : List Nat) (hlen : l.length = M.length)
    (hM : MapOk B (h + 1) M) : MapOk B h (Tree.leafStep l M (h + 1)) := by
  obtain ⟨hp, hb⟩ := hM
  constructor
  · induction l generalizing M with
    | nil => rw [leafStep_nil]; exact List.Pairwise.nil
    | cons c tl ih =>
      cases M with
      | nil => rw [leafStep_nil_map]; exact List.Pairwise.nil
      | cons m M =>
        rw [List.pairwise_cons] at hp
        rw [leafStep_cons, List.pairwise_append]
        refine ⟨cellChildren_sorted c m (h + 1), ih M (by simpa using hlen) hp.2
          (fun o ho => hb o (List.mem_cons_of_mem m ho)), ?_⟩
        intro a ha b hbmem
        obtain ⟨j, hj1, hj2, o, ho16, hgo, rfl⟩ := leafStep_mem tl M (h + 1) b hbmem
        have h1 := (cellChildren_bounds c m (h + 1) a ha).2
        have h2 : m + 16 ^ (h + 1 + 1) ≤ M.getD j 0 := hp.1 _ (getD_mem M j hj2)
        have h3 : M.getD j 0 ≤ M.getD j 0 + 16 ^ (h + 1) * o := Nat.le_add_right _ _
        omega
  · intro x hx
    obtain ⟨j, hj1, hj2, o, ho16, hgo, rfl⟩ := leafStep_mem l M (h + 1) x hx
    have hmem : M.getD j 0 ∈ M := getD_mem M j hj2
    obtain ⟨hal, hbd⟩ := hb _ hmem
    constructor
    · have hdvd : (16 : Nat) ^ (h + 1) ∣ M.getD j 0 :=
        dvd_trans (pow_dvd_pow 16 (by omega)) (Nat.dvd_of_mod_eq_zero hal)
      obtain ⟨k, hk⟩ := hdvd
      rw [hk, ← Nat.mul_add, Nat.mul_mod_right]
    · have h1 : 16 ^ (h + 1) * o + 16 ^ (h + 1) ≤ 16 ^ (h + 1) * 16 := by
        have h2 : 16 ^ (h + 1) * (o + 1) ≤ 16 ^ (h + 1) * 16 :=
          Nat.mul_le_mul_left _ (by omega)
        rw [Nat.mul_add, Nat.mul_one] at h2
        exact h2
      have h3 : (16 : Nat) ^ (h + 1 + 1) = 16 ^ (h + 1) * 16 := pow_succ 16 (h + 1)
      omega

/-! ### Looking a bit up in a leaf map -/

/-- Reading bit `b` from a leaf map: the first pair whose 16-bit range
covers `b` answers; outside every range the bit is implicitly unset. -/
def leafLookup : List (Nat × Nat) → Nat → Bool
  | [], _ => false
  | (o, c) :: tl, b => if o ≤ b ∧ b < o + 16 then Cell.get c (b - o) else leafLookup tl b

theorem leafLoop_single (l : Layer) (h : Nat) (M : List Nat) :
    Tree.leafLoop [l] h M = M.zip l := rfl

theorem leafLoop_cons (l : Layer) (rest : List Layer) (h : Nat) (M : List Nat)
    (hne : rest ≠ []) :
    Tree.leafLoop (l :: rest) h M = Tree.leafLoop rest (h - 1) (Tree.leafStep l M h) := by
  cases rest with
  | nil => exact absurd rfl hne
  | cons a r => rfl

/-- Where bit `b` falls inside an aligned cell range: the slot arithmetic
of `cell_bit`. -/
theorem slot_arith (s m b : Nat) (hs : 0 < s) (hal : m % (16 * s) = 0) (h1 : m ≤ b)
    (h2 : b < m + 16 * s) :
    m + s * (b / s % 16) ≤ b ∧ b < m + s * (b / s % 16) + s := by
  obtain ⟨k, hk⟩ := Nat.dvd_of_mod_eq_zero hal
  set r := b - m with hr
  have hb : b = 16 * s * k + r := by omega
  have hrlt : r < 16 * s := by omega
  have hdiv : b / s = 16 * k + r / s := by
    rw [hb, show 16 * s * k + r = s * (16 * k) + r from by ring, Nat.mul_add_div hs]
  have hrs : r / s < 16 := Nat.div_lt_of_lt_mul (by omega)
  have hmod : b / s % 16 = r / s := by
    rw [hdiv, show 16 * k + r / s = r / s + k * 16 from by ring, Nat.add_mul_mod_self_right,
      Nat.mod_eq_of_lt hrs]
  have hdm := Nat.div_add_mod r s
  have hremlt : r % s < s := Nat.mod_lt r hs
  rw [hmod]
  constructor
  · have : s * (r / s) ≤ r := by omega
    omega
  · omega

theorem leafLookup_false_of_not_covered (P : List (Nat × Nat)) (b : Nat)
    (h : ∀ p ∈ P, ¬(p.1 ≤ b ∧ b < p.1 + 16)) : leafLookup P b = false := by
  induction P with
  | nil => rfl
  | cons p tl ih =>
    obtain ⟨o, c⟩ := p
    unfold leafLookup
    rw [if_neg (h (o, c) (List.mem_cons_self _ _))]
    exact ih fun q hq => h q (List.mem_cons_of_mem _ hq)

theorem leafLookup_zip (b : Nat) :
    ∀ (M : List Nat) (l : Layer) (i : Nat), M.Pairwise (fun x y => x + 16 ≤ y) →
      i < M.length → M.getD i 0 ≤ b → b < M.getD i 0 + 16 →
      leafLookup (M.zip l) b = Cell.get (l.getD i 0) (b - M.getD i 0)
  | [], _, i, _, hi, _, _ => by simp at hi
  | m :: M, [], i, hp, hi, hb1, hb2 => by
    -- the zip is empty; this degenerate case cannot arise with matched
    -- lengths, but the lookup is still definable: both sides read cell 0
    simp [leafLookup, Cell.get_zero]
  | m :: M, c :: l, 0, hp, hi, hb1, hb2 => by
    simp only [List.getD_cons_zero] at hb1 hb2
    simp [leafLookup, hb1, hb2]
  | m :: M, c :: l, i + 1, hp, hi, hb1, hb2 => by
    rw [List.pairwise_cons] at hp
    simp only [List.getD_cons_succ] at hb1 hb2 ⊢
    have hi' : i < M.length := by simpa using hi
    have hge : m + 16 ≤ M.getD i 0 := hp.1 _ (getD_mem M i hi')
    rw [List.zip_cons_cons]
    unfold leafLookup
    rw [if_neg (by omega)]
    exact leafLookup_zip b M l i hp.2 hi' hb1 hb2

/-- If no entry of the offset map covers `b`, then no pair of the final
leaf map covers `b` either: refinement only shrinks ranges. -/
theorem leafLoop_not_covered (b : Nat) :
    ∀ (L : List Layer) (h : Nat) (M : List Nat), L.length = h + 1 →
      (∀ e ∈ M, ¬(e ≤ b ∧ b < e + 16 ^ (h + 1))) →
      ∀ p ∈ Tree.leafLoop L h M, ¬(p.1 ≤ b ∧ b < p.1 + 16)
  | [], h, M, hlen, _ => by simp at hlen
  | [l], h, M, hlen, hM => by
    have h0 : h = 0 := by simpa using hlen.symm
    subst h0
    intro p hp
    obtain ⟨hp1, _⟩ := List.of_mem_zip hp
    simpa using hM p.1 hp1
  | l :: l2 :: r, h, M, hlen, hM => by
    have hne : (l2 :: r) ≠ [] := by simp
    rw [leafLoop_cons l (l2 :: r) h M hne]
    have hlen2 : (l2 :: r).length = (h - 1) + 1 := by
      simp only [List.length_cons] at hlen ⊢
      omega
    refine leafLoop_not_covered b (l2 :: r) (h - 1) (Tree.leafStep l M h) hlen2 ?_
    intro e he
    obtain ⟨j, hj1, hj2, o, ho, hg, rfl⟩ := leafStep_mem l M h e he
    have hMj := hM (M.getD j 0) (getD_mem M j hj2)
    have hbound : M.getD j 0 + 16 ^ h * o + 16 ^ h ≤ M.getD j 0 + 16 ^ (h + 1) := by
      have h2 : 16 ^ h * (o + 1) ≤ 16 ^ h * 16 := Nat.mul_le_mul_left _ (by omega)
      rw [Nat.mul_add, Nat.mul_one] at h2
      rw [pow_succ]
      omega
    have hh1 : 0 < h := by
      simp only [List.length_cons] at hlen
      omega
    have h16 : (16 : Nat) ≤ 16 ^ h := by
      calc (16 : Nat) = 16 ^ 1 := (pow_one 16).symm
      _ ≤ 16 ^ h := Nat.pow_le_pow_right (by norm_num) hh1
    intro hcov
    rw [show h - 1 + 1 = h from by omega] at hcov
    exact hMj ⟨by omega, by omega⟩

theorem pairwise_getD_le (M : List Nat) (S : Nat) (hp : M.Pairwise fun a b => a + S ≤ b)
    (j1 j2 : Nat) (h12 : j1 < j2) (hj2 : j2 < M.length) :
    M.getD j1 0 + S ≤ M.getD j2 0 := by
  rw [getD_eq_getElem _ _ (lt_trans h12 hj2), getD_eq_getElem _ _ hj2]
  exact List.pairwise_iff_getElem.mp hp j1 j2 _ _ h12

theorem pow16_succ (h : Nat) : (16 : Nat) ^ (h + 1) = 16 * 16 ^ h := by
  rw [pow_succ]; ring

theorem pow16_pos (h : Nat) : 0 < (16 : Nat) ^ h := Nat.pos_pow_of_pos h (by norm_num)

/-- The walking `get` agrees with reading the final leaf map, for any
well-formed suffix of layers whose entry offset map is valid and whose
entry cell range covers the requested bit. -/
theorem getAux_eq_leafLookup (B b : Nat) :
    ∀ (L : List Layer) (h : Nat) (M : List Nat) (i : Nat),
      WFs L → L.length = h + 1 → (L.headD []).length = M.length → MapOk B h M →
      i < M.length → M.getD i 0 ≤ b → b < M.getD i 0 + 16 ^ (h + 1) →
      Tree.getAux b L h i = leafLookup (Tree.leafLoop L h M) b
  | [], h, M, i, _, hlen, _, _, _, _, _ => by simp at hlen
  | [l], h, M, i, hwf, hlen, hhd, hM, hi, hb1, hb2 => by
    have h0 : h = 0 := by simpa using hlen.symm
    subst h0
    have hcb : Layer.cell_bit 0 b = b % 16 := by
      rw [cell_bit_eq]; simp
    have hget : Tree.getAux b [l] 0 i = Cell.get (l.getD i 0) (b % 16) := by
      show ((Layer.get l 0 i b).2 && true) = _
      rw [Bool.and_true]
      show Cell.get (l.getD i 0) (Layer.cell_bit 0 b) = _
      rw [hcb]
    rw [hget, leafLoop_single]
    have hal := (hM.2 _ (getD_mem M i hi)).1
    have h16 : (16 : Nat) ^ (0 + 1) = 16 := by norm_num
    rw [h16] at hb2
    rw [h16] at hal
    rw [leafLookup_zip b M l i (hM.1.imp fun hab => by omega) hi hb1 hb2]
    congr 1
    omega
  | l :: l2 :: r, h, M, i, hwf, hlen, hhd, hM, hi, hb1, hb2 => by
    obtain ⟨hlne, hcells, hl2len, hwfr⟩ := hwf
    have hh1 : 1 ≤ h := by
      simp only [List.length_cons] at hlen
      omega
    have hlr : (l2 :: r).length = (h - 1) + 1 := by
      simp only [List.length_cons] at hlen ⊢
      omega
    have hll : l.length = M.length := by simpa using hhd
    have hiM : i < l.length := by omega
    have hcbeq : Layer.cell_bit h b = b / 16 ^ h % 16 := cell_bit_eq h b
    have hal := (hM.2 _ (getD_mem M i hi)).1
    rw [pow16_succ] at hal hb2
    have hslot := slot_arith (16 ^ h) (M.getD i 0) b (pow16_pos h) hal hb1 hb2
    rw [← hcbeq] at hslot
    have hne : (l2 :: r) ≠ [] := by simp
    rw [leafLoop_cons l (l2 :: r) h M hne]
    have hM'len : (Tree.leafStep l M h).length = Layer.count_ones l := leafStep_length l M h hll
    have hgaux : Tree.getAux b (l :: l2 :: r) h i =
        ((Cell.get (l.getD i 0) (Layer.cell_bit h b)) &&
          Tree.getAux b (l2 :: r) (h - 1)
            (Layer.count_ones (l.take i) +
              Cell.count_ones_until (l.getD i 0) (Layer.cell_bit h b))) := by
      show ((Layer.get l h i b).2 && _) = _
      unfold Layer.get
      simp only [if_pos (by omega : 0 < h)]
    rw [hgaux]
    cases hg : Cell.get (l.getD i 0) (Layer.cell_bit h b) with
    | true =>
      rw [Bool.true_and]
      have hrank := rank_lt_count l i (Layer.cell_bit h b) hiM (cell_bit_lt h b) hg
      have hMok' : MapOk B (h - 1) (Tree.leafStep l M h) := by
        have := leafStep_mapOk B (h - 1) l M hll
          (by rw [show h - 1 + 1 = h from by omega]; exact hM)
        rwa [show h - 1 + 1 = h from by omega] at this
      have hrk := leafStep_getD_rank l M h i (Layer.cell_bit h b) hiM hll
        (cell_bit_lt h b) hg
      refine getAux_eq_leafLookup B b (l2 :: r) (h - 1) (Tree.leafStep l M h) _
        hwfr hlr (by simpa [hM'len] using hl2len) hMok' (by omega) ?_ ?_
      · rw [hrk]
        exact hslot.1
      · rw [hrk, show h - 1 + 1 = h from by omega]
        exact hslot.2
    | false =>
      rw [Bool.false_and]
      refine (leafLookup_false_of_not_covered _ b ?_).symm
      refine leafLoop_not_covered b (l2 :: r) (h - 1) (Tree.leafStep l M h) hlr ?_
      intro e he
      rw [show h - 1 + 1 = h from by omega]
      obtain ⟨j, hj1, hj2, o', ho', hg', rfl⟩ := leafStep_mem l M h e he
      rcases Nat.lt_trichotomy j i with hji | hji | hji
      · -- a cell left of `i`: its whole range lies below `b`
        have hpw := pairwise_getD_le M (16 ^ (h + 1)) hM.1 j i hji hi
        rw [pow16_succ] at hpw
        have hb16 : 16 ^ h * o' + 16 ^ h ≤ 16 ^ h * 16 := by
          have h2 : 16 ^ h * (o' + 1) ≤ 16 ^ h * 16 := Nat.mul_le_mul_left _ (by omega)
          rw [Nat.mul_add, Nat.mul_one] at h2
          exact h2
        intro hcov
        omega
      · -- same cell, different slot
        subst hji
        have hoo : o' ≠ Layer.cell_bit h b := fun hEq => by rw [hEq, hg] at hg'; simp at hg'
        rcases Nat.lt_or_ge o' (Layer.cell_bit h b) with hlt | hge
        · have h2 : 16 ^ h * (o' + 1) ≤ 16 ^ h * Layer.cell_bit h b :=
            Nat.mul_le_mul_left _ (by omega)
          rw [Nat.mul_add, Nat.mul_one] at h2
          intro hcov
          omega
        · have hgt : Layer.cell_bit h b < o' := by omega
          have h2 : 16 ^ h * (Layer.cell_bit h b + 1) ≤ 16 ^ h * o' :=
            Nat.mul_le_mul_left _ (by omega)
          rw [Nat.mul_add, Nat.mul_one] at h2
          intro hcov
          omega
      · -- a cell right of `i`: its whole range lies above `b`
        have hpw := pairwise_getD_le M (16 ^ (h + 1)) hM.1 i j hji hj2
        rw [pow16_succ] at hpw
        intro hcov
        omega

/-! ### Abstract updates of a sorted leaf map -/

/-- Setting bit `b` in a sorted leaf map: update the covering cell if it
exists, otherwise insert a fresh single-bit cell at the sorted position. -/
def mapSetBit : List (Nat × Nat) → Nat → List (Nat × Nat)
  | [], b => [(b / 16 * 16, Cell.set 0 (b % 16) true)]
  | (o, c) :: tl, b =>
    if b < o then (b / 16 * 16, Cell.set 0 (b % 16) true) :: (o, c) :: tl
    else if b < o + 16 then (o, Cell.set c (b - o) true) :: tl
    else (o, c) :: mapSetBit tl b

/-- Clearing bit `b` in a sorted leaf map: update the covering cell if it
exists; absent cells stay absent. -/
def mapUnsetBit : List (Nat × Nat) → Nat → List (Nat × Nat)
  | [], _ => []
  | (o, c) :: tl, b =>
    if b < o then (o, c) :: tl
    else if b < o + 16 then (o, Cell.set c (b - o) false) :: tl
    else (o, c) :: mapUnsetBit tl b

theorem mapUnsetBit_not_covered (b : Nat) : ∀ (P : List (Nat × Nat)),
    (∀ p ∈ P, ¬(p.1 ≤ b ∧ b < p.1 + 16)) → mapUnsetBit P b = P
  | [], _ => rfl
  | (o, c) :: tl, h => by
    have hoc := h (o, c) (List.mem_cons_self _ _)
    unfold mapUnsetBit
    rcases Nat.lt_or_ge b o with hbo | hbo
    · rw [if_pos hbo]
    · rw [if_neg (by omega), if_neg (by simp at hoc; omega)]
      rw [mapUnsetBit_not_covered b tl fun p hp => h p (List.mem_cons_of_mem _ hp)]

theorem mapSetBit_eq_insert (b : Nat) : ∀ (Ppre Psuf : List (Nat × Nat)),
    (∀ p ∈ Ppre, p.1 + 16 ≤ b / 16 * 16) → (∀ p ∈ Psuf, b / 16 * 16 + 16 ≤ p.1) →
    mapSetBit (Ppre ++ Psuf) b = Ppre ++ (b / 16 * 16, Cell.set 0 (b % 16) true) :: Psuf
  | [], [], _, _ => rfl
  | [], (o, c) :: tl, _, hsuf => by
    have hoc := hsuf (o, c) (List.mem_cons_self _ _)
    have halign : b / 16 * 16 ≤ b := Nat.div_mul_le_self b 16
    simp only [List.nil_append]
    unfold mapSetBit
    rw [if_pos (by omega)]
  | (o, c) :: tl, Psuf, hpre, hsuf => by
    have hoc := hpre (o, c) (List.mem_cons_self _ _)
    have halign : b / 16 * 16 ≤ b := Nat.div_mul_le_self b 16
    simp only [List.cons_append]
    unfold mapSetBit
    rw [if_neg (by simp at hoc; omega), if_neg (by simp at hoc; omega)]
    rw [mapSetBit_eq_insert b tl Psuf (fun p hp => hpre p (List.mem_cons_of_mem _ hp)) hsuf]

theorem mapSetBit_eq_update (b : Nat) : ∀ (Ppre : List (Nat × Nat)) (q : Nat × Nat)
    (Psuf : List (Nat × Nat)), (∀ p ∈ Ppre, p.1 + 16 ≤ b) → q.1 ≤ b → b < q.1 + 16 →
    mapSetBit (Ppre ++ q :: Psuf) b = Ppre ++ (q.1, Cell.set q.2 (b - q.1) true) :: Psuf
  | [], (o, c), Psuf, _, hc1, hc2 => by
    simp only [List.nil_append]
    unfold mapSetBit
    rw [if_neg (by omega), if_pos (by omega)]
  | (o, c) :: tl, q, Psuf, hpre, hc1, hc2 => by
    have hoc := hpre (o, c) (List.mem_cons_self _ _)
    simp only [List.cons_append]
    unfold mapSetBit
    rw [if_neg (by simp at hoc; omega), if_neg (by simp at hoc; omega)]
    rw [mapSetBit_eq_update b tl q Psuf (fun p hp => hpre p (List.mem_cons_of_mem _ hp)) hc1 hc2]

theorem mapUnsetBit_eq_update (b : Nat) : ∀ (Ppre : List (Nat × Nat)) (q : Nat × Nat)
    (Psuf : List (Nat × Nat)), (∀ p ∈ Ppre, p.1 + 16 ≤ b) → q.1 ≤ b → b < q.1 + 16 →
    mapUnsetBit (Ppre ++ q :: Psuf) b = Ppre ++ (q.1, Cell.set q.2 (b - q.1) false) :: Psuf
  | [], (o, c), Psuf, _, hc1, hc2 => by
    simp only [List.nil_append]
    unfold mapUnsetBit
    rw [if_neg (by omega), if_pos (by omega)]
  | (o, c) :: tl, q, Psuf, hpre, hc1, hc2 => by
    have hoc := hpre (o, c) (List.mem_cons_self _ _)
    simp only [List.cons_append]
    unfold mapUnsetBit
    rw [if_neg (by simp at hoc; omega), if_neg (by simp at hoc; omega)]
    rw [mapUnsetBit_eq_update b tl q Psuf (fun p hp => hpre p (List.mem_cons_of_mem _ hp)) hc1 hc2]

theorem leafLookup_nil (b : Nat) : leafLookup [] b = false := rfl

theorem leafLookup_cons (o c b : Nat) (tl : List (Nat × Nat)) :
    leafLookup ((o, c) :: tl) b =
      if o ≤ b ∧ b < o + 16 then Cell.get c (b - o) else leafLookup tl b := rfl

theorem mapSetBit_cons (o c b : Nat) (tl : List (Nat × Nat)) :
    mapSetBit ((o, c) :: tl) b =
      if b < o then (b / 16 * 16, Cell.set 0 (b % 16) true) :: (o, c) :: tl
      else if b < o + 16 then (o, Cell.set c (b - o) true) :: tl
      else (o, c) :: mapSetBit tl b := rfl

theorem mapUnsetBit_cons (o c b : Nat) (tl : List (Nat × Nat)) :
    mapUnsetBit ((o, c) :: tl) b =
      if b < o then (o, c) :: tl
      else if b < o + 16 then (o, Cell.set c (b - o) false) :: tl
      else (o, c) :: mapUnsetBit tl b := rfl

/-- Reading the map after an abstract set: exactly bit `b` turns on. -/
theorem leafLookup_mapSetBit (b b' : Nat) : ∀ (P : List (Nat × Nat)),
    (P.Pairwise fun p q => p.1 + 16 ≤ q.1) → (∀ p ∈ P, p.1 % 16 = 0) →
    leafLookup (mapSetBit P b) b' = (decide (b' = b) || leafLookup P b')
  | [], _, _ => by
    have halign : b / 16 * 16 ≤ b ∧ b < b / 16 * 16 + 16 := by omega
    show leafLookup [(b / 16 * 16, Cell.set 0 (b % 16) true)] b' = _
    rw [leafLookup_cons, leafLookup_nil]
    by_cases hb' : b / 16 * 16 ≤ b' ∧ b' < b / 16 * 16 + 16
    · rw [if_pos hb', Cell.get_set_true, Cell.get_zero, Bool.false_or, Bool.or_false]
      by_cases hbb : b' = b
      · have heq : b % 16 = b' - b / 16 * 16 := by omega
        simp [heq, hbb]
      · have hne : ¬(b % 16 = b' - b / 16 * 16) := by omega
        simp [hne, hbb]
    · rw [if_neg hb']
      have hbb : ¬(b' = b) := by omega
      simp [hbb]
  | (o, c) :: tl, hp, hal => by
    rw [List.pairwise_cons] at hp
    have ho16 := hal (o, c) (List.mem_cons_self _ _)
    simp only at ho16
    rcases Nat.lt_or_ge b o with hbo | hbo
    · have halign : b / 16 * 16 ≤ b ∧ b < b / 16 * 16 + 16 := by omega
      rw [mapSetBit_cons, if_pos hbo, leafLookup_cons]
      by_cases hb' : b / 16 * 16 ≤ b' ∧ b' < b / 16 * 16 + 16
      · rw [if_pos hb', Cell.get_set_true, Cell.get_zero, Bool.false_or]
        have hlkb' : leafLookup ((o, c) :: tl) b' = false := by
          refine leafLookup_false_of_not_covered _ _ ?_
          intro p hpmem
          rcases List.mem_cons.mp hpmem with rfl | hptl
          · simp only
            omega
          · have := hp.1 _ hptl
            simp only at this
            omega
        rw [hlkb', Bool.or_false]
        by_cases hbb : b' = b
        · have heq : b % 16 = b' - b / 16 * 16 := by omega
          simp [heq, hbb]
        · have hne : ¬(b % 16 = b' - b / 16 * 16) := by omega
          simp [hne, hbb]
      · rw [if_neg hb']
        have hbb : ¬(b' = b) := by omega
        simp [hbb]
    · rcases Nat.lt_or_ge b (o + 16) with hbo16 | hbo16
      · rw [mapSetBit_cons, if_neg (by omega), if_pos hbo16, leafLookup_cons,
          leafLookup_cons]
        by_cases hb' : o ≤ b' ∧ b' < o + 16
        · rw [if_pos hb', if_pos hb', Cell.get_set_true]
          by_cases hbb : b' = b
          · have heq : b - o = b' - o := by omega
            simp [heq, hbb]
          · have hne : ¬(b - o = b' - o) := by omega
            simp [hne, hbb]
        · rw [if_neg hb', if_neg hb']
          have hbb : ¬(b' = b) := by omega
          simp [hbb]
      · rw [mapSetBit_cons, if_neg (by omega), if_neg (by omega), leafLookup_cons,
          leafLookup_cons]
        by_cases hb' : o ≤ b' ∧ b' < o + 16
        · rw [if_pos hb', if_pos hb']
          have hbb : ¬(b' = b) := by omega
          simp [hbb]
        · rw [if_neg hb', if_neg hb']
          exact leafLookup_mapSetBit b b' tl hp.2
            fun p hpmem => hal p (List.mem_cons_of_mem _ hpmem)

/-- Reading the map after an abstract unset: exactly bit `b` turns off. -/
theorem leafLookup_mapUnsetBit (b b' : Nat) : ∀ (P : List (Nat × Nat)),
    (P.Pairwise fun p q => p.1 + 16 ≤ q.1) → (∀ p ∈ P, p.2 < 65536) →
    leafLookup (mapUnsetBit P b) b' = (!decide (b' = b) && leafLookup P b')
  | [], _, _ => by
    show leafLookup [] b' = _
    rw [leafLookup_nil]
    simp
  | (o, c) :: tl, hp, hc => by
    rw [List.pairwise_cons] at hp
    have hco := hc (o, c) (List.mem_cons_self _ _)
    simp only at hco
    rcases Nat.lt_or_ge b o with hbo | hbo
    · rw [mapUnsetBit_cons, if_pos hbo]
      by_cases hbb : b' = b
      · subst hbb
        have hlk : leafLookup ((o, c) :: tl) b' = false := by
          refine leafLookup_false_of_not_covered _ _ ?_
          intro p hpmem
          rcases List.mem_cons.mp hpmem with rfl | hptl
          · simp only
            omega
          · have := hp.1 _ hptl
            simp only at this
            omega
        rw [hlk]
        simp
      · simp [hbb]
    · rcases Nat.lt_or_ge b (o + 16) with hbo16 | hbo16
      · rw [mapUnsetBit_cons, if_neg (by omega), if_pos hbo16, leafLookup_cons,
          leafLookup_cons]
        by_cases hb' : o ≤ b' ∧ b' < o + 16
        · rw [if_pos hb', if_pos hb', Cell.get_set_false _ _ _ hco]
          by_cases hbb : b' = b
          · have heq : b - o = b' - o := by omega
            simp [heq, hbb]
          · have hne : ¬(b - o = b' - o) := by omega
            simp [hne, hbb]
        · rw [if_neg hb', if_neg hb']
          have hbb : ¬(b' = b) := by omega
          simp [hbb]
      · rw [mapUnsetBit_cons, if_neg (by omega), if_neg (by omega), leafLookup_cons,
          leafLookup_cons]
        by_cases hb' : o ≤ b' ∧ b' < o + 16
        · rw [if_pos hb', if_pos hb']
          have hbb : ¬(b' = b) := by omega
          simp [hbb]
        · rw [if_neg hb', if_neg hb']
          exact leafLookup_mapUnsetBit b b' tl hp.2
            fun p hpmem => hc p (List.mem_cons_of_mem _ hpmem)

/-! ### Helper lemmas for the mutation walks -/

theorem take_insertIdx_self (a : Nat) : ∀ (i : Nat) (l : List Nat), i ≤ l.length →
    (List.insertIdx i a l).take i = l.take i
  | 0, _, _ => by simp
  | i + 1, [], h => by simp at h
  | i + 1, c :: l, h => by
    rw [List.insertIdx_succ_cons, List.take_succ_cons, List.take_succ_cons,
      take_insertIdx_self a i l (by simpa using h)]

theorem drop_insertIdx_self (a : Nat) : ∀ (i : Nat) (l : List Nat), i ≤ l.length →
    (List.insertIdx i a l).drop i = a :: l.drop i
  | 0, _, _ => by simp
  | i + 1, [], h => by simp at h
  | i + 1, c :: l, h => by
    rw [List.insertIdx_succ_cons, List.drop_succ_cons, List.drop_succ_cons,
      drop_insertIdx_self a i l (by simpa using h)]

theorem getD_insertIdx_self (a : Nat) : ∀ (i : Nat) (l : List Nat), i ≤ l.length →
    (List.insertIdx i a l).getD i 0 = a
  | 0, _, _ => by simp
  | i + 1, [], h => by simp at h
  | i + 1, c :: l, h => by
    rw [List.insertIdx_succ_cons, List.getD_cons_succ,
      getD_insertIdx_self a i l (by simpa using h)]

theorem length_insertIdx_self (l : List Nat) (i a : Nat) (hi : i ≤ l.length) :
    (List.insertIdx i a l).length = l.length + 1 := List.length_insertIdx i l hi

theorem set_after_take (v : Nat) : ∀ (X : List Nat) (a : Nat) (Y : List Nat),
    List.set (X ++ a :: Y) X.length v = X ++ v :: Y
  | [], a, Y => rfl
  | x :: X, a, Y => by
    simp only [List.cons_append, List.length_cons, List.set_cons_succ]
    rw [set_after_take v X a Y]

theorem count_ones_take_le (l : Layer) (i : Nat) :
    Layer.count_ones (l.take i) ≤ Layer.count_ones l := by
  conv_rhs => rw [← List.take_append_drop i l]
  rw [Layer.count_ones_append]
  omega

theorem count_ones_insertIdx_zero (l : Layer) (i : Nat) (hi : i ≤ l.length) :
    Layer.count_ones (List.insertIdx i 0 l) = Layer.count_ones l := by
  rw [insertIdx_eq_take_cons_drop 0 i l hi, Layer.count_ones_append, Layer.count_ones_cons,
    Cell.count_ones_zero]
  conv_rhs => rw [← List.take_append_drop i l]
  rw [Layer.count_ones_append]
  omega

theorem count_ones_set (l : Layer) (i c' : Nat) (hi : i < l.length) :
    Layer.count_ones (List.set l i c') =
      Layer.count_ones (l.take i) + Cell.count_ones c' +
        Layer.count_ones (l.drop (i + 1)) := by
  rw [List.set_eq_take_cons_drop c' hi, Layer.count_ones_append, Layer.count_ones_cons]
  omega

theorem Cell.count_ones_until_zero (o : Nat) : Cell.count_ones_until 0 o = 0 := by
  unfold Cell.count_ones_until
  rw [Nat.zero_and]
  exact Cell.count_ones_zero

theorem lt_align_add (b k : Nat) (hk : 0 < k) : b < b / k * k + k := by
  have h1 := Nat.div_add_mod b k
  have h2 : b % k < k := Nat.mod_lt b hk
  rw [Nat.mul_comm] at h1
  omega

theorem align_step (s q : Nat) : q / 16 * (16 * s) + s * (q % 16) = q * s := by
  have h := Nat.div_add_mod q 16
  calc q / 16 * (16 * s) + s * (q % 16) = (16 * (q / 16) + q % 16) * s := by ring
  _ = q * s := by rw [h]

theorem align_succ (s b : Nat) :
    b / (16 * s) * (16 * s) + s * (b / s % 16) = b / s * s := by
  have h1 : b / (16 * s) = b / s / 16 := by rw [Nat.div_div_eq_div_mul, Nat.mul_comm]
  rw [h1]
  exact align_step s (b / s)

/-- Inserting a new aligned entry preserves the offset-map invariant. -/
theorem mapOk_insert (B h : Nat) (M : List Nat) (i A : Nat) (hM : MapOk B h M)
    (hi : i ≤ M.length) (hpre : ∀ e ∈ M.take i, e + 16 ^ (h + 1) ≤ A)
    (hsuf : ∀ e ∈ M.drop i, A + 16 ^ (h + 1) ≤ e) (hal : A % 16 ^ (h + 1) = 0)
    (hbd : A + 16 ^ (h + 1) ≤ B) : MapOk B h (List.insertIdx i A M) := by
  obtain ⟨hp, hb⟩ := hM
  constructor
  · rw [insertIdx_eq_take_cons_drop A i M hi, List.pairwise_append]
    refine ⟨hp.sublist (List.take_sublist i M), ?_, ?_⟩
    · rw [List.pairwise_cons]
      exact ⟨hsuf, hp.sublist (List.drop_sublist i M)⟩
    · intro a ha e he
      rcases List.mem_cons.mp he with rfl | he'
      · exact hpre a ha
      · have h1 := hpre a ha
        have h2 := hsuf e he'
        omega
  · intro e he
    rcases (List.mem_insertIdx hi).mp he with rfl | he'
    · exact ⟨hal, hbd⟩
    · exact hb e he'

/-- Aligning an offset down to a multiple of `k`. -/
def alignTo (k b : Nat) : Nat := b / k * k

theorem alignTo_le (k b : Nat) : alignTo k b ≤ b := Nat.div_mul_le_self b k

theorem lt_alignTo_add (k b : Nat) (hk : 0 < k) : b < alignTo k b + k := lt_align_add b k hk

theorem alignTo_mod (k b : Nat) : alignTo k b % k = 0 := Nat.mul_mod_left (b / k) k

theorem pairwise_take_rel (M : List Nat) (R : Nat → Nat → Prop) (i : Nat)
    (hp : M.Pairwise R) (hi : i < M.length) :
    ∀ e ∈ M.take i, R e (M.getD i 0) := by
  intro e he
  conv at hp => rw [layer_decomp M i hi]
  rw [List.pairwise_append] at hp
  exact hp.2.2 e he _ (List.mem_cons_self _ _)

theorem pairwise_drop_rel (M : List Nat) (R : Nat → Nat → Prop) (i : Nat)
    (hp : M.Pairwise R) (hi : i < M.length) :
    ∀ e ∈ M.drop (i + 1), R (M.getD i 0) e := by
  conv at hp => rw [layer_decomp M i hi]
  rw [List.pairwise_append, List.pairwise_cons] at hp
  exact hp.2.1.1

theorem Layer.set_eq (l : Layer) (h i b : Nat) :
    Layer.set l h i b =
      if Cell.get (l.getD i 0) (Layer.cell_bit h b) then (l, (Layer.get l h i b).1, false)
      else (List.set l i (Cell.set (l.getD i 0) (Layer.cell_bit h b) true),
        (Layer.get l h i b).1, true) := by
  unfold Layer.set Layer.get
  cases hg : Cell.get (l.getD i 0) (Layer.cell_bit h b) <;>
    rw [List.getD_eq_getElem?_getD] at hg <;> simp [hg]

theorem Layer.get_fst_pos (l : Layer) (h i b : Nat) (hh : 0 < h) :
    (Layer.get l h i b).1 =
      Layer.count_ones (l.take i) +
        Cell.count_ones_until (l.getD i 0) (Layer.cell_bit h b) := by
  unfold Layer.get
  simp [if_pos hh]

theorem Layer.get_fst_zero (l : Layer) (i b : Nat) :
    (Layer.get l 0 i b).1 = 0 := by
  unfold Layer.get
  simp

theorem setAux_cons (b : Nat) (l : Layer) (rest : Tree) (h i : Nat) (c : Bool) :
    Tree.setAux b (l :: rest) h i c =
      (Layer.set (if c then Layer.insert_cell l i 0 else l) h i b).1 ::
        Tree.setAux b rest (h - 1)
          (Layer.set (if c then Layer.insert_cell l i 0 else l) h i b).2.1
          (Layer.set (if c then Layer.insert_cell l i 0 else l) h i b).2.2 := rfl

/-- Decomposing a zip of two equal-length lists at cell `i`. -/
theorem zip_decomp (M l : List Nat) (i : Nat) (hi : i < M.length) (hlen : l.length = M.length) :
    M.zip l = (M.take i).zip (l.take i) ++
      (M.getD i 0, l.getD i 0) :: (M.drop (i + 1)).zip (l.drop (i + 1)) := by
  conv_lhs => rw [layer_decomp M i hi, layer_decomp l i (by omega)]
  rw [List.zip_append (by simp [List.length_take]; omega), List.zip_cons_cons]

/-- Splitting the child enumeration at a cell boundary. -/
theorem leafStep_split_boundary (l : Layer) (M : List Nat) (h i : Nat) (hi : i ≤ l.length)
    (hlen : l.length = M.length) :
    (Tree.leafStep l M h).take (Layer.count_ones (l.take i)) =
        Tree.leafStep (l.take i) (M.take i) h ∧
      (Tree.leafStep l M h).drop (Layer.count_ones (l.take i)) =
        Tree.leafStep (l.drop i) (M.drop i) h := by
  have hsplit : Tree.leafStep l M h =
      Tree.leafStep (l.take i) (M.take i) h ++ Tree.leafStep (l.drop i) (M.drop i) h := by
    conv_lhs => rw [← List.take_append_drop i l, ← List.take_append_drop i M]
    exact leafStep_append _ _ _ _ _ (by simp [List.length_take]; omega)
  have hlen1 := leafStep_take_length l M h i hi hlen
  constructor
  · rw [hsplit, ← hlen1, List.take_left]
  · rw [hsplit, ← hlen1, List.drop_left]

/-- Splitting the child enumeration at a rank inside cell `i`, at an unset
slot `o`. -/
theorem leafStep_split_rank (l : Layer) (M : List Nat) (h i o : Nat) (hi : i < l.length)
    (hlen : l.length = M.length) (ho : o < 16) (hg : Cell.get (l.getD i 0) o = false) :
    (Tree.leafStep l M h).take
        (Layer.count_ones (l.take i) + Cell.count_ones_until (l.getD i 0) o) =
      Tree.leafStep (l.take i) (M.take i) h ++
        (((List.range o).filter fun j => Cell.get (l.getD i 0) j).map
          fun idx => M.getD i 0 + 16 ^ h * idx) ∧
      (Tree.leafStep l M h).drop
        (Layer.count_ones (l.take i) + Cell.count_ones_until (l.getD i 0) o) =
      (((List.range' (o + 1) (15 - o)).filter fun j => Cell.get (l.getD i 0) j).map
        fun idx => M.getD i 0 + 16 ^ h * idx) ++
        Tree.leafStep (l.drop (i + 1)) (M.drop (i + 1)) h := by
  have hA := leafStep_take_length l M h i (le_of_lt hi) hlen
  have hP := prefix_length_eq_until (l.getD i 0) o h (M.getD i 0) (le_of_lt ho)
  have hsplit : Tree.leafStep l M h =
      Tree.leafStep (l.take i) (M.take i) h ++
        ((((List.range o).filter fun j => Cell.get (l.getD i 0) j).map
          fun idx => M.getD i 0 + 16 ^ h * idx) ++
          ((((List.range' (o + 1) (15 - o)).filter fun j => Cell.get (l.getD i 0) j).map
            fun idx => M.getD i 0 + 16 ^ h * idx) ++
            Tree.leafStep (l.drop (i + 1)) (M.drop (i + 1)) h)) := by
    rw [leafStep_decomp l M h i hi hlen, cellChildren_split_not_mem _ _ _ o ho hg]
    simp [List.append_assoc]
  constructor
  · rw [hsplit, show Layer.count_ones (l.take i) + Cell.count_ones_until (l.getD i 0) o =
      (Tree.leafStep (l.take i) (M.take i) h).length +
        (((List.range o).filter fun j => Cell.get (l.getD i 0) j).map
          fun idx => M.getD i 0 + 16 ^ h * idx).length from by omega]
    rw [List.take_append]
    congr 1
    rw [show (((List.range o).filter fun j => Cell.get (l.getD i 0) j).map
      fun idx => M.getD i 0 + 16 ^ h * idx).length =
        (((List.range o).filter fun j => Cell.get (l.getD i 0) j).map
          fun idx => M.getD i 0 + 16 ^ h * idx).length + 0 from (Nat.add_zero _).symm]
    rw [List.take_append]
    simp
  · rw [hsplit, show Layer.count_ones (l.take i) + Cell.count_ones_until (l.getD i 0) o =
      (Tree.leafStep (l.take i) (M.take i) h).length +
        (((List.range o).filter fun j => Cell.get (l.getD i 0) j).map
          fun idx => M.getD i 0 + 16 ^ h * idx).length from by omega]
    rw [List.drop_append]
    rw [show (((List.range o).filter fun j => Cell.get (l.getD i 0) j).map
      fun idx => M.getD i 0 + 16 ^ h * idx).length =
        (((List.range o).filter fun j => Cell.get (l.getD i 0) j).map
          fun idx => M.getD i 0 + 16 ^ h * idx).length + 0 from (Nat.add_zero _).symm]
    rw [List.drop_append]
    simp [List.append_assoc]

theorem Layer.insert_cell_eq (l : Layer) (n c : Nat) :
    Layer.insert_cell l n c = List.insertIdx n c l := rfl

/-- The set walk: it preserves the shape invariants, and its effect on the
final leaf map is exactly the abstract `mapSetBit`.  The flag `c` tells
whether the current layer must first materialize a fresh cell at `i`; the
offset map of the transformed layer gains the aligned start of that cell. -/
theorem setAux_spec (B b : Nat) :
    ∀ (L : List Layer) (h : Nat) (M : List Nat) (i : Nat) (c : Bool),
      WFs L → L.length = h + 1 → (L.headD []).length = M.length → MapOk B h M →
      (c = true →
        i ≤ M.length ∧
        (∀ e ∈ M.take i, e + 16 ^ (h + 1) ≤ alignTo (16 ^ (h + 1)) b) ∧
        (∀ e ∈ M.drop i, alignTo (16 ^ (h + 1)) b + 16 ^ (h + 1) ≤ e) ∧
        alignTo (16 ^ (h + 1)) b + 16 ^ (h + 1) ≤ B) →
      (c = false → i < M.length ∧ M.getD i 0 = alignTo (16 ^ (h + 1)) b) →
      WFs (Tree.setAux b L h i c) ∧
      (Tree.setAux b L h i c).length = L.length ∧
      ((Tree.setAux b L h i c).headD []).length =
        (if c then List.insertIdx i (alignTo (16 ^ (h + 1)) b) M else M).length ∧
      MapOk B h (if c then List.insertIdx i (alignTo (16 ^ (h + 1)) b) M else M) ∧
      Tree.leafLoop (Tree.setAux b L h i c) h
          (if c then List.insertIdx i (alignTo (16 ^ (h + 1)) b) M else M) =
        mapSetBit (Tree.leafLoop L h M) b
  | [], h, M, i, c, _, hlen, _, _, _, _ => by simp at hlen
  | [l], h, M, i, c, hwf, hlen, hhd, hM, hct, hcf => by
    have h0 : h = 0 := by simpa using hlen.symm
    subst h0
    obtain ⟨hlne, hcells⟩ : l ≠ [] ∧ cellsB l := hwf
    have hll : l.length = M.length := by simpa using hhd
    have h16 : (16 : Nat) ^ (0 + 1) = 16 := by norm_num
    have hcb : Layer.cell_bit 0 b = b % 16 := by rw [cell_bit_eq]; simp
    have hA16 : alignTo (16 ^ (0 + 1)) b = b / 16 * 16 := by rw [h16]; rfl
    have hmod : b % 16 < 16 := Nat.mod_lt b (by norm_num)
    have hble : b / 16 * 16 ≤ b := Nat.div_mul_le_self b 16
    have hblt : b < b / 16 * 16 + 16 := lt_align_add b 16 (by norm_num)
    cases c with
    | true =>
      obtain ⟨hi, hpre, hsuf, hbd⟩ := hct rfl
      rw [hA16] at hpre hsuf hbd
      simp only [h16] at hpre hsuf hbd
      have hiL : i ≤ l.length := by omega
      have hti : (l.take i).length = i := by simp [List.length_take]; omega
      have htMi : (M.take i).length = i := by simp [List.length_take]; omega
      have hcell1 : (List.insertIdx i 0 l).getD i 0 = 0 := getD_insertIdx_self 0 i l hiL
      have hr : Layer.set (List.insertIdx i 0 l) 0 i b =
          (List.set (List.insertIdx i 0 l) i (Cell.set 0 (b % 16) true), 0, true) := by
        rw [Layer.set_eq, hcell1, Cell.get_zero, if_neg (by simp), Layer.get_fst_zero, hcb]
      have hstep : Tree.setAux b [l] 0 i true =
          [List.set (List.insertIdx i 0 l) i (Cell.set 0 (b % 16) true)] := by
        show [(Layer.set (List.insertIdx i 0 l) 0 i b).1] = _
        rw [hr]
      have hl' : List.set (List.insertIdx i 0 l) i (Cell.set 0 (b % 16) true) =
          l.take i ++ Cell.set 0 (b % 16) true :: l.drop i := by
        have hsp := set_after_take (Cell.set 0 (b % 16) true) (l.take i) 0 (l.drop i)
        rw [hti] at hsp
        rw [insertIdx_eq_take_cons_drop 0 i l hiL]
        exact hsp
      have hlen' : (List.set (List.insertIdx i 0 l) i (Cell.set 0 (b % 16) true)).length =
          l.length + 1 := by
        rw [List.length_set, length_insertIdx_self l i 0 hiL]
      have hM1 : List.insertIdx i (alignTo (16 ^ (0 + 1)) b) M =
          M.take i ++ b / 16 * 16 :: M.drop i := by
        rw [hA16]
        exact insertIdx_eq_take_cons_drop _ i M (by omega)
      rw [if_pos rfl, hstep]
      refine ⟨⟨?_, ?_⟩, by simp, ?_, ?_, ?_⟩
      · intro hnil
        rw [hnil] at hlen'
        simp at hlen'
      · intro x hx
        rcases List.mem_or_eq_of_mem_set hx with hx1 | rfl
        · rcases (List.mem_insertIdx hiL).mp hx1 with rfl | hx2
          · norm_num
          · exact hcells x hx2
        · exact Cell.set_true_lt 0 (b % 16) (by norm_num) hmod
      · simp only [List.headD_cons]
        rw [hlen', length_insertIdx_self M i _ (by omega), hll]
      · exact mapOk_insert B 0 M i _ hM (by omega)
          (by rw [hA16]; simp only [h16]; exact hpre)
          (by rw [hA16]; simp only [h16]; exact hsuf)
          (alignTo_mod _ _) (by rw [hA16]; simp only [h16]; exact hbd)
      · show (List.insertIdx i (alignTo (16 ^ (0 + 1)) b) M).zip
            (List.set (List.insertIdx i 0 l) i (Cell.set 0 (b % 16) true)) =
          mapSetBit (M.zip l) b
        rw [hl', hM1]
        rw [List.zip_append (by rw [hti, htMi]), List.zip_cons_cons]
        have hzip : M.zip l = (M.take i).zip (l.take i) ++ (M.drop i).zip (l.drop i) := by
          conv_lhs => rw [← List.take_append_drop i M, ← List.take_append_drop i l]
          exact List.zip_append (by rw [hti, htMi])
        rw [hzip, mapSetBit_eq_insert b _ _ ?_ ?_]
        · intro p hp
          have hp1 := (List.of_mem_zip hp).1
          exact hpre p.1 hp1
        · intro p hp
          have hp1 := (List.of_mem_zip hp).1
          exact hsuf p.1 hp1
    | false =>
      obtain ⟨hi, hMi⟩ := hcf rfl
      rw [hA16] at hMi
      have hiL : i < l.length := by omega
      have hcover1 : M.getD i 0 ≤ b := by omega
      have hcover2 : b < M.getD i 0 + 16 := by omega
      have hbmb : b - M.getD i 0 = b % 16 := by omega
      have hpz : ∀ p ∈ (M.take i).zip (l.take i), p.1 + 16 ≤ b := by
        intro p hp
        have hp1 := (List.of_mem_zip hp).1
        have := pairwise_take_rel M _ i hM.1 hi p.1 hp1
        simp only [h16] at this
        omega
      cases hg : Cell.get (l.getD i 0) (b % 16) with
      | true =>
        have hr : Layer.set l 0 i b = (l, 0, false) := by
          rw [Layer.set_eq, if_pos (by rw [hcb]; exact hg), Layer.get_fst_zero]
        have hstep : Tree.setAux b [l] 0 i false = [l] := by
          show [(Layer.set l 0 i b).1] = _
          rw [hr]
        rw [if_neg (by simp), hstep]
        refine ⟨⟨hlne, hcells⟩, rfl, by simpa using hhd, hM, ?_⟩
        show M.zip l = mapSetBit (M.zip l) b
        rw [zip_decomp M l i hi hll]
        rw [mapSetBit_eq_update b _ _ _ hpz (by simpa using hcover1) (by simpa using hcover2)]
        simp only
        rw [hbmb, Cell.set_true_self _ _ hg]
      | false =>
        have hr : Layer.set l 0 i b =
            (List.set l i (Cell.set (l.getD i 0) (b % 16) true), 0, true) := by
          rw [Layer.set_eq, if_neg (by rw [hcb, hg]; simp), Layer.get_fst_zero, hcb]
        have hstep : Tree.setAux b [l] 0 i false =
            [List.set l i (Cell.set (l.getD i 0) (b % 16) true)] := by
          show [(Layer.set l 0 i b).1] = _
          rw [hr]
        rw [if_neg (by simp), hstep]
        refine ⟨⟨?_, ?_⟩, by simp [List.length_set], ?_, hM, ?_⟩
        · intro hnil
          have h1 := congrArg List.length hnil
          rw [List.length_set] at h1
          simp at h1
          exact hlne h1
        · intro x hx
          rcases List.mem_or_eq_of_mem_set hx with hx1 | rfl
          · exact hcells x hx1
          · exact Cell.set_true_lt _ (b % 16) (hcells _ (getD_mem l i hiL)) hmod
        · simp only [List.headD_cons]
          rw [List.length_set]
          simpa using hhd
        · show M.zip (List.set l i (Cell.set (l.getD i 0) (b % 16) true)) =
            mapSetBit (M.zip l) b
          rw [List.set_eq_take_cons_drop _ hiL]
          conv_lhs => rw [layer_decomp M i hi]
          rw [List.zip_append (by simp [List.length_take]; omega), List.zip_cons_cons]
          rw [zip_decomp M l i hi hll]
          rw [mapSetBit_eq_update b _ _ _ hpz (by simpa using hcover1)
            (by simpa using hcover2)]
          simp only
          rw [hbmb]
  | l :: l2 :: r, h, M, i, c, hwf, hlen, hhd, hM, hct, hcf => by
    obtain ⟨hlne, hcells, hl2len, hwfr⟩ := hwf
    obtain ⟨hm, rfl⟩ : ∃ hm, h = hm + 1 := by
      refine ⟨h - 1, ?_⟩
      simp only [List.length_cons] at hlen
      omega
    have hlr : (l2 :: r).length = hm + 1 := by
      simp only [List.length_cons] at hlen
      simp only [List.length_cons]
      omega
    have hll : l.length = M.length := by simpa using hhd
    have hs : 0 < (16 : Nat) ^ (hm + 1) := pow16_pos _
    have hpow : (16 : Nat) ^ (hm + 1 + 1) = 16 * 16 ^ (hm + 1) := pow16_succ _
    have hcb : Layer.cell_bit (hm + 1) b = b / 16 ^ (hm + 1) % 16 := cell_bit_eq _ b
    have hoblt : Layer.cell_bit (hm + 1) b < 16 := cell_bit_lt _ b
    have hAA' : alignTo (16 ^ (hm + 1 + 1)) b +
        16 ^ (hm + 1) * Layer.cell_bit (hm + 1) b = alignTo (16 ^ (hm + 1)) b := by
      unfold alignTo
      rw [hcb, hpow]
      exact align_succ (16 ^ (hm + 1)) b
    have hA'le : alignTo (16 ^ (hm + 1 + 1)) b ≤ alignTo (16 ^ (hm + 1)) b := by omega
    have hA'bd : alignTo (16 ^ (hm + 1)) b + 16 ^ (hm + 1) ≤
        alignTo (16 ^ (hm + 1 + 1)) b + 16 ^ (hm + 1 + 1) := by
      have h1 : 16 ^ (hm + 1) * (Layer.cell_bit (hm + 1) b + 1) ≤ 16 ^ (hm + 1) * 16 :=
        Nat.mul_le_mul_left _ (by omega)
      rw [Nat.mul_add, Nat.mul_one] at h1
      omega
    have hKlen : (Tree.leafStep l M (hm + 1)).length = Layer.count_ones l :=
      leafStep_length l M _ hll
    have hKmapOk : MapOk B hm (Tree.leafStep l M (hm + 1)) := leafStep_mapOk B hm l M hll hM
    have hKhd : ((l2 :: r).headD []).length = (Tree.leafStep l M (hm + 1)).length := by
      simp only [List.headD_cons]
      rw [hKlen, hl2len]
    have hrne2 : ∀ n f, Tree.setAux b (l2 :: r) hm n f ≠ [] := by
      intro n f
      rw [setAux_cons]
      exact List.cons_ne_nil _ _
    have hcsplit : Layer.count_ones l =
        Layer.count_ones (l.take i) + Layer.count_ones (l.drop i) := by
      conv_lhs => rw [← List.take_append_drop i l]
      rw [Layer.count_ones_append]
    cases c with
    | true =>
      obtain ⟨hi, hpre, hsuf, hbd⟩ := hct rfl
      have hiL : i ≤ l.length := by omega
      have hcell1 : (List.insertIdx i 0 l).getD i 0 = 0 := getD_insertIdx_self 0 i l hiL
      have hl1len : (List.insertIdx i 0 l).length = l.length + 1 :=
        length_insertIdx_self l i 0 hiL
      have htake1 : (List.insertIdx i 0 l).take i = l.take i := take_insertIdx_self 0 i l hiL
      have hr : Layer.set (List.insertIdx i 0 l) (hm + 1) i b =
          (List.set (List.insertIdx i 0 l) i
              (Cell.set 0 (Layer.cell_bit (hm + 1) b) true),
            Layer.count_ones (l.take i), true) := by
        rw [Layer.set_eq, hcell1, Cell.get_zero, if_neg (by simp),
          Layer.get_fst_pos _ _ _ _ (by omega), htake1, hcell1, Cell.count_ones_until_zero]
        simp
      have hnxtle : Layer.count_ones (l.take i) ≤ (Tree.leafStep l M (hm + 1)).length := by
        rw [hKlen]
        exact count_ones_take_le l i
      obtain ⟨hKtake, hKdrop⟩ := leafStep_split_boundary l M (hm + 1) i hiL hll
      have hpre' : ∀ e ∈ (Tree.leafStep l M (hm + 1)).take (Layer.count_ones (l.take i)),
          e + 16 ^ (hm + 1) ≤ alignTo (16 ^ (hm + 1)) b := by
        rw [hKtake]
        intro e he
        obtain ⟨j, hj1, hj2, o', ho', hg', rfl⟩ := leafStep_mem _ _ _ e he
        have h1 := hpre _ (getD_mem _ j hj2)
        have h2 : 16 ^ (hm + 1) * (o' + 1) ≤ 16 ^ (hm + 1) * 16 :=
          Nat.mul_le_mul_left _ (by omega)
        rw [Nat.mul_add, Nat.mul_one] at h2
        omega
      have hsuf' : ∀ e ∈ (Tree.leafStep l M (hm + 1)).drop (Layer.count_ones (l.take i)),
          alignTo (16 ^ (hm + 1)) b + 16 ^ (hm + 1) ≤ e := by
        rw [hKdrop]
        intro e he
        obtain ⟨j, hj1, hj2, o', ho', hg', rfl⟩ := leafStep_mem _ _ _ e he
        have h1 := hsuf _ (getD_mem _ j hj2)
        have h2 : (M.drop i).getD j 0 ≤ (M.drop i).getD j 0 + 16 ^ (hm + 1) * o' :=
          Nat.le_add_right _ _
        omega
      have hbd' : alignTo (16 ^ (hm + 1)) b + 16 ^ (hm + 1) ≤ B := by omega
      obtain ⟨ihWF, ihLen, ihHead, ihMok, ihLoop⟩ :=
        setAux_spec B b (l2 :: r) hm (Tree.leafStep l M (hm + 1))
          (Layer.count_ones (l.take i)) true hwfr hlr hKhd hKmapOk
          (fun _ => ⟨hnxtle, hpre', hsuf', hbd'⟩) (fun hff => nomatch hff)
      rw [if_pos rfl] at ihHead ihMok ihLoop
      have hstep : Tree.setAux b (l :: l2 :: r) (hm + 1) i true =
          List.set (List.insertIdx i 0 l) i
              (Cell.set 0 (Layer.cell_bit (hm + 1) b) true) ::
            Tree.setAux b (l2 :: r) hm (Layer.count_ones (l.take i)) true := by
        show (Layer.set (List.insertIdx i 0 l) (hm + 1) i b).1 ::
          Tree.setAux b (l2 :: r) hm (Layer.set (List.insertIdx i 0 l) (hm + 1) i b).2.1
            (Layer.set (List.insertIdx i 0 l) (hm + 1) i b).2.2 = _
        rw [hr]
      have hl'len : (List.set (List.insertIdx i 0 l) i
          (Cell.set 0 (Layer.cell_bit (hm + 1) b) true)).length = l.length + 1 := by
        rw [List.length_set, hl1len]
      have hdrop1 : (List.insertIdx i 0 l).drop (i + 1) = l.drop i := by
        have hti' : (l.take i).length = i := by simp [List.length_take]; omega
        rw [insertIdx_eq_take_cons_drop 0 i l hiL,
          show i + 1 = (l.take i).length + 1 from by omega, List.drop_append]
        rfl
      have hcount' : Layer.count_ones (List.set (List.insertIdx i 0 l) i
          (Cell.set 0 (Layer.cell_bit (hm + 1) b) true)) = Layer.count_ones l + 1 := by
        rw [count_ones_set _ _ _ (by omega), htake1, hdrop1,
          Cell.count_ones_set_true 0 _ hoblt (Cell.get_zero _), Cell.count_ones_zero]
        omega
      have hstepmap : Tree.leafStep (List.set (List.insertIdx i 0 l) i
            (Cell.set 0 (Layer.cell_bit (hm + 1) b) true))
            (List.insertIdx i (alignTo (16 ^ (hm + 1 + 1)) b) M) (hm + 1) =
          List.insertIdx (Layer.count_ones (l.take i)) (alignTo (16 ^ (hm + 1)) b)
            (Tree.leafStep l M (hm + 1)) := by
        have hM1len : (List.insertIdx i 0 l).length =
            (List.insertIdx i (alignTo (16 ^ (hm + 1 + 1)) b) M).length := by
          rw [hl1len, length_insertIdx_self M i _ (by omega)]
          omega
        conv_lhs => rw [show Cell.set 0 (Layer.cell_bit (hm + 1) b) true =
          Cell.set ((List.insertIdx i 0 l).getD i 0) (Layer.cell_bit (hm + 1) b) true from by
            rw [hcell1]]
        rw [leafStep_set_true (List.insertIdx i 0 l) _ (hm + 1) i _ (by omega) hM1len
          hoblt (by rw [hcell1]; exact Cell.get_zero _)]
        rw [htake1, hcell1, Cell.count_ones_until_zero,
          getD_insertIdx_self (alignTo (16 ^ (hm + 1 + 1)) b) i M (by omega),
          leafStep_insert_zero l M (hm + 1) i _ hiL hll, Nat.add_zero, hAA']
      rw [if_pos rfl, hstep]
      refine ⟨?_, ?_, ?_, ?_, ?_⟩
      · rw [WFs_cons_iff _ _ (hrne2 _ _)]
        refine ⟨?_, ?_, ?_, ihWF⟩
        · intro hnil
          have h1 := congrArg List.length hnil
          rw [hl'len] at h1
          simp at h1
        · intro x hx
          rcases List.mem_or_eq_of_mem_set hx with hx1 | rfl
          · rcases (List.mem_insertIdx hiL).mp hx1 with rfl | hx2
            · norm_num
            · exact hcells x hx2
          · exact Cell.set_true_lt 0 _ (by norm_num) hoblt
        · rw [ihHead, length_insertIdx_self _ _ _ hnxtle, hKlen, hcount']
      · simp only [List.length_cons]
        simp only [List.length_cons] at ihLen
        omega
      · simp only [List.headD_cons]
        rw [hl'len, length_insertIdx_self M i _ (by omega), hll]
      · exact mapOk_insert B (hm + 1) M i _ hM (by omega) hpre hsuf (alignTo_mod _ _) hbd
      · rw [leafLoop_cons _ _ _ _ (hrne2 _ _), leafLoop_cons l (l2 :: r) (hm + 1) M (by simp)]
        simp only [Nat.add_sub_cancel]
        rw [hstepmap, ihLoop]
    | false =>
      obtain ⟨hi, hMi⟩ := hcf rfl
      have hiL : i < l.length := by omega
      have hbin1 : M.getD i 0 ≤ b := by
        rw [hMi]
        exact alignTo_le _ _
      have hbin2 : b < M.getD i 0 + 16 ^ (hm + 1 + 1) := by
        rw [hMi]
        exact lt_alignTo_add _ _ (pow16_pos _)
      have hMibd := (hM.2 _ (getD_mem M i hi)).2
      cases hg : Cell.get (l.getD i 0) (Layer.cell_bit (hm + 1) b) with
      | true =>
        have hr : Layer.set l (hm + 1) i b =
            (l, Layer.count_ones (l.take i) +
              Cell.count_ones_until (l.getD i 0) (Layer.cell_bit (hm + 1) b), false) := by
          rw [Layer.set_eq, if_pos hg, Layer.get_fst_pos _ _ _ _ (by omega)]
        have hrank_lt : Layer.count_ones (l.take i) +
            Cell.count_ones_until (l.getD i 0) (Layer.cell_bit (hm + 1) b) <
              (Tree.leafStep l M (hm + 1)).length := by
          rw [hKlen]
          exact rank_lt_count l i _ hiL hoblt hg
        have hKrank : (Tree.leafStep l M (hm + 1)).getD
            (Layer.count_ones (l.take i) +
              Cell.count_ones_until (l.getD i 0) (Layer.cell_bit (hm + 1) b)) 0 =
            alignTo (16 ^ (hm + 1)) b := by
          rw [leafStep_getD_rank l M (hm + 1) i _ hiL hll hoblt hg, hMi, hAA']
        obtain ⟨ihWF, ihLen, ihHead, ihMok, ihLoop⟩ :=
          setAux_spec B b (l2 :: r) hm (Tree.leafStep l M (hm + 1)) _ false hwfr hlr hKhd
            hKmapOk (fun hff => nomatch hff) (fun _ => ⟨hrank_lt, hKrank⟩)
        rw [if_neg (by simp)] at ihHead ihMok ihLoop
        have hstep : Tree.setAux b (l :: l2 :: r) (hm + 1) i false =
            l :: Tree.setAux b (l2 :: r) hm
              (Layer.count_ones (l.take i) +
                Cell.count_ones_until (l.getD i 0) (Layer.cell_bit (hm + 1) b)) false := by
          show (Layer.set l (hm + 1) i b).1 ::
            Tree.setAux b (l2 :: r) hm (Layer.set l (hm + 1) i b).2.1
              (Layer.set l (hm + 1) i b).2.2 = _
          rw [hr]
        rw [if_neg (by simp), hstep]
        refine ⟨?_, ?_, ?_, hM, ?_⟩
        · rw [WFs_cons_iff _ _ (hrne2 _ _)]
          refine ⟨hlne, hcells, ?_, ihWF⟩
          rw [ihHead, hKlen]
        · simp only [List.length_cons]
          simp only [List.length_cons] at ihLen
          omega
        · simpa using hhd
        · rw [leafLoop_cons _ _ _ _ (hrne2 _ _), leafLoop_cons l (l2 :: r) (hm + 1) M (by simp)]
          simp only [Nat.add_sub_cancel]
          rw [ihLoop]
      | false =>
        have hr : Layer.set l (hm + 1) i b =
            (List.set l i (Cell.set (l.getD i 0) (Layer.cell_bit (hm + 1) b) true),
              Layer.count_ones (l.take i) +
                Cell.count_ones_until (l.getD i 0) (Layer.cell_bit (hm + 1) b), true) := by
          rw [Layer.set_eq, if_neg (by rw [hg]; simp), Layer.get_fst_pos _ _ _ _ (by omega)]
        have hrank_le : Layer.count_ones (l.take i) +
            Cell.count_ones_until (l.getD i 0) (Layer.cell_bit (hm + 1) b) ≤
              (Tree.leafStep l M (hm + 1)).length := by
          rw [hKlen]
          exact rank_le_count l i _ hiL (le_of_lt hoblt)
        obtain ⟨hSt, hSd⟩ := leafStep_split_rank l M (hm + 1) i _ hiL hll hoblt hg
        have hpre' : ∀ e ∈ (Tree.leafStep l M (hm + 1)).take
            (Layer.count_ones (l.take i) +
              Cell.count_ones_until (l.getD i 0) (Layer.cell_bit (hm + 1) b)),
            e + 16 ^ (hm + 1) ≤ alignTo (16 ^ (hm + 1)) b := by
          rw [hSt]
          intro e he
          rcases List.mem_append.mp he with heX | hePm
          · obtain ⟨j, hj1, hj2, o', ho', hg', rfl⟩ := leafStep_mem _ _ _ e heX
            have h1 := pairwise_take_rel M _ i hM.1 hi _ (getD_mem _ j hj2)
            have h2 : 16 ^ (hm + 1) * (o' + 1) ≤ 16 ^ (hm + 1) * 16 :=
              Nat.mul_le_mul_left _ (by omega)
            rw [Nat.mul_add, Nat.mul_one] at h2
            omega
          · obtain ⟨idx, hidxmem, rfl⟩ := List.mem_map.mp hePm
            have hidx : idx < Layer.cell_bit (hm + 1) b := by
              have := (List.mem_filter.mp hidxmem).1
              rwa [List.mem_range] at this
            have h2 : 16 ^ (hm + 1) * (idx + 1) ≤
                16 ^ (hm + 1) * Layer.cell_bit (hm + 1) b :=
              Nat.mul_le_mul_left _ (by omega)
            rw [Nat.mul_add, Nat.mul_one] at h2
            omega
        have hsuf' : ∀ e ∈ (Tree.leafStep l M (hm + 1)).drop
            (Layer.count_ones (l.take i) +
              Cell.count_ones_until (l.getD i 0) (Layer.cell_bit (hm + 1) b)),
            alignTo (16 ^ (hm + 1)) b + 16 ^ (hm + 1) ≤ e := by
          rw [hSd]
          intro e he
          rcases List.mem_append.mp he with heSm | heY
          · obtain ⟨idx, hidxmem, rfl⟩ := List.mem_map.mp heSm
            have hidx : Layer.cell_bit (hm + 1) b + 1 ≤ idx := by
              have := (List.mem_filter.mp hidxmem).1
              rw [List.mem_range'] at this
              obtain ⟨k, _, rfl⟩ := this
              omega
            have h2 : 16 ^ (hm + 1) * (Layer.cell_bit (hm + 1) b + 1) ≤
                16 ^ (hm + 1) * idx := Nat.mul_le_mul_left _ hidx
            rw [Nat.mul_add, Nat.mul_one] at h2
            omega
          · obtain ⟨j, hj1, hj2, o', ho', hg', rfl⟩ := leafStep_mem _ _ _ e heY
            have h1 := pairwise_drop_rel M _ i hM.1 hi _ (getD_mem _ j hj2)
            have h2 : (M.drop (i + 1)).getD j 0 ≤
                (M.drop (i + 1)).getD j 0 + 16 ^ (hm + 1) * o' := Nat.le_add_right _ _
            omega
        have hbd' : alignTo (16 ^ (hm + 1)) b + 16 ^ (hm + 1) ≤ B := by omega
        obtain ⟨ihWF, ihLen, ihHead, ihMok, ihLoop⟩ :=
          setAux_spec B b (l2 :: r) hm (Tree.leafStep l M (hm + 1)) _ true hwfr hlr hKhd
            hKmapOk (fun _ => ⟨hrank_le, hpre', hsuf', hbd'⟩) (fun hff => nomatch hff)
        rw [if_pos rfl] at ihHead ihMok ihLoop
        have hstep : Tree.setAux b (l :: l2 :: r) (hm + 1) i false =
            List.set l i (Cell.set (l.getD i 0) (Layer.cell_bit (hm + 1) b) true) ::
              Tree.setAux b (l2 :: r) hm
                (Layer.count_ones (l.take i) +
                  Cell.count_ones_until (l.getD i 0) (Layer.cell_bit (hm + 1) b)) true := by
          show (Layer.set l (hm + 1) i b).1 ::
            Tree.setAux b (l2 :: r) hm (Layer.set l (hm + 1) i b).2.1
              (Layer.set l (hm + 1) i b).2.2 = _
          rw [hr]
        have hcount' : Layer.count_ones (List.set l i
            (Cell.set (l.getD i 0) (Layer.cell_bit (hm + 1) b) true)) =
            Layer.count_ones l + 1 := by
          rw [count_ones_set l i _ hiL, Cell.count_ones_set_true _ _ hoblt hg]
          have hdecomp := count_ones_decomp l i hiL
          omega
        have hstepmap : Tree.leafStep (List.set l i
              (Cell.set (l.getD i 0) (Layer.cell_bit (hm + 1) b) true)) M (hm + 1) =
            List.insertIdx
              (Layer.count_ones (l.take i) +
                Cell.count_ones_until (l.getD i 0) (Layer.cell_bit (hm + 1) b))
              (alignTo (16 ^ (hm + 1)) b) (Tree.leafStep l M (hm + 1)) := by
          rw [leafStep_set_true l M (hm + 1) i _ hiL hll hoblt hg, hMi, hAA']
        rw [if_neg (by simp), hstep]
        refine ⟨?_, ?_, ?_, hM, ?_⟩
        · rw [WFs_cons_iff _ _ (hrne2 _ _)]
          refine ⟨?_, ?_, ?_, ihWF⟩
          · intro hnil
            have h1 := congrArg List.length hnil
            rw [List.length_set] at h1
            simp at h1
            exact hlne h1
          · intro x hx
            rcases List.mem_or_eq_of_mem_set hx with hx1 | rfl
            · exact hcells x hx1
            · exact Cell.set_true_lt _ _ (hcells _ (getD_mem l i hiL)) hoblt
          · rw [ihHead, length_insertIdx_self _ _ _ hrank_le, hKlen, hcount']
        · simp only [List.length_cons]
          simp only [List.length_cons] at ihLen
          omega
        · simp only [List.headD_cons]
          rw [List.length_set]
          simpa using hhd
        · rw [leafLoop_cons _ _ _ _ (hrne2 _ _), leafLoop_cons l (l2 :: r) (hm + 1) M (by simp)]
          simp only [Nat.add_sub_cancel]
          rw [hstepmap, ihLoop]



/-- When the path bit at the current layer is unset, no child range below
covers `b`. -/
theorem leafStep_uncovered (B b : Nat) (l : Layer) (M : List Nat) (hm i : Nat)
    (_hll : l.length = M.length) (hM : MapOk B (hm + 1) M) (hi : i < M.length)
    (hb1 : M.getD i 0 ≤ b) (hb2 : b < M.getD i 0 + 16 ^ (hm + 1 + 1))
    (hg : Cell.get (l.getD i 0) (Layer.cell_bit (hm + 1) b) = false) :
    ∀ e ∈ Tree.leafStep l M (hm + 1), ¬(e ≤ b ∧ b < e + 16 ^ (hm + 1)) := by
  have hal := (hM.2 _ (getD_mem M i hi)).1
  have hpow : (16 : Nat) ^ (hm + 1 + 1) = 16 * 16 ^ (hm + 1) := pow16_succ _
  rw [hpow] at hal hb2
  have hslot := slot_arith (16 ^ (hm + 1)) (M.getD i 0) b (pow16_pos _) hal hb1 hb2
  rw [← cell_bit_eq] at hslot
  intro e he
  obtain ⟨j, hj1, hj2, o', ho', hg', rfl⟩ := leafStep_mem l M (hm + 1) e he
  rcases Nat.lt_trichotomy j i with hji | hji | hji
  · have hpw := pairwise_getD_le M (16 ^ (hm + 1 + 1)) hM.1 j i hji hi
    rw [hpow] at hpw
    have hb16 : 16 ^ (hm + 1) * o' + 16 ^ (hm + 1) ≤ 16 ^ (hm + 1) * 16 := by
      have h2 : 16 ^ (hm + 1) * (o' + 1) ≤ 16 ^ (hm + 1) * 16 :=
        Nat.mul_le_mul_left _ (by omega)
      rw [Nat.mul_add, Nat.mul_one] at h2
      exact h2
    intro hcov
    omega
  · subst hji
    have hoo : o' ≠ Layer.cell_bit (hm + 1) b := fun hEq => by
      rw [hEq, hg] at hg'
      simp at hg'
    rcases Nat.lt_or_ge o' (Layer.cell_bit (hm + 1) b) with hlt | hge
    · have h2 : 16 ^ (hm + 1) * (o' + 1) ≤ 16 ^ (hm + 1) * Layer.cell_bit (hm + 1) b :=
        Nat.mul_le_mul_left _ (by omega)
      rw [Nat.mul_add, Nat.mul_one] at h2
      intro hcov
      omega
    · have hgt : Layer.cell_bit (hm + 1) b < o' := by omega
      have h2 : 16 ^ (hm + 1) * (Layer.cell_bit (hm + 1) b + 1) ≤ 16 ^ (hm + 1) * o' :=
        Nat.mul_le_mul_left _ (by omega)
      rw [Nat.mul_add, Nat.mul_one] at h2
      intro hcov
      omega
  · have hpw := pairwise_getD_le M (16 ^ (hm + 1 + 1)) hM.1 i j hji hj2
    rw [hpow] at hpw
    intro hcov
    omega

/-- The unset walk: it never changes any layer shape, and its effect on the
final leaf map is exactly the abstract `mapUnsetBit`. -/
theorem unsetAux_spec (B b : Nat) :
    ∀ (L : List Layer) (h : Nat) (M : List Nat) (i : Nat),
      WFs L → L.length = h + 1 → (L.headD []).length = M.length → MapOk B h M →
      i < M.length → M.getD i 0 ≤ b → b < M.getD i 0 + 16 ^ (h + 1) →
      WFs (Tree.unsetAux b L h i) ∧
      (Tree.unsetAux b L h i).length = L.length ∧
      ((Tree.unsetAux b L h i).headD []).length = M.length ∧
      Tree.leafLoop (Tree.unsetAux b L h i) h M = mapUnsetBit (Tree.leafLoop L h M) b
  | [], h, M, i, _, hlen, _, _, _, _, _ => by simp at hlen
  | [l], h, M, i, hwf, hlen, hhd, hM, hi, hb1, hb2 => by
    have h0 : h = 0 := by simpa using hlen.symm
    subst h0
    obtain ⟨hlne, hcells⟩ : l ≠ [] ∧ cellsB l := hwf
    have hll : l.length = M.length := by simpa using hhd
    have hiL : i < l.length := by omega
    have h16 : (16 : Nat) ^ (0 + 1) = 16 := by norm_num
    rw [h16] at hb2
    have hal : M.getD i 0 % 16 = 0 := by
      have := (hM.2 _ (getD_mem M i hi)).1
      rwa [h16] at this
    have hcb : Layer.cell_bit 0 b = b % 16 := by rw [cell_bit_eq]; simp
    have hbmb : b - M.getD i 0 = b % 16 := by omega
    have hstep : Tree.unsetAux b [l] 0 i =
        [List.set l i (Cell.set (l.getD i 0) (b % 16) false)] := by
      show (if (0 : Nat) = 0 then Layer.unset l 0 i b :: [] else _) = _
      rw [if_pos rfl]
      unfold Layer.unset
      rw [hcb]
    rw [hstep]
    refine ⟨⟨?_, ?_⟩, by simp, ?_, ?_⟩
    · intro hnil
      have h1 := congrArg List.length hnil
      rw [List.length_set] at h1
      simp at h1
      exact hlne h1
    · intro x hx
      rcases List.mem_or_eq_of_mem_set hx with hx1 | rfl
      · exact hcells x hx1
      · exact Cell.set_false_lt _ _ (hcells _ (getD_mem l i hiL))
    · simp only [List.headD_cons]
      rw [List.length_set]
      exact hll
    · show M.zip (List.set l i (Cell.set (l.getD i 0) (b % 16) false)) =
        mapUnsetBit (M.zip l) b
      have hpz : ∀ p ∈ (M.take i).zip (l.take i), p.1 + 16 ≤ b := by
        intro p hp
        have hp1 := (List.of_mem_zip hp).1
        have := pairwise_take_rel M _ i hM.1 hi p.1 hp1
        rw [h16] at this
        omega
      rw [List.set_eq_take_cons_drop _ hiL]
      conv_lhs => rw [layer_decomp M i hi]
      rw [List.zip_append (by simp [List.length_take]; omega), List.zip_cons_cons]
      rw [zip_decomp M l i hi hll]
      rw [mapUnsetBit_eq_update b _ _ _ hpz (by simpa using hb1) (by simpa using hb2)]
      simp only
      rw [hbmb]
  | l :: l2 :: r, h, M, i, hwf, hlen, hhd, hM, hi, hb1, hb2 => by
    obtain ⟨hlne, hcells, hl2len, hwfr⟩ := hwf
    obtain ⟨hm, rfl⟩ : ∃ hm, h = hm + 1 := by
      refine ⟨h - 1, ?_⟩
      simp only [List.length_cons] at hlen
      omega
    have hlr : (l2 :: r).length = hm + 1 := by
      simp only [List.length_cons] at hlen
      simp only [List.length_cons]
      omega
    have hll : l.length = M.length := by simpa using hhd
    have hiL : i < l.length := by omega
    have hpow : (16 : Nat) ^ (hm + 1 + 1) = 16 * 16 ^ (hm + 1) := pow16_succ _
    have hoblt : Layer.cell_bit (hm + 1) b < 16 := cell_bit_lt _ b
    have hal := (hM.2 _ (getD_mem M i hi)).1
    have hslot : M.getD i 0 + 16 ^ (hm + 1) * (Layer.cell_bit (hm + 1) b) ≤ b ∧
        b < M.getD i 0 + 16 ^ (hm + 1) * (Layer.cell_bit (hm + 1) b) + 16 ^ (hm + 1) := by
      have h1 := slot_arith (16 ^ (hm + 1)) (M.getD i 0) b (pow16_pos _)
        (by rwa [← hpow]) hb1 (by rwa [hpow] at hb2)
      rwa [← cell_bit_eq] at h1
    have hKlen : (Tree.leafStep l M (hm + 1)).length = Layer.count_ones l :=
      leafStep_length l M _ hll
    have hKmapOk : MapOk B hm (Tree.leafStep l M (hm + 1)) := leafStep_mapOk B hm l M hll hM
    have hKhd : ((l2 :: r).headD []).length = (Tree.leafStep l M (hm + 1)).length := by
      simp only [List.headD_cons]
      rw [hKlen, hl2len]
    have hgaux : Tree.unsetAux b (l :: l2 :: r) (hm + 1) i =
        if (Layer.get l (hm + 1) i b).2 then
          l :: Tree.unsetAux b (l2 :: r) hm (Layer.get l (hm + 1) i b).1
        else l :: l2 :: r := by
      show (if hm + 1 = 0 then _ else _) = _
      rw [if_neg (by omega)]
      rfl
    cases hg : Cell.get (l.getD i 0) (Layer.cell_bit (hm + 1) b) with
    | true =>
      have hget2 : (Layer.get l (hm + 1) i b).2 = true := by
        unfold Layer.get
        rw [List.getD_eq_getElem?_getD] at hg
        simpa using hg
      have hget1 : (Layer.get l (hm + 1) i b).1 =
          Layer.count_ones (l.take i) +
            Cell.count_ones_until (l.getD i 0) (Layer.cell_bit (hm + 1) b) :=
        Layer.get_fst_pos l _ i b (by omega)
      have hrank_lt : Layer.count_ones (l.take i) +
          Cell.count_ones_until (l.getD i 0) (Layer.cell_bit (hm + 1) b) <
            (Tree.leafStep l M (hm + 1)).length := by
        rw [hKlen]
        exact rank_lt_count l i _ hiL hoblt hg
      have hKrank : (Tree.leafStep l M (hm + 1)).getD
          (Layer.count_ones (l.take i) +
            Cell.count_ones_until (l.getD i 0) (Layer.cell_bit (hm + 1) b)) 0 =
          M.getD i 0 + 16 ^ (hm + 1) * Layer.cell_bit (hm + 1) b :=
        leafStep_getD_rank l M (hm + 1) i _ hiL hll hoblt hg
      obtain ⟨ihWF, ihLen, ihHead, ihLoop⟩ :=
        unsetAux_spec B b (l2 :: r) hm (Tree.leafStep l M (hm + 1)) _ hwfr hlr hKhd hKmapOk
          hrank_lt (by rw [hKrank]; exact hslot.1) (by rw [hKrank]; exact hslot.2)
      rw [hgaux, if_pos hget2, hget1]
      have hrne : Tree.unsetAux b (l2 :: r) hm
          (Layer.count_ones (l.take i) +
            Cell.count_ones_until (l.getD i 0) (Layer.cell_bit (hm + 1) b)) ≠ [] := by
        intro hnil
        have h1 := congrArg List.length hnil
        rw [ihLen] at h1
        simp at h1
      refine ⟨?_, ?_, ?_, ?_⟩
      · rw [WFs_cons_iff _ _ hrne]
        refine ⟨hlne, hcells, ?_, ihWF⟩
        rw [ihHead, hKlen]
      · simp only [List.length_cons]
        simp only [List.length_cons] at ihLen
        omega
      · simpa using hhd
      · rw [leafLoop_cons _ _ _ _ hrne, leafLoop_cons l (l2 :: r) (hm + 1) M (by simp)]
        simp only [Nat.add_sub_cancel]
        rw [ihLoop]
    | false =>
      have hget2 : (Layer.get l (hm + 1) i b).2 = false := by
        unfold Layer.get
        rw [List.getD_eq_getElem?_getD] at hg
        simpa using hg
      rw [hgaux, if_neg (by rw [hget2]; simp)]
      refine ⟨⟨hlne, hcells, hl2len, hwfr⟩, rfl, by simpa using hhd, ?_⟩
      have huncov := leafStep_uncovered B b l M hm i hll hM hi hb1 hb2 hg
      have hfinal := leafLoop_not_covered b (l2 :: r) hm (Tree.leafStep l M (hm + 1)) hlr
        (by
          intro e he
          exact huncov e he)
      rw [leafLoop_cons l (l2 :: r) (hm + 1) M (by simp)]
      simp only [Nat.add_sub_cancel]
      rw [mapUnsetBit_not_covered b _ hfinal]

/-! ### Well-formed trees and the top-level operation laws -/

/-- Invariant of a whole tree: nonempty, a single root cell, and the layer
chain invariant. -/
def Tree.WF (t : Tree) : Prop :=
  t ≠ [] ∧ (t.headD []).length = 1 ∧ WFs t

theorem Tree.new_wf : Tree.WF Tree.new := by
  refine ⟨by simp [Tree.new], rfl, by simp, ?_⟩
  intro c hc
  simp [Tree.new] at hc
  omega

theorem Tree.bits_eq (t : Tree) (h : t ≠ []) : Tree.bits t = 16 ^ t.length := by
  cases t with
  | nil => exact absurd rfl h
  | cons l r =>
    show (16 : Nat) <<< (4 * ((l :: r).length - 1)) = _
    rw [List.length_cons, Nat.add_sub_cancel, Nat.shiftLeft_eq]
    rw [show (2 : Nat) ^ (4 * r.length) = 16 ^ r.length from by
      rw [Nat.pow_mul]]
    rw [pow_succ]
    ring

theorem mapOk_root (h : Nat) : MapOk (16 ^ (h + 1)) h [0] := by
  refine ⟨List.pairwise_singleton _ _, ?_⟩
  intro o ho
  simp at ho
  subst ho
  simp

/-- `Tree::get` reads the leaf map. -/
theorem Tree.get_eq_leafLookup (t : Tree) (b : Nat) (hWF : Tree.WF t)
    (hb : b < Tree.bits t) : Tree.get t b = leafLookup (Tree.leafLayer t) b := by
  obtain ⟨hne, hhd, hwfs⟩ := hWF
  cases t with
  | nil => exact absurd rfl hne
  | cons l r =>
    rw [Tree.bits_eq _ hne, List.length_cons] at hb
    show Tree.getAux b (l :: r) ((l :: r).length - 1) 0 = _
    unfold Tree.leafLayer
    rw [show (l :: r).length - 1 = r.length from by simp]
    exact getAux_eq_leafLookup (16 ^ (r.length + 1)) b (l :: r) r.length [0] 0
      hwfs (by simp) (by simpa using hhd) (mapOk_root r.length) (by simp)
      (Nat.zero_le b) (by simpa using hb)

/-- `Tree::set` preserves well-formedness and layer count, and acts on the
leaf map as the abstract `mapSetBit`. -/
theorem Tree.set_spec (t : Tree) (b : Nat) (hWF : Tree.WF t) (hb : b < Tree.bits t) :
    Tree.WF (Tree.set t b) ∧ (Tree.set t b).length = t.length ∧
      Tree.leafLayer (Tree.set t b) = mapSetBit (Tree.leafLayer t) b := by
  obtain ⟨hne, hhd, hwfs⟩ := hWF
  cases t with
  | nil => exact absurd rfl hne
  | cons l r =>
    rw [Tree.bits_eq _ hne, List.length_cons] at hb
    have halign : alignTo (16 ^ (r.length + 1)) b = 0 := by
      unfold alignTo
      rw [Nat.div_eq_of_lt hb]
      simp
    obtain ⟨hWF2, hLen2, hHd2, _, hLoop2⟩ :=
      setAux_spec (16 ^ (r.length + 1)) b (l :: r) r.length [0] 0 false
        hwfs (by simp) (by simpa using hhd) (mapOk_root r.length)
        (fun hcc => by simp at hcc)
        (fun _ => ⟨by simp, by simpa using halign.symm⟩)
    simp only [if_neg (Bool.false_ne_true)] at hHd2 hLoop2
    have hset : Tree.set (l :: r) b = Tree.setAux b (l :: r) r.length 0 false := by
      show Tree.setAux b (l :: r) ((l :: r).length - 1) 0 false = _
      rw [show (l :: r).length - 1 = r.length from by simp]
    have hlen : (Tree.set (l :: r) b).length = (l :: r).length := by
      rw [hset]; exact hLen2
    refine ⟨⟨?_, ?_, ?_⟩, hlen, ?_⟩
    · intro hnil
      rw [hnil] at hlen
      simp at hlen
    · rw [hset]
      simpa using hHd2
    · rw [hset]; exact hWF2
    · unfold Tree.leafLayer
      rw [hlen, hset, List.length_cons, Nat.add_sub_cancel]
      exact hLoop2

/-- `Tree::unset` preserves well-formedness and layer count, and acts on
the leaf map as the abstract `mapUnsetBit`. -/
theorem Tree.unset_spec (t : Tree) (b : Nat) (hWF : Tree.WF t) (hb : b < Tree.bits t) :
    Tree.WF (Tree.unset t b) ∧ (Tree.unset t b).length = t.length ∧
      Tree.leafLayer (Tree.unset t b) = mapUnsetBit (Tree.leafLayer t) b := by
  obtain ⟨hne, hhd, hwfs⟩ := hWF
  cases t with
  | nil => exact absurd rfl hne
  | cons l r =>
    rw [Tree.bits_eq _ hne, List.length_cons] at hb
    obtain ⟨hWF2, hLen2, hHd2, hLoop2⟩ :=
      unsetAux_spec (16 ^ (r.length + 1)) b (l :: r) r.length [0] 0
        hwfs (by simp) (by simpa using hhd) (mapOk_root r.length) (by simp)
        (Nat.zero_le b) (by simpa using hb)
    have hset : Tree.unset (l :: r) b = Tree.unsetAux b (l :: r) r.length 0 := by
      show Tree.unsetAux b (l :: r) ((l :: r).length - 1) 0 = _
      rw [show (l :: r).length - 1 = r.length from by simp]
    have hlen : (Tree.unset (l :: r) b).length = (l :: r).length := by
      rw [hset]; exact hLen2
    refine ⟨⟨?_, ?_, ?_⟩, hlen, ?_⟩
    · intro hnil
      rw [hnil] at hlen
      simp at hlen
    · rw [hset]
      simpa using hHd2
    · rw [hset]; exact hWF2
    · unfold Tree.leafLayer
      rw [hlen, hset, List.length_cons, Nat.add_sub_cancel]
      exact hLoop2

theorem pairwise_zip_left (R : Nat → Nat → Prop) :
    ∀ (M l : List Nat), M.Pairwise R → (M.zip l).Pairwise fun p q => R p.1 q.1
  | [], _, _ => by simp
  | _ :: _, [], _ => by simp
  | m :: M, c :: l, h => by
    rw [List.pairwise_cons] at h
    rw [List.zip_cons_cons, List.pairwise_cons]
    exact ⟨fun q hq => h.1 q.1 (List.of_mem_zip hq).1, pairwise_zip_left R M l h.2⟩

/-- Invariant of the materialized leaf map: offsets strictly increase with
gaps of at least one cell, are 16-aligned and in bounds, and the cells are
`u16`. -/
def leafMapOk (B : Nat) (P : List (Nat × Nat)) : Prop :=
  (P.Pairwise fun p q => p.1 + 16 ≤ q.1) ∧
    ∀ p ∈ P, p.1 % 16 = 0 ∧ p.1 + 16 ≤ B ∧ p.2 < 65536

theorem leafLoop_leafMapOk (B : Nat) :
    ∀ (L : List Layer) (h : Nat) (M : List Nat),
      WFs L → L.length = h + 1 → (L.headD []).length = M.length → MapOk B h M →
      leafMapOk B (Tree.leafLoop L h M)
  | [], h, M, _, hlen, _, _ => by simp at hlen
  | [l], h, M, hwf, hlen, hhd, hM => by
    have h0 : h = 0 := by simpa using hlen.symm
    subst h0
    obtain ⟨_, hcells⟩ : l ≠ [] ∧ cellsB l := hwf
    rw [leafLoop_single]
    constructor
    · have hp := pairwise_zip_left (fun a b => a + 16 ≤ b) M l (by
        have := hM.1
        simpa using this)
      exact hp
    · intro p hp
      obtain ⟨h1, h2⟩ := List.of_mem_zip hp
      have h3 := hM.2 _ h1
      simp only [pow_one] at h3
      exact ⟨by simpa using h3.1, by simpa using h3.2, hcells _ h2⟩
  | l :: l2 :: r, h, M, hwf, hlen, hhd, hM => by
    obtain ⟨hlne, hcells, hl2len, hwfr⟩ := hwf
    obtain ⟨hm, rfl⟩ : ∃ hm, h = hm + 1 := by
      refine ⟨h - 1, ?_⟩
      simp only [List.length_cons] at hlen
      omega
    have hlr : (l2 :: r).length = hm + 1 := by
      simp only [List.length_cons] at hlen ⊢
      omega
    have hll : l.length = M.length := by simpa using hhd
    have hKhd : ((l2 :: r).headD []).length = (Tree.leafStep l M (hm + 1)).length := by
      simp only [List.headD_cons]
      rw [leafStep_length l M _ hll, hl2len]
    rw [leafLoop_cons l (l2 :: r) (hm + 1) M (by simp)]
    simp only [Nat.add_sub_cancel]
    exact leafLoop_leafMapOk B (l2 :: r) hm (Tree.leafStep l M (hm + 1)) hwfr hlr hKhd
      (leafStep_mapOk B hm l M hll hM)

theorem Tree.leafLayer_ok (t : Tree) (hWF : Tree.WF t) :
    leafMapOk (Tree.bits t) (Tree.leafLayer t) := by
  obtain ⟨hne, hhd, hwfs⟩ := hWF
  cases t with
  | nil => exact absurd rfl hne
  | cons l r =>
    unfold Tree.leafLayer
    rw [Tree.bits_eq _ hne, List.length_cons, Nat.add_sub_cancel]
    exact leafLoop_leafMapOk (16 ^ (r.length + 1)) (l :: r) r.length [0] hwfs (by simp)
      (by simpa using hhd) (mapOk_root r.length)

/-- The observable effect of `Tree::set` on every in-range bit. -/
theorem Tree.get_set (t : Tree) (b b' : Nat) (hWF : Tree.WF t) (hb : b < Tree.bits t)
    (hb' : b' < Tree.bits t) :
    Tree.get (Tree.set t b) b' = (decide (b' = b) || Tree.get t b') := by
  obtain ⟨hWF2, hlen2, hmap2⟩ := Tree.set_spec t b hWF hb
  have hbits : Tree.bits (Tree.set t b) = Tree.bits t := by
    unfold Tree.bits
    rw [hlen2]
  rw [Tree.get_eq_leafLookup _ _ hWF2 (by rw [hbits]; exact hb'), hmap2,
    Tree.get_eq_leafLookup t b' hWF hb']
  obtain ⟨hpw, hmem⟩ := Tree.leafLayer_ok t hWF
  exact leafLookup_mapSetBit b b' _ hpw (fun p hp => (hmem p hp).1)

/-- The observable effect of `Tree::unset` on every in-range bit. -/
theorem Tree.get_unset (t : Tree) (b b' : Nat) (hWF : Tree.WF t) (hb : b < Tree.bits t)
    (hb' : b' < Tree.bits t) :
    Tree.get (Tree.unset t b) b' = (!decide (b' = b) && Tree.get t b') := by
  obtain ⟨hWF2, hlen2, hmap2⟩ := Tree.unset_spec t b hWF hb
  have hbits : Tree.bits (Tree.unset t b) = Tree.bits t := by
    unfold Tree.bits
    rw [hlen2]
  rw [Tree.get_eq_leafLookup _ _ hWF2 (by rw [hbits]; exact hb'), hmap2,
    Tree.get_eq_leafLookup t b' hWF hb']
  obtain ⟨hpw, hmem⟩ := Tree.leafLayer_ok t hWF
  exact leafLookup_mapUnsetBit b b' _ hpw (fun p hp => (hmem p hp).2.2)

/-! ### Grow -/

theorem leafStep_one_zero (h : Nat) : Tree.leafStep [1] [0] h = [0] := by
  have hf : ((List.range 16).filter fun idx => Cell.get 1 idx) = [0] := by decide
  unfold Tree.leafStep
  simp [hf]

theorem Tree.grow_leafLayer (t : Tree) (ht : t ≠ []) :
    Tree.leafLayer (Tree.grow t) = Tree.leafLayer t := by
  cases t with
  | nil => exact absurd rfl ht
  | cons l r =>
    show Tree.leafLoop ([1] :: l :: r) (([1] :: l :: r).length - 1) [0] = _
    rw [leafLoop_cons [1] (l :: r) _ [0] (by simp)]
    unfold Tree.leafLayer
    simp only [List.length_cons, Nat.add_sub_cancel]
    rw [leafStep_one_zero]

theorem Tree.grow_wf (t : Tree) (hWF : Tree.WF t) : Tree.WF (Tree.grow t) := by
  obtain ⟨hne, hhd, hwfs⟩ := hWF
  refine ⟨by simp [Tree.grow], rfl, ?_⟩
  rw [show Tree.grow t = [1] :: t from rfl, WFs_cons_iff _ _ hne]
  refine ⟨by simp, ?_, ?_, hwfs⟩
  · intro c hc
    simp at hc
    omega
  · rw [hhd]
    decide

theorem Tree.grow_bits (t : Tree) (ht : t ≠ []) :
    Tree.bits (Tree.grow t) = 16 * Tree.bits t := by
  rw [Tree.bits_eq _ ht, Tree.bits_eq (Tree.grow t) (by simp [Tree.grow])]
  rw [show (Tree.grow t).length = t.length + 1 from by simp [Tree.grow]]
  rw [pow_succ]
  ring

/-- Growing never alters any in-range bit. -/
theorem Tree.get_grow (t : Tree) (b : Nat) (hWF : Tree.WF t) (hb : b < Tree.bits t) :
    Tree.get (Tree.grow t) b = Tree.get t b := by
  have hne := hWF.1
  have hb2 : b < Tree.bits (Tree.grow t) := by
    rw [Tree.grow_bits t hne]
    have hpos : 0 < Tree.bits t := by
      rw [Tree.bits_eq _ hne]
      exact pow16_pos _
    omega
  rw [Tree.get_eq_leafLookup _ b (Tree.grow_wf t hWF) hb2, Tree.grow_leafLayer t hne,
    Tree.get_eq_leafLookup t b hWF hb]

/-! ### Construction from cells and the round-trip -/

theorem fromLoop_flatten : ∀ (rest : List Layer) (prev : Layer) (fuel : Nat),
    WFs (prev :: rest) → rest.flatten.length ≤ fuel →
    Tree.fromLoop fuel prev rest.flatten = .ok rest
  | [], prev, fuel, _, _ => by
    show Tree.fromLoop fuel prev [] = .ok []
    cases fuel <;> rfl
  | l :: r, prev, fuel, hwf, hfuel => by
    rw [WFs_cons_iff _ _ (by simp)] at hwf
    obtain ⟨hpne, hpcells, hlen, hwfr⟩ := hwf
    simp only [List.headD_cons] at hlen
    have hlne : l ≠ [] := by
      cases r with
      | nil => exact hwfr.1
      | cons l2 r2 => exact hwfr.1
    have hlpos : 0 < l.length := List.length_pos.mpr hlne
    have hflat : (l :: r).flatten = l ++ r.flatten := by simp
    have hflen : (l :: r).flatten.length = l.length + r.flatten.length := by
      rw [hflat, List.length_append]
    obtain ⟨f, rfl⟩ : ∃ f, fuel = f + 1 := ⟨fuel - 1, by omega⟩
    rw [hflat]
    have hvne : l ++ r.flatten ≠ [] := by
      intro hc
      have h1 : (l ++ r.flatten).length = 0 := by rw [hc]; rfl
      rw [List.length_append] at h1
      omega
    obtain ⟨x, xs, hxs⟩ : ∃ x xs, l ++ r.flatten = x :: xs := by
      cases hv : l ++ r.flatten with
      | nil => exact absurd hv hvne
      | cons x xs => exact ⟨x, xs, rfl⟩
    rw [hxs]
    show (if Layer.count_ones prev = 0 then _ else _) = _
    rw [if_neg (by omega), ← hxs]
    have htake : (l ++ r.flatten).take (Layer.count_ones prev) = l := by
      rw [← hlen, List.take_left]
    have hdrop : (l ++ r.flatten).drop (Layer.count_ones prev) = r.flatten := by
      rw [← hlen, List.drop_left]
    rw [if_neg (by simp; omega)]
    rw [htake, hdrop, fromLoop_flatten r l f hwfr (by omega)]

theorem cellsB_of_wfr : ∀ (r : List Layer), WFs r → cellsB r.flatten
  | [], _ => by intro c hc; simp at hc
  | [l], hwf => by
    intro c hc
    simp at hc
    exact hwf.2 c hc
  | l :: l2 :: r, hwf => by
    intro c hc
    simp only [List.flatten_cons, List.mem_append] at hc
    rcases hc with hc | hc
    · exact hwf.2.1 c hc
    · exact cellsB_of_wfr (l2 :: r) hwf.2.2.2 c (by simpa using hc)

theorem fromLoop_wf : ∀ (fuel : Nat) (prev : Layer) (v : List Nat) (ls : List Layer),
    prev ≠ [] → cellsB prev → cellsB v →
    Tree.fromLoop fuel prev v = .ok ls → WFs (prev :: ls) ∧ ls.flatten = v
  | fuel, prev, [], ls, hpne, hpcells, _, hok => by
    have : Tree.fromLoop fuel prev [] = .ok [] := by cases fuel <;> rfl
    rw [this] at hok
    cases hok
    exact ⟨⟨hpne, hpcells⟩, rfl⟩
  | 0, prev, x :: xs, ls, _, _, _, hok => by
    exact absurd hok (by simp [Tree.fromLoop])
  | fuel + 1, prev, x :: xs, ls, hpne, hpcells, hvcells, hok => by
    rw [show Tree.fromLoop (fuel + 1) prev (x :: xs) =
        (if Layer.count_ones prev = 0 then Except.error TError.Malformed
         else if (x :: xs).length < Layer.count_ones prev then Except.error TError.Malformed
         else match Tree.fromLoop fuel ((x :: xs).take (Layer.count_ones prev))
            ((x :: xs).drop (Layer.count_ones prev)) with
          | .ok ls => .ok ((x :: xs).take (Layer.count_ones prev) :: ls)
          | .error e => .error e) from rfl] at hok
    by_cases h0 : Layer.count_ones prev = 0
    · rw [if_pos h0] at hok
      cases hok
    rw [if_neg h0] at hok
    by_cases h1 : (x :: xs).length < Layer.count_ones prev
    · rw [if_pos h1] at hok
      cases hok
    rw [if_neg h1] at hok
    cases hrec : Tree.fromLoop fuel ((x :: xs).take (Layer.count_ones prev))
        ((x :: xs).drop (Layer.count_ones prev)) with
    | error e => rw [hrec] at hok; cases hok
    | ok ls2 =>
      rw [hrec] at hok
      cases hok
      have htne : (x :: xs).take (Layer.count_ones prev) ≠ [] := by
        intro hc
        have := congrArg List.length hc
        simp at this
        omega
      have htlen : ((x :: xs).take (Layer.count_ones prev)).length = Layer.count_ones prev := by
        rw [List.length_take]
        omega
      obtain ⟨hwf2, hflat2⟩ := fromLoop_wf fuel _ _ ls2 htne
        (fun c hc => hvcells c (List.mem_of_mem_take hc))
        (fun c hc => hvcells c (List.mem_of_mem_drop hc)) hrec
      constructor
      · rw [WFs_cons_iff _ _ (by simp)]
        refine ⟨hpne, hpcells, ?_, hwf2⟩
        simp only [List.headD_cons]
        exact htlen
      · simp only [List.flatten_cons]
        rw [hflat2, List.take_append_drop]

/-- Every accepted input is the serialization of the resulting tree, and
the resulting tree is well formed. -/
theorem Tree.fromCells_wf (v : List Nat) (t : Tree) (hv : cellsB v)
    (hok : Tree.fromCells v = .ok t) : Tree.WF t ∧ Tree.toVec t = v := by
  cases v with
  | nil => exact absurd hok (by simp [Tree.fromCells])
  | cons c vs =>
    rw [show Tree.fromCells (c :: vs) =
        (match Tree.fromLoop vs.length [c] vs with
         | .ok ls => .ok ([c] :: ls)
         | .error e => .error e) from rfl] at hok
    cases hrec : Tree.fromLoop vs.length [c] vs with
    | error e => rw [hrec] at hok; cases hok
    | ok ls =>
      rw [hrec] at hok
      cases hok
      obtain ⟨hwf2, hflat2⟩ := fromLoop_wf vs.length [c] vs ls (by simp)
        (fun y hy => by
          have hyc : y = c := by simpa using hy
          subst hyc
          exact hv y (List.mem_cons_self _ _))
        (fun y hy => hv y (List.mem_cons_of_mem _ hy)) hrec
      refine ⟨⟨by simp, rfl, hwf2⟩, ?_⟩
      unfold Tree.toVec
      simp only [List.flatten_cons]
      rw [hflat2]
      rfl

/-- The round-trip: serializing a well-formed tree and parsing it back
gives the very same tree. -/
theorem Tree.fromCells_toVec (t : Tree) (hWF : Tree.WF t) :
    Tree.fromCells (Tree.toVec t) = .ok t := by
  obtain ⟨hne, hhd, hwfs⟩ := hWF
  cases t with
  | nil => exact absurd rfl hne
  | cons l r =>
    obtain ⟨c, rfl⟩ : ∃ c, l = [c] := by
      cases l with
      | nil => simp at hhd
      | cons c tl =>
        simp at hhd
        exact ⟨c, by rw [hhd]⟩
    show Tree.fromCells (([c] :: r).flatten) = _
    have hflat : ([c] :: r).flatten = c :: r.flatten := by simp
    rw [hflat]
    show (match Tree.fromLoop r.flatten.length [c] r.flatten with
      | Except.ok ls => Except.ok ([c] :: ls)
      | Except.error e => Except.error e) = _
    rw [fromLoop_flatten r [c] r.flatten.length hwfs (Nat.le_refl _)]

/-! ### Reachable trees -/

/-- The trees obtainable through the public constructors and in-range
mutations; `from` inputs carry the source's `u16` typing. -/
inductive Tree.Reachable : Tree → Prop
  | new : Tree.Reachable Tree.new
  | ofCells (v : List Nat) (t : Tree) (hv : cellsB v)
      (h : Tree.fromCells v = Except.ok t) : Tree.Reachable t
  | grow (t : Tree) : Tree.Reachable t → Tree.Reachable (Tree.grow t)
  | set (t : Tree) (b : Nat) : b < Tree.bits t → Tree.Reachable t →
      Tree.Reachable (Tree.set t b)
  | unset (t : Tree) (b : Nat) : b < Tree.bits t → Tree.Reachable t →
      Tree.Reachable (Tree.unset t b)

theorem Tree.reachable_wf (t : Tree) (h : Tree.Reachable t) : Tree.WF t := by
  induction h with
  | new => exact Tree.new_wf
  | ofCells v t hv hok => exact (Tree.fromCells_wf v t hv hok).1
  | grow t _ ih => exact Tree.grow_wf t ih
  | set t b hb _ ih => exact (Tree.set_spec t b ih hb).1
  | unset t b hb _ ih => exact (Tree.unset_spec t b ih hb).1

/-- Reachability avoiding any `set` of the distinguished bit `b` (and any
`from`, whose input could encode `b` directly). -/
inductive Tree.ReachableNS (b : Nat) : Tree → Prop
  | new : Tree.ReachableNS b Tree.new
  | grow (t : Tree) : Tree.ReachableNS b t → Tree.ReachableNS b (Tree.grow t)
  | set (t : Tree) (b2 : Nat) : b2 < Tree.bits t → b2 ≠ b → Tree.ReachableNS b t →
      Tree.ReachableNS b (Tree.set t b2)
  | unset (t : Tree) (b2 : Nat) : b2 < Tree.bits t → Tree.ReachableNS b t →
      Tree.ReachableNS b (Tree.unset t b2)

theorem Tree.reachableNS_reachable (b : Nat) (t : Tree) (h : Tree.ReachableNS b t) :
    Tree.Reachable t := by
  induction h with
  | new => exact Tree.Reachable.new
  | grow t _ ih => exact Tree.Reachable.grow t ih
  | set t b2 hb _ _ ih => exact Tree.Reachable.set t b2 hb ih
  | unset t b2 hb _ ih => exact Tree.Reachable.unset t b2 hb ih

theorem leafLookup_ge_bits (B b : Nat) (P : List (Nat × Nat)) (hok : leafMapOk B P)
    (hb : B ≤ b) : leafLookup P b = false := by
  apply leafLookup_false_of_not_covered
  intro p hp
  have h1 := (hok.2 p hp).2.1
  omega

theorem Tree.get_new (b : Nat) : Tree.get Tree.new b = false := by
  have h1 : Tree.get Tree.new b = (Cell.get 0 (Layer.cell_bit 0 b) && true) := rfl
  rw [h1, Cell.get_zero, Bool.false_and]

/-- A bit that was never set reads `false`. -/
theorem Tree.reachableNS_get (b : Nat) (t : Tree) (h : Tree.ReachableNS b t)
    (hb : b < Tree.bits t) : Tree.get t b = false := by
  induction h with
  | new => exact Tree.get_new b
  | grow t hr ih =>
    have hWF := Tree.reachable_wf t (Tree.reachableNS_reachable b t hr)
    rcases Nat.lt_or_ge b (Tree.bits t) with hb1 | hb1
    · rw [Tree.get_grow t b hWF hb1]
      exact ih hb1
    · rw [Tree.get_eq_leafLookup _ b (Tree.grow_wf t hWF) hb, Tree.grow_leafLayer t hWF.1]
      exact leafLookup_ge_bits (Tree.bits t) b _ (Tree.leafLayer_ok t hWF) hb1
  | set t b2 hb2 hne hr ih =>
    have hWF := Tree.reachable_wf t (Tree.reachableNS_reachable b t hr)
    have hbits : Tree.bits (Tree.set t b2) = Tree.bits t := by
      unfold Tree.bits
      rw [(Tree.set_spec t b2 hWF hb2).2.1]
    rw [hbits] at hb
    rw [Tree.get_set t b2 b hWF hb2 hb, ih hb]
    simp [Ne.symm hne]
  | unset t b2 hb2 hr ih =>
    have hWF := Tree.reachable_wf t (Tree.reachableNS_reachable b t hr)
    have hbits : Tree.bits (Tree.unset t b2) = Tree.bits t := by
      unfold Tree.bits
      rw [(Tree.unset_spec t b2 hWF hb2).2.1]
    rw [hbits] at hb
    rw [Tree.get_unset t b2 b hWF hb2 hb, ih hb]
    simp

/-! ### Structural non-pruning of unset and monotonicity of set -/

theorem Layer.unset_length (l : Layer) (h o b : Nat) :
    (Layer.unset l h o b).length = l.length := by
  unfold Layer.unset
  exact List.length_set l _ _

theorem Layer.set_fst_length (l : Layer) (h o b : Nat) :
    ((Layer.set l h o b).1).length = l.length := by
  unfold Layer.set
  by_cases hg : (Layer.get l h o b).2
  · rw [if_pos hg]
  · rw [if_neg hg]
    exact List.length_set l _ _

theorem unsetAux_shape : ∀ (L : List Layer) (h i b : Nat),
    (Tree.unsetAux b L h i).length = L.length ∧
    (∀ k, ((Tree.unsetAux b L h i).getD k []).length = (L.getD k []).length) ∧
    (Tree.unsetAux b L h i).flatten.length = L.flatten.length
  | [], _, _, _ => ⟨rfl, fun _ => rfl, rfl⟩
  | l :: rest, h, i, b => by
    by_cases h0 : h = 0
    · subst h0
      have hgaux : Tree.unsetAux b (l :: rest) 0 i = Layer.unset l 0 i b :: rest := by
        show (if (0 : Nat) = 0 then _ else _) = _
        rw [if_pos rfl]
      rw [hgaux]
      refine ⟨by simp, ?_, by simp [Layer.unset_length]⟩
      intro k
      cases k with
      | zero => simp [Layer.unset_length]
      | succ k => simp
    · have hgaux : Tree.unsetAux b (l :: rest) h i =
          if (Layer.get l h i b).2 then
            l :: Tree.unsetAux b rest (h - 1) (Layer.get l h i b).1
          else l :: rest := by
        show (if h = 0 then _ else _) = _
        rw [if_neg h0]
      by_cases hg : (Layer.get l h i b).2
      · rw [hgaux, if_pos hg]
        obtain ⟨ih1, ih2, ih3⟩ := unsetAux_shape rest (h - 1) (Layer.get l h i b).1 b
        refine ⟨by simp [ih1], ?_, by simp [ih3]⟩
        intro k
        cases k with
        | zero => simp
        | succ k => simpa using ih2 k
      · rw [hgaux, if_neg hg]
        exact ⟨rfl, fun _ => rfl, rfl⟩

/-- `Tree::unset` removes no layer and no cell, whatever the tree. -/
theorem Tree.unset_shape (t : Tree) (b : Nat) :
    (Tree.unset t b).length = t.length ∧
    (∀ k, ((Tree.unset t b).getD k []).length = (t.getD k []).length) ∧
    (Tree.toVec (Tree.unset t b)).length = (Tree.toVec t).length :=
  unsetAux_shape t (t.length - 1) 0 b

theorem length_insertIdx_ge : ∀ (i : Nat) (l : List Nat) (a : Nat),
    l.length ≤ (List.insertIdx i a l).length
  | 0, l, a => by simp
  | _ + 1, [], _ => by simp
  | i + 1, x :: xs, a => by
    show (x :: xs).length ≤ (x :: List.insertIdx i a xs).length
    simpa using length_insertIdx_ge i xs a

theorem setAux_toVec_ge : ∀ (L : List Layer) (h i b : Nat) (c : Bool),
    L.flatten.length ≤ (Tree.setAux b L h i c).flatten.length
  | [], _, _, _, _ => Nat.le_refl _
  | l :: rest, h, i, b, c => by
    rw [setAux_cons]
    simp only [List.flatten_cons, List.length_append]
    have h1 : l.length ≤
        ((Layer.set (if c then Layer.insert_cell l i 0 else l) h i b).1).length := by
      rw [Layer.set_fst_length]
      cases c with
      | true =>
        simp only [if_pos]
        unfold Layer.insert_cell
        exact length_insertIdx_ge i l 0
      | false => simp
    have h2 := setAux_toVec_ge rest (h - 1) (Layer.set (if c then Layer.insert_cell l i 0
      else l) h i b).2.1 b (Layer.set (if c then Layer.insert_cell l i 0 else l) h i b).2.2
    omega

/-- `Tree::set` never loses a cell. -/
theorem Tree.set_toVec_ge (t : Tree) (b : Nat) :
    (Tree.toVec t).length ≤ (Tree.toVec (Tree.set t b)).length :=
  setAux_toVec_ge t (t.length - 1) 0 b false

/-- Folding any sequence of sets then any sequence of unsets never shrinks
the serialization. -/
theorem Tree.setList_unsetList_ge (t : Tree) (bs cs : List Nat) :
    (Tree.toVec t).length ≤
      (Tree.toVec (List.foldl Tree.unset (List.foldl Tree.set t bs) cs)).length := by
  have hset : ∀ (bs2 : List Nat) (t2 : Tree),
      (Tree.toVec t2).length ≤ (Tree.toVec (List.foldl Tree.set t2 bs2)).length := by
    intro bs2
    induction bs2 with
    | nil => intro t2; exact Nat.le_refl _
    | cons x xs ih =>
      intro t2
      calc (Tree.toVec t2).length ≤ (Tree.toVec (Tree.set t2 x)).length :=
            Tree.set_toVec_ge t2 x
        _ ≤ _ := ih (Tree.set t2 x)
  have hunset : ∀ (cs2 : List Nat) (t2 : Tree),
      (Tree.toVec (List.foldl Tree.unset t2 cs2)).length = (Tree.toVec t2).length := by
    intro cs2
    induction cs2 with
    | nil => intro t2; rfl
    | cons x xs ih =>
      intro t2
      calc (Tree.toVec (List.foldl Tree.unset (Tree.unset t2 x) xs)).length
          = (Tree.toVec (Tree.unset t2 x)).length := ih (Tree.unset t2 x)
        _ = (Tree.toVec t2).length := (Tree.unset_shape t2 x).2.2
  rw [hunset cs (List.foldl Tree.set t bs)]
  exact hset bs t

/-! ### Bit-granular rank over the concatenation of a layer's cells

`Layer.concat_bit` and `Layer.spec_rank` are NOT translations of the
source: they follow the specification's words for `count_ones_until`
("rank across the concatenation of all Cells: each earlier Cell's full
popcount plus a prefix popcount within the final partial Cell"), to be
compared against the source's cell-granular `Layer.count_ones_until`. -/

/-- Bit `i` of the concatenation of the layer's cells, 16 bits per cell. -/
def Layer.concat_bit (l : Layer) (i : Nat) : Bool :=
  Cell.get (l.getD (i / 16) 0) (i % 16)

/-- The bit-granular prefix rank the specification describes. -/
def Layer.spec_rank (l : Layer) (off : Nat) : Nat :=
  ((List.range off).filter fun i => Layer.concat_bit l i).length

theorem Cell.count_ones_until_idx_zero (c : Nat) : Cell.count_ones_until c 0 = 0 := by
  unfold Cell.count_ones_until
  rw [show (1 <<< 0 - 1 : Nat) = 0 from rfl, Nat.and_zero]
  exact Cell.count_ones_zero

theorem Cell.count_ones_until_succ (c o : Nat) (ho : o < 16) :
    Cell.count_ones_until c (o + 1) =
      Cell.count_ones_until c o + (if Cell.get c o then 1 else 0) := by
  rw [Cell.count_ones_until_eq_filter c (o + 1) (by omega),
    Cell.count_ones_until_eq_filter c o (by omega)]
  rw [List.range_succ, List.filter_append, List.length_append]
  cases hg : Cell.get c o <;> simp [hg]

theorem Cell.count_ones_until_sixteen (c : Nat) :
    Cell.count_ones_until c 16 = Cell.count_ones c := by
  rw [Cell.count_ones_until_eq_filter c 16 (Nat.le_refl _)]
  rfl

theorem Layer.count_ones_until_step (l : Layer) (q : Nat) :
    Layer.count_ones_until l (q + 1) =
      Layer.count_ones_until l q + Cell.count_ones (l.getD q 0) := by
  unfold Layer.count_ones_until
  rcases Nat.lt_or_ge q l.length with hq | hq
  · rw [List.take_succ, Layer.count_ones_append]
    congr 1
    rw [List.getElem?_eq_getElem hq]
    show Layer.count_ones [l[q]] = _
    rw [getD_eq_getElem l q hq]
    simp [Layer.count_ones]
  · rw [List.take_of_length_le (by omega), List.take_of_length_le (by omega)]
    rw [List.getD_eq_getElem?_getD, List.getElem?_eq_none (by omega)]
    show Layer.count_ones l = Layer.count_ones l + Cell.count_ones 0
    rw [Cell.count_ones_zero]
    omega

/-- What the source pair really computes: the bit-granular rank of the
concatenation splits as the cell-granular prefix rank of the layer plus
the in-cell prefix rank at the split point. -/
theorem Layer.spec_rank_decomp (l : Layer) : ∀ (off : Nat),
    Layer.spec_rank l off =
      Layer.count_ones_until l (off / 16) +
        Cell.count_ones_until (l.getD (off / 16) 0) (off % 16)
  | 0 => by
    show ((List.range 0).filter _).length = _
    rw [show (0 : Nat) / 16 = 0 from rfl, show (0 : Nat) % 16 = 0 from rfl,
      Cell.count_ones_until_idx_zero]
    rfl
  | off + 1 => by
    have hstep : Layer.spec_rank l (off + 1) =
        Layer.spec_rank l off + (if Layer.concat_bit l off then 1 else 0) := by
      unfold Layer.spec_rank
      rw [List.range_succ, List.filter_append, List.length_append]
      cases hg : Layer.concat_bit l off <;> simp [hg]
    rw [hstep, Layer.spec_rank_decomp l off]
    have hr : off % 16 < 16 := Nat.mod_lt _ (by norm_num)
    unfold Layer.concat_bit
    by_cases hb : off % 16 = 15
    · have hdiv : (off + 1) / 16 = off / 16 + 1 := by omega
      have hmod : (off + 1) % 16 = 0 := by omega
      rw [hdiv, hmod, Layer.count_ones_until_step, Cell.count_ones_until_idx_zero,
        ← Cell.count_ones_until_sixteen (l.getD (off / 16) 0),
        show (16 : Nat) = 15 + 1 from rfl,
        Cell.count_ones_until_succ _ 15 (by norm_num), hb]
      cases hg : Cell.get (l.getD (off / 16) 0) 15
      · simp [hg]
      · simp [hg]
        omega
    · have hdiv : (off + 1) / 16 = off / 16 := by omega
      have hmod : (off + 1) % 16 = off % 16 + 1 := by omega
      rw [hdiv, hmod, Cell.count_ones_until_succ _ _ hr, Nat.add_assoc]

/-! ### The deserialization error taxonomy

`specMalformed` is NOT a translation of the source: it follows the
claim's words for when parsing must fail with `Malformed` — while
consuming layers, a layer's popcount exceeds the remaining input, or a
layer has zero popcount while input remains.  The carried `n` is the
previous layer's popcount and the fuel is the remaining input length. -/
def specMalformed : Nat → Nat → List Nat → Bool
  | _, _, [] => false
  | 0, _, _ :: _ => true
  | fuel + 1, n, v =>
    if n = 0 then true
    else if v.length < n then true
    else specMalformed fuel (Layer.count_ones (v.take n)) (v.drop n)

theorem fromLoop_taxonomy : ∀ (fuel : Nat) (prev : Layer) (v : List Nat),
    Tree.fromLoop fuel prev v ≠ .error TError.Empty ∧
    (Tree.fromLoop fuel prev v = .error TError.Malformed ↔
      specMalformed fuel (Layer.count_ones prev) v = true) ∧
    (specMalformed fuel (Layer.count_ones prev) v = false →
      ∃ ls, Tree.fromLoop fuel prev v = .ok ls)
  | fuel, prev, [] => by
    have h1 : Tree.fromLoop fuel prev [] = .ok [] := by cases fuel <;> rfl
    have h2 : specMalformed fuel (Layer.count_ones prev) [] = false := by
      cases fuel <;> rfl
    rw [h1, h2]
    exact ⟨by simp, by simp, fun _ => ⟨[], rfl⟩⟩
  | 0, prev, x :: xs => by
    have h1 : Tree.fromLoop 0 prev (x :: xs) = .error TError.Malformed := rfl
    have h2 : specMalformed 0 (Layer.count_ones prev) (x :: xs) = true := rfl
    rw [h1, h2]
    exact ⟨by simp, by simp, by simp⟩
  | fuel + 1, prev, x :: xs => by
    have hfl : Tree.fromLoop (fuel + 1) prev (x :: xs) =
        (if Layer.count_ones prev = 0 then Except.error TError.Malformed
         else if (x :: xs).length < Layer.count_ones prev then Except.error TError.Malformed
         else match Tree.fromLoop fuel ((x :: xs).take (Layer.count_ones prev))
            ((x :: xs).drop (Layer.count_ones prev)) with
          | .ok ls => .ok ((x :: xs).take (Layer.count_ones prev) :: ls)
          | .error e => .error e) := rfl
    have hsm : specMalformed (fuel + 1) (Layer.count_ones prev) (x :: xs) =
        (if Layer.count_ones prev = 0 then true
         else if (x :: xs).length < Layer.count_ones prev then true
         else specMalformed fuel
            (Layer.count_ones ((x :: xs).take (Layer.count_ones prev)))
            ((x :: xs).drop (Layer.count_ones prev))) := rfl
    by_cases h0 : Layer.count_ones prev = 0
    · rw [hfl, hsm, if_pos h0, if_pos h0]
      exact ⟨by simp, by simp, by simp⟩
    by_cases h1 : (x :: xs).length < Layer.count_ones prev
    · rw [hfl, hsm, if_neg h0, if_neg h0, if_pos h1, if_pos h1]
      exact ⟨by simp, by simp, by simp⟩
    rw [hfl, hsm, if_neg h0, if_neg h0, if_neg h1, if_neg h1]
    obtain ⟨ih1, ih2, ih3⟩ := fromLoop_taxonomy fuel ((x :: xs).take (Layer.count_ones prev))
      ((x :: xs).drop (Layer.count_ones prev))
    cases hrec : Tree.fromLoop fuel ((x :: xs).take (Layer.count_ones prev))
        ((x :: xs).drop (Layer.count_ones prev)) with
    | ok ls =>
      rw [hrec] at ih2
      refine ⟨by simp, ?_, fun _ => ⟨_, rfl⟩⟩
      constructor
      · intro hc
        cases hc
      · intro hc
        exact absurd (ih2.mpr hc) (by simp)
    | error e =>
      rw [hrec] at ih1 ih2
      cases e with
      | Empty => exact absurd rfl ih1
      | Malformed =>
        refine ⟨by simp, ?_, ?_⟩
        · exact ⟨fun _ => ih2.mp rfl, fun _ => rfl⟩
        · intro hfalse
          obtain ⟨ls, hls⟩ := ih3 hfalse
          rw [hls] at hrec
          cases hrec

/-! ### Iterator correctness -/

theorem iterCollect_succ_none (n bits index : Nat) (rest : List (Nat × Nat)) :
    Tree.iterCollect (n + 1) bits index none rest =
      if bits ≤ index then some []
      else (Tree.iterCollect n bits (index + 1) none rest).map (false :: ·) := rfl

theorem iterCollect_succ_some (n bits index o c : Nat) (rest : List (Nat × Nat)) :
    Tree.iterCollect (n + 1) bits index (some (o, c)) rest =
      if bits ≤ index then some []
      else if index < o then
        (Tree.iterCollect n bits (index + 1) (some (o, c)) rest).map (false :: ·)
      else match Cell.getChecked c (index - o) with
        | none => none
        | some v =>
          if o + 16 ≤ index + 1 then
            (Tree.iterCollect n bits (index + 1) rest.head? rest.tail).map (v :: ·)
          else (Tree.iterCollect n bits (index + 1) (some (o, c)) rest).map (v :: ·) := rfl

theorem onesCollect_succ_none (n bits index : Nat) (rest : List (Nat × Nat)) :
    Tree.onesCollect (n + 1) bits index none rest = some [] := by
  show (if bits ≤ index then some [] else _) = _
  by_cases h : bits ≤ index
  · rw [if_pos h]
  · rw [if_neg h]

theorem onesCollect_succ_some (n bits index o c : Nat) (rest : List (Nat × Nat)) :
    Tree.onesCollect (n + 1) bits index (some (o, c)) rest =
      if bits ≤ index then some []
      else
        match Cell.getChecked c ((if index < o then o else index) - o) with
        | none => none
        | some v =>
          if v then
            (Tree.onesCollect n bits ((if index < o then o else index) + 1)
              (if o + 16 ≤ (if index < o then o else index) + 1 then rest.head?
                else some (o, c))
              (if o + 16 ≤ (if index < o then o else index) + 1 then rest.tail
                else rest)).map ((if index < o then o else index) :: ·)
          else
            Tree.onesCollect n bits ((if index < o then o else index) + 1)
              (if o + 16 ≤ (if index < o then o else index) + 1 then rest.head?
                else some (o, c))
              (if o + 16 ≤ (if index < o then o else index) + 1 then rest.tail
                else rest) := rfl

theorem leafLookup_lt_head (o c b : Nat) (tl : List (Nat × Nat))
    (hp : (((o, c) :: tl).Pairwise fun p q => p.1 + 16 ≤ q.1)) (hb : b < o) :
    leafLookup ((o, c) :: tl) b = false := by
  apply leafLookup_false_of_not_covered
  intro p hpmem
  rcases List.mem_cons.mp hpmem with rfl | hpm
  · omega
  · rw [List.pairwise_cons] at hp
    have := hp.1 p hpm
    omega

theorem leafLookup_ge_head (o c b : Nat) (tl : List (Nat × Nat)) (hb : o + 16 ≤ b) :
    leafLookup ((o, c) :: tl) b = leafLookup tl b := by
  rw [leafLookup_cons, if_neg (by omega)]

theorem range'_split (a b c : Nat) (hab : a ≤ b) (hbc : b ≤ c) :
    List.range' a (c - a) = List.range' a (b - a) ++ List.range' b (c - b) := by
  have h := List.range'_append a (b - a) (c - b) 1
  rw [Nat.one_mul, show a + (b - a) = b from by omega,
    show c - b + (b - a) = c - a from by omega] at h
  exact h.symm

theorem range'_succ_left (a n : Nat) :
    List.range' a (n + 1) = a :: List.range' (a + 1) n := by
  rw [List.range'_succ]

/-- A full run of the forward iterator reads the leaf map at every index
in `[index, bits)`: fuel at least `bits - index` suffices, and no
`cell.get` panic occurs as long as the index has not passed the current
cell. -/
theorem iterCollect_spec : ∀ (n bits index : Nat) (W : List (Nat × Nat)),
    bits - index ≤ n →
    (W.Pairwise fun p q => p.1 + 16 ≤ q.1) →
    (∀ p, W.head? = some p → index < p.1 + 16) →
    Tree.iterCollect n bits index W.head? W.tail =
      some ((List.range' index (bits - index)).map fun b => leafLookup W b)
  | 0, bits, index, W, hfuel, _, _ => by
    have h0 : bits - index = 0 := by omega
    rw [h0]
    rfl
  | n + 1, bits, index, W, hfuel, hpw, hcur => by
    by_cases hbi : bits ≤ index
    · have h0 : bits - index = 0 := by omega
      rw [h0]
      cases W with
      | nil => rw [show ([] : List (Nat × Nat)).head? = none from rfl,
          iterCollect_succ_none, if_pos hbi]; rfl
      | cons p tl =>
        obtain ⟨o, c⟩ := p
        rw [show (((o, c) :: tl)).head? = some (o, c) from rfl,
          iterCollect_succ_some, if_pos hbi]
        rfl
    have hrange : bits - index = (bits - (index + 1)) + 1 := by omega
    cases W with
    | nil =>
      rw [show ([] : List (Nat × Nat)).head? = none from rfl,
        show ([] : List (Nat × Nat)).tail = [] from rfl,
        iterCollect_succ_none, if_neg hbi]
      have ih := iterCollect_spec n bits (index + 1) [] (by omega) List.Pairwise.nil
        (by intro p hp; cases hp)
      rw [show ([] : List (Nat × Nat)).head? = none from rfl,
        show ([] : List (Nat × Nat)).tail = [] from rfl] at ih
      rw [ih, hrange, range'_succ_left]
      rfl
    | cons p tl =>
      obtain ⟨o, c⟩ := p
      have hcurI : index < o + 16 := hcur (o, c) rfl
      rw [show (((o, c) :: tl)).head? = some (o, c) from rfl,
        show (((o, c) :: tl)).tail = tl from rfl,
        iterCollect_succ_some, if_neg hbi]
      by_cases hio : index < o
      · rw [if_pos hio]
        have ih := iterCollect_spec n bits (index + 1) ((o, c) :: tl) (by omega) hpw
          (by intro p hp; rw [show (((o, c) :: tl)).head? = some (o, c) from rfl] at hp
              cases hp; omega)
        rw [show (((o, c) :: tl)).head? = some (o, c) from rfl,
          show (((o, c) :: tl)).tail = tl from rfl] at ih
        rw [ih, hrange, range'_succ_left]
        simp only [List.map_cons]
        rw [leafLookup_lt_head o c index tl hpw hio]
        rfl
      · rw [if_neg hio]
        have hobd : index - o < 16 := by omega
        rw [show Cell.getChecked c (index - o) = some (Cell.get c (index - o)) from by
          unfold Cell.getChecked
          rw [if_pos hobd]]
        have hhead : leafLookup ((o, c) :: tl) index = Cell.get c (index - o) := by
          rw [leafLookup_cons, if_pos ⟨by omega, hcurI⟩]
        rw [show (match some (Cell.get c (index - o)) with
            | none => none
            | some v =>
              if o + 16 ≤ index + 1 then
                (Tree.iterCollect n bits (index + 1) tl.head? tl.tail).map (v :: ·)
              else (Tree.iterCollect n bits (index + 1) (some (o, c)) tl).map (v :: ·)) =
            (if o + 16 ≤ index + 1 then
              (Tree.iterCollect n bits (index + 1) tl.head? tl.tail).map
                (Cell.get c (index - o) :: ·)
            else (Tree.iterCollect n bits (index + 1) (some (o, c)) tl).map
                (Cell.get c (index - o) :: ·)) from rfl]
        by_cases hadv : o + 16 ≤ index + 1
        · rw [if_pos hadv]
          have ih := iterCollect_spec n bits (index + 1) tl (by omega)
            (List.pairwise_cons.mp hpw).2
            (by intro p hp
                cases tl with
                | nil => cases hp
                | cons q tq =>
                  cases hp
                  have := (List.pairwise_cons.mp hpw).1 _ (List.mem_cons_self _ _)
                  omega)
          rw [ih, hrange, range'_succ_left]
          show some (Cell.get c (index - o) ::
              List.map (fun b => leafLookup tl b)
                (List.range' (index + 1) (bits - (index + 1)))) =
            some (List.map (fun b => leafLookup ((o, c) :: tl) b)
              (index :: List.range' (index + 1) (bits - (index + 1))))
          simp only [List.map_cons]
          rw [hhead]
          refine congrArg some (congrArg (List.cons _) ?_)
          apply List.map_congr_left
          intro b hb
          have hbmem := List.mem_range'_1.mp hb
          show leafLookup tl b = leafLookup ((o, c) :: tl) b
          exact (leafLookup_ge_head o c b tl (by omega)).symm
        · rw [if_neg hadv]
          have ih := iterCollect_spec n bits (index + 1) ((o, c) :: tl) (by omega) hpw
            (by intro p hp
                rw [show (((o, c) :: tl)).head? = some (o, c) from rfl] at hp
                cases hp; omega)
          rw [show (((o, c) :: tl)).head? = some (o, c) from rfl,
            show (((o, c) :: tl)).tail = tl from rfl] at ih
          rw [ih, hrange, range'_succ_left]
          show some (Cell.get c (index - o) ::
              List.map (fun b => leafLookup ((o, c) :: tl) b)
                (List.range' (index + 1) (bits - (index + 1)))) =
            some (List.map (fun b => leafLookup ((o, c) :: tl) b)
              (index :: List.range' (index + 1) (bits - (index + 1))))
          simp only [List.map_cons]
          rw [hhead]

theorem filter_false_of_all (f : Nat → Bool) : ∀ (l : List Nat),
    (∀ x ∈ l, f x = false) → l.filter f = []
  | [], _ => rfl
  | x :: xs, h => by
    have hx := h x (List.mem_cons_self _ _)
    have hxs := filter_false_of_all f xs fun y hy => h y (List.mem_cons_of_mem _ hy)
    simp [List.filter_cons, hx, hxs]

/-- A full run of the ones iterator filters the leaf map over the range,
provided every cell of the map ends within `bits` (so the mid-iteration
jump to a cell start stays in range). -/
theorem onesCollect_spec : ∀ (n bits index : Nat) (W : List (Nat × Nat)),
    bits - index ≤ n →
    (W.Pairwise fun p q => p.1 + 16 ≤ q.1) →
    (∀ p ∈ W, p.1 + 16 ≤ bits) →
    (∀ p, W.head? = some p → index < p.1 + 16) →
    Tree.onesCollect n bits index W.head? W.tail =
      some ((List.range' index (bits - index)).filter fun b => leafLookup W b)
  | 0, bits, index, W, hfuel, _, _, _ => by
    have h0 : bits - index = 0 := by omega
    rw [h0]
    rfl
  | n + 1, bits, index, W, hfuel, hpw, hbd, hcur => by
    by_cases hbi : bits ≤ index
    · have h0 : bits - index = 0 := by omega
      rw [h0]
      cases W with
      | nil => rw [show ([] : List (Nat × Nat)).head? = none from rfl,
          onesCollect_succ_none]; rfl
      | cons p tl =>
        obtain ⟨o, c⟩ := p
        rw [show (((o, c) :: tl)).head? = some (o, c) from rfl,
          onesCollect_succ_some, if_pos hbi]
        rfl
    cases W with
    | nil =>
      rw [show ([] : List (Nat × Nat)).head? = none from rfl,
        show ([] : List (Nat × Nat)).tail = [] from rfl, onesCollect_succ_none,
        filter_false_of_all _ _ (fun x _ => leafLookup_nil x)]
    | cons p tl =>
      obtain ⟨o, c⟩ := p
      have hcurI : index < o + 16 := hcur (o, c) rfl
      have hobits : o + 16 ≤ bits := hbd (o, c) (List.mem_cons_self _ _)
      rw [show (((o, c) :: tl)).head? = some (o, c) from rfl,
        show (((o, c) :: tl)).tail = tl from rfl,
        onesCollect_succ_some, if_neg hbi]
      by_cases hio : index < o
      · simp only [if_pos hio]
        have hsplit : (List.range' index (bits - index)).filter
            (fun b => leafLookup ((o, c) :: tl) b) =
            (List.range' o (bits - o)).filter (fun b => leafLookup ((o, c) :: tl) b) := by
          rw [range'_split index o bits (by omega) (by omega), List.filter_append,
            filter_false_of_all _ _ (fun x hx => by
              have hxm := List.mem_range'_1.mp hx
              exact leafLookup_lt_head o c x tl hpw (by omega)),
            List.nil_append]
        rw [hsplit, show bits - o = (bits - (o + 1)) + 1 from by omega, range'_succ_left,
          List.filter_cons]
        have hlook : leafLookup ((o, c) :: tl) o = Cell.get c 0 := by
          rw [leafLookup_cons, if_pos ⟨Nat.le_refl o, by omega⟩, Nat.sub_self]
        have ih := onesCollect_spec n bits (o + 1) ((o, c) :: tl) (by omega) hpw hbd
          (by intro p hp
              rw [show (((o, c) :: tl)).head? = some (o, c) from rfl] at hp
              cases hp; omega)
        rw [show (((o, c) :: tl)).head? = some (o, c) from rfl,
          show (((o, c) :: tl)).tail = tl from rfl] at ih
        cases hv : Cell.get c 0 with
        | false =>
          have hgc : Cell.getChecked c (o - o) = some false := by
            rw [Nat.sub_self]
            unfold Cell.getChecked
            rw [if_pos (by omega), hv]
          simp only [hgc, if_neg (show ¬(o + 16 ≤ o + 1) from by omega)]
          rw [ih, hlook, hv]
          simp
        | true =>
          have hgc : Cell.getChecked c (o - o) = some true := by
            rw [Nat.sub_self]
            unfold Cell.getChecked
            rw [if_pos (by omega), hv]
          simp only [hgc, if_neg (show ¬(o + 16 ≤ o + 1) from by omega)]
          rw [ih, hlook, hv]
          simp
      · simp only [if_neg hio]
        have hrange : bits - index = (bits - (index + 1)) + 1 := by omega
        rw [hrange, range'_succ_left, List.filter_cons]
        have hlook : leafLookup ((o, c) :: tl) index = Cell.get c (index - o) := by
          rw [leafLookup_cons, if_pos ⟨by omega, hcurI⟩]
        by_cases hadv : o + 16 ≤ index + 1
        · have ih := onesCollect_spec n bits (index + 1) tl (by omega)
            (List.pairwise_cons.mp hpw).2
            (fun p hp => hbd p (List.mem_cons_of_mem _ hp))
            (by intro p hp
                cases tl with
                | nil => cases hp
                | cons q tq =>
                  cases hp
                  have := (List.pairwise_cons.mp hpw).1 _ (List.mem_cons_self _ _)
                  omega)
          have hcongr : (List.range' (index + 1) (bits - (index + 1))).filter
              (fun b => leafLookup tl b) =
              (List.range' (index + 1) (bits - (index + 1))).filter
              (fun b => leafLookup ((o, c) :: tl) b) := by
            apply List.filter_congr
            intro b hb
            have hbm := List.mem_range'_1.mp hb
            show leafLookup tl b = leafLookup ((o, c) :: tl) b
            exact (leafLookup_ge_head o c b tl (by omega)).symm
          cases hv : Cell.get c (index - o) with
          | false =>
            have hgc : Cell.getChecked c (index - o) = some false := by
              unfold Cell.getChecked
              rw [if_pos (by omega), hv]
            simp only [hgc, if_pos hadv]
            rw [ih, hcongr, hlook, hv]
            simp
          | true =>
            have hgc : Cell.getChecked c (index - o) = some true := by
              unfold Cell.getChecked
              rw [if_pos (by omega), hv]
            simp only [hgc, if_pos hadv]
            rw [ih, hcongr, hlook, hv]
            simp
        · have ih := onesCollect_spec n bits (index + 1) ((o, c) :: tl) (by omega) hpw hbd
            (by intro p hp
                rw [show (((o, c) :: tl)).head? = some (o, c) from rfl] at hp
                cases hp; omega)
          rw [show (((o, c) :: tl)).head? = some (o, c) from rfl,
            show (((o, c) :: tl)).tail = tl from rfl] at ih
          cases hv : Cell.get c (index - o) with
          | false =>
            have hgc : Cell.getChecked c (index - o) = some false := by
              unfold Cell.getChecked
              rw [if_pos (by omega), hv]
            simp only [hgc, if_neg hadv]
            rw [ih, hlook, hv]
            simp
          | true =>
            have hgc : Cell.getChecked c (index - o) = some true := by
              unfold Cell.getChecked
              rw [if_pos (by omega), hv]
            simp only [hgc, if_neg hadv]
            rw [ih, hlook, hv]
            simp

theorem iterInit_zero (t : Tree) :
    Tree.iterInit t 0 = ((Tree.leafLayer t).head?, (Tree.leafLayer t).tail) := by
  unfold Tree.iterInit
  rw [if_neg (by decide)]

/-- `Tree::iter` yields exactly the in-range `get` values, in order. -/
theorem Tree.iter_eq (t : Tree) (hWF : Tree.WF t) :
    Tree.iter t = some ((List.range (Tree.bits t)).map fun b => Tree.get t b) := by
  obtain ⟨hpw, hmem⟩ := Tree.leafLayer_ok t hWF
  show Tree.iterCollect (Tree.bits t) (Tree.bits t) 0 (Tree.iterInit t 0).1
    (Tree.iterInit t 0).2 = _
  rw [iterInit_zero]
  rw [iterCollect_spec (Tree.bits t) (Tree.bits t) 0 (Tree.leafLayer t) (by omega) hpw
    (fun p _ => by omega)]
  rw [Nat.sub_zero, ← List.range_eq_range']
  refine congrArg some ?_
  apply List.map_congr_left
  intro b hb
  have hblt := List.mem_range.mp hb
  show leafLookup (Tree.leafLayer t) b = Tree.get t b
  exact (Tree.get_eq_leafLookup t b hWF hblt).symm

/-- `Tree::iter_ones` yields exactly the increasing list of in-range set
bits. -/
theorem Tree.iterOnes_eq (t : Tree) (hWF : Tree.WF t) :
    Tree.iterOnes t = some ((List.range (Tree.bits t)).filter fun b => Tree.get t b) := by
  obtain ⟨hpw, hmem⟩ := Tree.leafLayer_ok t hWF
  have hfe : (List.range (Tree.bits t)).filter (fun b => Tree.get t b) =
      (List.range' 0 (Tree.bits t)).filter fun b => leafLookup (Tree.leafLayer t) b := by
    rw [← List.range_eq_range']
    apply List.filter_congr
    intro b hb
    have hblt := List.mem_range.mp hb
    show Tree.get t b = leafLookup (Tree.leafLayer t) b
    exact Tree.get_eq_leafLookup t b hWF hblt
  show Tree.onesCollect (Tree.bits t) (Tree.bits t)
      (max 0 (((Tree.iterInit t 0).1.map Prod.fst).getD 0)) (Tree.iterInit t 0).1
      (Tree.iterInit t 0).2 = _
  rw [iterInit_zero, hfe]
  cases hP : Tree.leafLayer t with
  | nil =>
    rw [show (([] : List (Nat × Nat)).head?.map Prod.fst).getD 0 = 0 from rfl]
    rw [show max 0 0 = 0 from rfl]
    rw [onesCollect_spec (Tree.bits t) (Tree.bits t) 0 [] (by omega) List.Pairwise.nil
      (by intro p hp; cases hp) (by intro p hp; cases hp), Nat.sub_zero]
  | cons q tl =>
    obtain ⟨o, c⟩ := q
    rw [hP] at hpw hmem
    rw [show ((((o, c) :: tl) : List (Nat × Nat)).head?.map Prod.fst).getD 0 = o from rfl]
    have hobits : o + 16 ≤ Tree.bits t := (hmem (o, c) (List.mem_cons_self _ _)).2.1
    rw [show max 0 o = o from by omega]
    rw [show (((o, c) :: tl) : List (Nat × Nat)).head? = some (o, c) from rfl,
      show (((o, c) :: tl) : List (Nat × Nat)).tail = tl from rfl]
    have hrun := onesCollect_spec (Tree.bits t) (Tree.bits t) o ((o, c) :: tl) (by omega)
      hpw (fun p hp => (hmem p hp).2.1) (by
        intro p hp
        rw [show (((o, c) :: tl) : List (Nat × Nat)).head? = some (o, c) from rfl] at hp
        cases hp
        omega)
    rw [show (((o, c) :: tl) : List (Nat × Nat)).head? = some (o, c) from rfl,
      show (((o, c) :: tl) : List (Nat × Nat)).tail = tl from rfl] at hrun
    rw [hrun]
    refine congrArg some ?_
    conv_rhs => rw [show Tree.bits t = Tree.bits t - 0 from (Nat.sub_zero _).symm,
      range'_split 0 o (Tree.bits t) (by omega) (by omega), List.filter_append]
    rw [filter_false_of_all (fun b => leafLookup ((o, c) :: tl) b) (List.range' 0 (o - 0))
      (fun x hx => by
        have hxm := List.mem_range'_1.mp hx
        exact leafLookup_lt_head o c x tl hpw (by omega)),
      List.nil_append]

/-! ### The claims -/

/-- C1: Serialization round-trip — for every tree reachable by any
sequence of `new`/`from`/`grow`/`set`/`unset`, `Tree::from(T.to_vec())`
returns `Ok` of a tree with the same `bits()` and the same `get()` at
every in-range bit index. -/
theorem C1_serialization_round_trip (t : Tree) (h : Tree.Reachable t) :
    ∃ t2, Tree.fromCells (Tree.toVec t) = Except.ok t2 ∧
      Tree.bits t2 = Tree.bits t ∧
      ∀ b, b < Tree.bits t → Tree.get t2 b = Tree.get t b :=
  ⟨t, Tree.fromCells_toVec t (Tree.reachable_wf t h), rfl, fun _ _ => rfl⟩

theorem C1_serialization_round_trip_witness :
    Tree.Reachable (Tree.set Tree.new 3) ∧
      ∃ t2, Tree.fromCells (Tree.toVec (Tree.set Tree.new 3)) = Except.ok t2 ∧
        Tree.bits t2 = Tree.bits (Tree.set Tree.new 3) ∧
        ∀ b, b < Tree.bits (Tree.set Tree.new 3) →
          Tree.get t2 b = Tree.get (Tree.set Tree.new 3) b :=
  ⟨Tree.Reachable.set Tree.new 3 (by decide) Tree.Reachable.new,
    C1_serialization_round_trip _
      (Tree.Reachable.set Tree.new 3 (by decide) Tree.Reachable.new)⟩

/-- C2: Set/unset cancellation on value — after `set(b)` the bit reads
`true`, after a subsequent `unset(b)` it reads `false`, and in a tree in
which `b` was never set it reads `false`. -/
theorem C2_set_unset_cancellation (t : Tree) (b : Nat) (h : Tree.Reachable t)
    (hb : b < Tree.bits t) :
    Tree.get (Tree.set t b) b = true ∧
    Tree.get (Tree.unset (Tree.set t b) b) b = false ∧
    (Tree.ReachableNS b t → Tree.get t b = false) := by
  have hWF := Tree.reachable_wf t h
  obtain ⟨hWF2, hlen2, -⟩ := Tree.set_spec t b hWF hb
  have hbits2 : Tree.bits (Tree.set t b) = Tree.bits t := by
    unfold Tree.bits
    rw [hlen2]
  refine ⟨?_, ?_, fun hns => Tree.reachableNS_get b t hns hb⟩
  · rw [Tree.get_set t b b hWF hb hb]
    simp
  · rw [Tree.get_unset (Tree.set t b) b b hWF2 (by omega) (by omega)]
    simp

theorem C2_set_unset_cancellation_witness :
    Tree.Reachable Tree.new ∧ 3 < Tree.bits Tree.new ∧
      (Tree.get (Tree.set Tree.new 3) 3 = true ∧
       Tree.get (Tree.unset (Tree.set Tree.new 3) 3) 3 = false ∧
       (Tree.ReachableNS 3 Tree.new → Tree.get Tree.new 3 = false)) :=
  ⟨Tree.Reachable.new, by decide,
    C2_set_unset_cancellation Tree.new 3 Tree.Reachable.new (by decide)⟩

/-- C3: Whole-tree iteration consistency — `iter` yields exactly
`bits()` booleans whose `b`-th element is `get(b)`, and `iter_ones`
yields exactly the strictly increasing list of in-range indices at which
`get` is `true`. -/
theorem C3_whole_tree_iteration (t : Tree) (h : Tree.WF t) :
    (∃ L, Tree.iter t = some L ∧ L.length = Tree.bits t ∧
      ∀ b, b < Tree.bits t → L.getD b false = Tree.get t b) ∧
    (∃ O, Tree.iterOnes t = some O ∧ O.Pairwise (· < ·) ∧
      ∀ b, b ∈ O ↔ b < Tree.bits t ∧ Tree.get t b = true) := by
  constructor
  · refine ⟨_, Tree.iter_eq t h, ?_, ?_⟩
    · rw [List.length_map, List.length_range]
    · intro b hb
      rw [List.getD_eq_getElem?_getD, List.getElem?_map, List.getElem?_range hb]
      rfl
  · refine ⟨_, Tree.iterOnes_eq t h, ?_, ?_⟩
    · exact (List.pairwise_lt_range _).sublist (List.filter_sublist _)
    · intro b
      rw [List.mem_filter, List.mem_range]

theorem C3_whole_tree_iteration_witness :
    Tree.WF (Tree.new) ∧
      ((∃ L, Tree.iter Tree.new = some L ∧ L.length = Tree.bits Tree.new ∧
        ∀ b, b < Tree.bits Tree.new → L.getD b false = Tree.get Tree.new b) ∧
      (∃ O, Tree.iterOnes Tree.new = some O ∧ O.Pairwise (· < ·) ∧
        ∀ b, b ∈ O ↔ b < Tree.bits Tree.new ∧ Tree.get Tree.new b = true)) :=
  ⟨Tree.new_wf, C3_whole_tree_iteration Tree.new Tree.new_wf⟩

/-- C4: Deserialization error taxonomy — `Empty` exactly on the empty
input; for nonempty input, `Malformed` exactly when the consumption
process meets a zero-popcount layer with input remaining or a popcount
exceeding the remaining input, and `Ok` otherwise; in particular
`from([1,0])` is accepted and `from([0,0])` is `Malformed`. -/
theorem C4_error_taxonomy (v : List Nat) :
    (Tree.fromCells v = Except.error TError.Empty ↔ v = []) ∧
    (v ≠ [] →
      (Tree.fromCells v = Except.error TError.Malformed ↔
        specMalformed v.tail.length (Cell.count_ones (v.headD 0)) v.tail = true)) ∧
    (v ≠ [] →
      specMalformed v.tail.length (Cell.count_ones (v.headD 0)) v.tail = false →
      ∃ t, Tree.fromCells v = Except.ok t) ∧
    Tree.fromCells [1, 0] = Except.ok [[1], [0]] ∧
    Tree.fromCells [0, 0] = Except.error TError.Malformed ∧
    Tree.fromCells [] = Except.error TError.Empty := by
  refine ⟨?_, ?_, ?_, rfl, rfl, rfl⟩
  · cases v with
    | nil => exact ⟨fun _ => rfl, fun _ => rfl⟩
    | cons c vs =>
      obtain ⟨hne, hiff, hok⟩ := fromLoop_taxonomy vs.length [c] vs
      constructor
      · intro hc
        rw [show Tree.fromCells (c :: vs) =
            (match Tree.fromLoop vs.length [c] vs with
             | Except.ok ls => Except.ok ([c] :: ls)
             | Except.error e => Except.error e) from rfl] at hc
        cases hrec : Tree.fromLoop vs.length [c] vs with
        | ok ls => rw [hrec] at hc; cases hc
        | error e =>
          rw [hrec] at hc hne
          cases e with
          | Empty => exact absurd rfl hne
          | Malformed => cases hc
      · intro hc
        cases hc
  · cases v with
    | nil => intro hc; exact absurd rfl hc
    | cons c vs =>
      intro _
      obtain ⟨hne, hiff, hok⟩ := fromLoop_taxonomy vs.length [c] vs
      have hco : Layer.count_ones [c] = Cell.count_ones c := by
        simp [Layer.count_ones]
      rw [hco] at hiff
      rw [show Tree.fromCells (c :: vs) =
          (match Tree.fromLoop vs.length [c] vs with
           | Except.ok ls => Except.ok ([c] :: ls)
           | Except.error e => Except.error e) from rfl]
      show _ ↔ specMalformed vs.length (Cell.count_ones c) vs = true
      cases hrec : Tree.fromLoop vs.length [c] vs with
      | ok ls =>
        rw [hrec] at hiff
        constructor
        · intro hc
          cases hc
        · intro hc
          exact absurd (hiff.mpr hc) (by simp)
      | error e =>
        rw [hrec] at hiff hne
        cases e with
        | Empty => exact absurd rfl hne
        | Malformed => exact ⟨fun _ => hiff.mp rfl, fun _ => rfl⟩
  · cases v with
    | nil => intro hc; exact absurd rfl hc
    | cons c vs =>
      intro _ hfalse
      obtain ⟨hne, hiff, hok⟩ := fromLoop_taxonomy vs.length [c] vs
      have hco : Layer.count_ones [c] = Cell.count_ones c := by
        simp [Layer.count_ones]
      rw [hco] at hok
      obtain ⟨ls, hls⟩ := hok hfalse
      refine ⟨[c] :: ls, ?_⟩
      rw [show Tree.fromCells (c :: vs) =
          (match Tree.fromLoop vs.length [c] vs with
           | Except.ok ls => Except.ok ([c] :: ls)
           | Except.error e => Except.error e) from rfl, hls]

theorem C4_error_taxonomy_witness :
    (Tree.fromCells [0, 0] = Except.error TError.Malformed ↔
      specMalformed ([0] : List Nat).length (Cell.count_ones 0) [0] = true) ∧
    ([0, 0] : List Nat) ≠ [] :=
  ⟨(C4_error_taxonomy [0, 0]).2.1 (by decide), by decide⟩

/-- C5: Non-pruning of unset — `unset` removes no layer and no cell: the
layer count, each layer's cell count and hence the serialized length are
unchanged; and folding any sets followed by any unsets never yields a
shorter serialization than the starting tree's. -/
theorem C5_non_pruning_unset (t : Tree) (b : Nat) (_hb : b < Tree.bits t) :
    (Tree.unset t b).length = t.length ∧
    (∀ k, ((Tree.unset t b).getD k []).length = (t.getD k []).length) ∧
    (Tree.toVec (Tree.unset t b)).length = (Tree.toVec t).length ∧
    ∀ (bs cs : List Nat),
      (Tree.toVec t).length ≤
        (Tree.toVec (List.foldl Tree.unset (List.foldl Tree.set t bs) cs)).length := by
  obtain ⟨h1, h2, h3⟩ := Tree.unset_shape t b
  exact ⟨h1, h2, h3, fun bs cs => Tree.setList_unsetList_ge t bs cs⟩

theorem C5_non_pruning_unset_witness :
    0 < Tree.bits Tree.new ∧
      ((Tree.unset Tree.new 0).length = Tree.new.length ∧
       (∀ k, ((Tree.unset Tree.new 0).getD k []).length = (Tree.new.getD k []).length) ∧
       (Tree.toVec (Tree.unset Tree.new 0)).length = (Tree.toVec Tree.new).length ∧
       ∀ (bs cs : List Nat),
         (Tree.toVec Tree.new).length ≤
           (Tree.toVec (List.foldl Tree.unset (List.foldl Tree.set Tree.new bs)
             cs)).length) :=
  ⟨by decide, C5_non_pruning_unset Tree.new 0 (by decide)⟩

/-- C6: Grow — prepends a root layer of the single cell `1` (only bit 0
set), multiplies `bits()` by 16, adds one to the height, preserves every
previously addressable bit, and the capacity sequence from `new` is
16, 256, 4096. -/
theorem C6_grow (t : Tree) (h : Tree.Reachable t) :
    Tree.grow t = [1] :: t ∧
    Cell.get 1 0 = true ∧
    (∀ j, j ≠ 0 → Cell.get 1 j = false) ∧
    Tree.bits (Tree.grow t) = 16 * Tree.bits t ∧
    Tree.height (Tree.grow t) = Tree.height t + 1 ∧
    (∀ b, b < Tree.bits t → Tree.get (Tree.grow t) b = Tree.get t b) ∧
    Tree.bits Tree.new = 16 ∧
    Tree.bits (Tree.grow Tree.new) = 256 ∧
    Tree.bits (Tree.grow (Tree.grow Tree.new)) = 4096 := by
  have hWF := Tree.reachable_wf t h
  refine ⟨rfl, by decide, ?_, Tree.grow_bits t hWF.1, by
      show (Tree.grow t).length = t.length + 1
      simp [Tree.grow],
    fun b hb => Tree.get_grow t b hWF hb, by decide, by decide, by decide⟩
  intro j hj
  rw [Cell.get_eq_testBit]
  apply Nat.testBit_lt_two_pow
  have h1 : 1 ≤ j := by omega
  calc (1 : Nat) < 2 ^ 1 := by norm_num
    _ ≤ 2 ^ j := Nat.pow_le_pow_right (by norm_num) h1

theorem C6_grow_witness :
    Tree.Reachable Tree.new ∧
      (Tree.grow Tree.new = [1] :: Tree.new ∧
       Cell.get 1 0 = true ∧
       (∀ j, j ≠ 0 → Cell.get 1 j = false) ∧
       Tree.bits (Tree.grow Tree.new) = 16 * Tree.bits Tree.new ∧
       Tree.height (Tree.grow Tree.new) = Tree.height Tree.new + 1 ∧
       (∀ b, b < Tree.bits Tree.new →
         Tree.get (Tree.grow Tree.new) b = Tree.get Tree.new b) ∧
       Tree.bits Tree.new = 16 ∧
       Tree.bits (Tree.grow Tree.new) = 256 ∧
       Tree.bits (Tree.grow (Tree.grow Tree.new)) = 4096) :=
  ⟨Tree.Reachable.new, C6_grow Tree.new Tree.Reachable.new⟩

/-- C7: Serialization uniqueness — the claim is FALSE as stated: two
distinct accepted inputs can materialize the same bit set (see the
counterexample).  What does hold is injectivity into trees: every
accepted input is the serialization of its parse, so two accepted inputs
producing the same tree are equal. -/
theorem C7_serialization_uniqueness (v1 v2 : List Nat) (t : Tree)
    (h1v : cellsB v1) (h2v : cellsB v2)
    (h1 : Tree.fromCells v1 = Except.ok t) (h2 : Tree.fromCells v2 = Except.ok t) :
    v1 = v2 := by
  have e1 := (Tree.fromCells_wf v1 t h1v h1).2
  have e2 := (Tree.fromCells_wf v2 t h2v h2).2
  rw [← e1, ← e2]

theorem cellsB_zero : cellsB [0] := fun c hc => by simp at hc; omega

theorem C7_serialization_uniqueness_witness :
    cellsB [0] ∧ Tree.fromCells [0] = Except.ok [[0]] ∧ ([0] : List Nat) = [0] :=
  ⟨cellsB_zero, rfl,
    C7_serialization_uniqueness [0] [0] [[0]] cellsB_zero cellsB_zero rfl rfl⟩

set_option maxRecDepth 8192 in
theorem C7_serialization_uniqueness_counterexample :
    Tree.fromCells [0] = Except.ok [[0]] ∧
    Tree.fromCells [1, 0] = Except.ok [[1], [0]] ∧
    ([0] : List Nat) ≠ [1, 0] ∧
    (∀ b, b < Tree.bits [[0]] → Tree.get [[0]] b = false) ∧
    (∀ b, b < Tree.bits [[1], [0]] → Tree.get [[1], [0]] b = false) := by
  refine ⟨rfl, rfl, by decide, by decide, by decide⟩

/-- C8: Bounded-range iteration consistency — FALSE of the code, two
bugs: `iter_ones_range(0..20)` on the tree parsed from `[5, 0, 1]`
yields the single index 32, outside the requested range (the jump to a
cell start skips the end-bound re-check), and `iter_range(32..40)` on
the tree parsed from `[11, 0, 0, 0]` panics inside `cell.get(16)`
(modeled as `none`) because `_scan_iter_forward` keeps a cell whose
range ends exactly at `from`. -/
theorem C8_bounded_range_iteration (t1 t2 : Tree)
    (h1 : Tree.fromCells [5, 0, 1] = Except.ok t1)
    (h2 : Tree.fromCells [11, 0, 0, 0] = Except.ok t2) :
    Tree.iterOnesRange t1 0 20 = some [32] ∧ ¬(32 < 20) ∧
    20 ≤ Tree.bits t1 ∧
    Tree.iterRange t2 32 40 = none ∧ 32 ≤ 40 ∧ 40 ≤ Tree.bits t2 := by
  have e1 : t1 = [[5], [0, 1]] := by
    have : Tree.fromCells [5, 0, 1] = Except.ok [[5], [0, 1]] := rfl
    rw [this] at h1
    cases h1
    rfl
  have e2 : t2 = [[11], [0, 0, 0]] := by
    have : Tree.fromCells [11, 0, 0, 0] = Except.ok [[11], [0, 0, 0]] := rfl
    rw [this] at h2
    cases h2
    rfl
  subst e1
  subst e2
  refine ⟨by decide, by decide, by decide, by decide, by decide, by decide⟩

theorem C8_bounded_range_iteration_witness :
    Tree.fromCells [5, 0, 1] = Except.ok [[5], [0, 1]] ∧
    Tree.fromCells [11, 0, 0, 0] = Except.ok [[11], [0, 0, 0]] ∧
    (Tree.iterOnesRange [[5], [0, 1]] 0 20 = some [32] ∧ ¬(32 < 20) ∧
     20 ≤ Tree.bits [[5], [0, 1]] ∧
     Tree.iterRange [[11], [0, 0, 0]] 32 40 = none ∧ 32 ≤ 40 ∧
     40 ≤ Tree.bits [[11], [0, 0, 0]]) :=
  ⟨rfl, rfl,
    C8_bounded_range_iteration [[5], [0, 1]] [[11], [0, 0, 0]] rfl rfl⟩

/-- C9: Layer prefix rank — FALSE as stated: `count_ones_until` takes a
CELL index and sums whole-cell popcounts only, never a partial prefix
within a final cell (see the counterexample).  Amended: it equals the
bit-granular concatenation rank at offset `16 * idx`, and the
bit-granular rank at any offset decomposes as `count_ones_until` of the
cell index plus the in-cell prefix popcount. -/
theorem C9_layer_prefix_rank (l : Layer) (off : Nat) :
    Layer.count_ones_until l off = Layer.spec_rank l (16 * off) ∧
    Layer.spec_rank l off =
      Layer.count_ones_until l (off / 16) +
        Cell.count_ones_until (l.getD (off / 16) 0) (off % 16) := by
  constructor
  · rw [Layer.spec_rank_decomp l (16 * off), Nat.mul_div_cancel_left off (by norm_num),
      Nat.mul_mod_right, Cell.count_ones_until_idx_zero]
    omega
  · exact Layer.spec_rank_decomp l off

theorem C9_layer_prefix_rank_counterexample :
    Layer.count_ones_until [3] 1 = 2 ∧ Layer.spec_rank [3] 1 = 1 ∧
    Layer.count_ones_until [3] 1 ≠ Layer.spec_rank [3] 1 := by decide

/-- C10: Frame property of single-bit mutation — for distinct in-range
indices, `set` and `unset` at one index never change `get` at the
other. -/
theorem C10_frame_property (t : Tree) (b b2 : Nat) (h : Tree.Reachable t)
    (hb : b < Tree.bits t) (hb2 : b2 < Tree.bits t) (hne : b2 ≠ b) :
    Tree.get (Tree.set t b) b2 = Tree.get t b2 ∧
    Tree.get (Tree.unset t b) b2 = Tree.get t b2 := by
  have hWF := Tree.reachable_wf t h
  constructor
  · rw [Tree.get_set t b b2 hWF hb hb2]
    simp [hne]
  · rw [Tree.get_unset t b b2 hWF hb hb2]
    simp [hne]

theorem C10_frame_property_witness :
    Tree.Reachable Tree.new ∧ 3 < Tree.bits Tree.new ∧ 5 < Tree.bits Tree.new ∧
      (5 : Nat) ≠ 3 ∧
      (Tree.get (Tree.set Tree.new 3) 5 = Tree.get Tree.new 5 ∧
       Tree.get (Tree.unset Tree.new 3) 5 = Tree.get Tree.new 5) :=
  ⟨Tree.Reachable.new, by decide, by decide, by decide,
    C10_frame_property Tree.new 3 5 Tree.Reachable.new (by decide) (by decide)
      (by decide)⟩

end Ksq
